import Mathlib

/-!
# tarutil: a verification development

A shallow embedding of `tarutil.go` (package `tarutil`): the two exported
operations `Archive` and `Extract`, the helper `pathExists`, and the parts of
the libraries they are written against (`strings`, `path/filepath`, `os`,
`archive/tar`, `gzip`, and `fsutil.IsDir` of `github.com/gookit/goutil`),
modelled after their behaviour on a Unix system.

* Strings are lists of characters, file contents are lists of bytes.
* The filesystem is a tree of directories and regular files (no symbolic
  links, no permission bits, no devices, no limit on the length of a name or
  of a path); a process has a working directory.
* The tar and gzip encodings are a parameter (`Codec`): the development only
  relies on what a reader gets back from what a writer wrote.
* Writes to the destination archive may fail: the destination has an optional
  capacity in bytes, and a write that would exceed it fails.
-/

namespace Tarutil

abbrev Str := List Char
abbrev Bytes := List Nat

/-! ## Package `strings` -/

/-- Go `strings.HasSuffix`. -/
def HasSuffix (s suffix : Str) : Bool := suffix.isSuffixOf s

/-- Go `strings.HasPrefix`. -/
def HasPrefix (s pre : Str) : Bool := pre.isPrefixOf s

/-- Go `strings.Contains`: `sub` occurs in `s` as a contiguous run. -/
def Contains : Str → Str → Bool
  | [], sub => sub.isPrefixOf []
  | c :: s, sub => sub.isPrefixOf (c :: s) || Contains s sub

/-! ## Package `path/filepath` (Unix) -/

/-- The elements of a path string between its separators. -/
def splitSlash : Str → List Str
  | [] => [[]]
  | c :: s =>
    if c = '/' then [] :: splitSlash s
    else match splitSlash s with
      | [] => [[c]]
      | x :: xs => (c :: x) :: xs

/-- Elements joined by single separators. -/
def joinSlash : List Str → Str
  | [] => []
  | [a] => a
  | a :: b :: rest => a ++ '/' :: joinSlash (b :: rest)

/-- Whether the path starts at the root. -/
def IsAbs (s : Str) : Bool := s.head? = some '/'

/-- One element of the lexical processing of `Clean`: empty elements and `.`
are dropped, `..` removes the element before it when there is one to remove,
is dropped at the root, and is kept at the front of a relative path. -/
def cleanStep (rooted : Bool) (acc : List Str) (c : Str) : List Str :=
  if c = [] ∨ c = ['.'] then acc
  else if c = ['.', '.'] then
    match acc.getLast? with
    | none => if rooted then acc else acc ++ [c]
    | some top => if top = ['.', '.'] then acc ++ [c] else acc.dropLast
  else acc ++ [c]

/-- The elements `Clean` keeps. -/
def cleanParts (s : Str) : List Str :=
  (splitSlash s).foldl (cleanStep (IsAbs s)) []

/-- The path string of a cleaned path. -/
def render (rooted : Bool) (parts : List Str) : Str :=
  if rooted then '/' :: joinSlash parts
  else if parts = [] then ['.'] else joinSlash parts

/-- Go `filepath.Clean`. -/
def Clean (s : Str) : Str := render (IsAbs s) (cleanParts s)

/-- Go `filepath.Join` of two elements: empty elements are ignored, the rest
is joined by a separator and cleaned. -/
def Join (a b : Str) : Str :=
  if a ≠ [] then Clean (a ++ '/' :: b)
  else if b ≠ [] then Clean b
  else []

/-- Go `filepath.Dir`: all but the last element of the path, cleaned. -/
def Dir (s : Str) : Str :=
  Clean (s.reverse.dropWhile (fun c => c ≠ '/')).reverse

/-- Go `filepath.Abs`, with the working directory as an argument. -/
def Abs (wd : Str) (s : Str) : Str :=
  if IsAbs s then Clean s else Join wd s

/-- The elements of a cleaned path, and whether it is rooted. -/
def partsOf (s : Str) : Bool × List Str :=
  match s with
  | ['.'] => (false, [])
  | '/' :: rest => (true, if rest = [] then [] else splitSlash rest)
  | _ => (false, splitSlash s)

/-- The two lists without their longest common front. -/
def stripCommon : List Str → List Str → List Str × List Str
  | a :: as, b :: bs => if a = b then stripCommon as bs else (a :: as, b :: bs)
  | as, bs => (as, bs)

/-- Go `filepath.Rel`: a path that leads from `basepath` to `targpath`; it
fails when one is rooted and the other is not, or when the way up from the
base would pass through a `..` element of the base. -/
def Rel (basepath targpath : Str) : Option Str :=
  let base := Clean basepath
  let targ := Clean targpath
  if targ = base then some ['.']
  else
    let pb := partsOf base
    let pt := partsOf targ
    if pb.1 ≠ pt.1 then none
    else
      let rem := stripCommon pb.2 pt.2
      if rem.1.head? = some ['.', '.'] then none
      else some (joinSlash (rem.1.map (fun _ => ['.', '.']) ++ rem.2))

/-- The function `basename` of Go package `os`, which names the `FileInfo` of an open
file: trailing separators are removed, then everything up to the last
separator. -/
def basename (name : Str) : Str :=
  let r := name.reverse.dropWhile (fun c => c = '/')
  if r = [] then (if name = [] then [] else ['/'])
  else (r.takeWhile (fun c => c ≠ '/')).reverse

/-! ## The filesystem -/

/-- A filesystem object: a regular file with its content, or a directory
with its named entries (kept in ascending name order, the order in which a
sorted directory listing yields them). -/
inductive Node where
  | file (data : Bytes)
  | dir (kids : List (Str × Node))
  deriving Inhabited

/-- What a path names, without the objects beneath it. -/
inductive Kind where
  | file (data : Bytes)
  | dir
  deriving DecidableEq, Repr, Inhabited

/-- Error numbers of the system calls. -/
inductive Errno where
  | ENOENT
  | ENOTDIR
  | EISDIR
  deriving DecidableEq, Repr, Inhabited

def Node.kind : Node → Kind
  | .file d => .file d
  | .dir _ => .dir

/-- The entry named `n` of a directory. -/
def kidLookup (n : Str) : List (Str × Node) → Option Node
  | [] => none
  | (m, x) :: rest => if m = n then some x else kidLookup n rest

/-- A directory listing with the object of the entry `n` replaced. -/
def kidReplace (n : Str) (v : Node) : List (Str × Node) → List (Str × Node)
  | [] => []
  | (m, x) :: rest => if m = n then (n, v) :: rest else (m, x) :: kidReplace n v rest

/-- A directory listing with a new entry `n`, put before the first greater
name. -/
def kidInsert (n : Str) (v : Node) : List (Str × Node) → List (Str × Node)
  | [] => [(n, v)]
  | (m, x) :: rest => if n < m then (n, v) :: (m, x) :: rest else (m, x) :: kidInsert n v rest

/-- A directory listing with the entry `n` set to `v`. -/
def kidPut (n : Str) (v : Node) (kids : List (Str × Node)) : List (Str × Node) :=
  match kidLookup n kids with
  | some _ => kidReplace n v kids
  | none => kidInsert n v kids

/-- The object at a sequence of names below a node. -/
def Node.get : Node → List Str → Option Node
  | n, [] => some n
  | .file _, _ :: _ => none
  | .dir kids, c :: rest =>
    match kidLookup c kids with
    | none => none
    | some k => k.get rest

/-- The tree with the object at a sequence of names replaced by `v`;
directories on the way that do not exist are made. -/
def Node.put : Node → List Str → Node → Node
  | _, [], v => v
  | .file d, _ :: _, _ => .file d
  | .dir kids, c :: rest, v =>
    .dir (kidPut c (((kidLookup c kids).getD (.dir [])).put rest v) kids)

/-- The state of the machine: the tree below the root directory, and the
working directory of the process as the names that lead to it. -/
structure World where
  root : Node
  cwd : List Str
  deriving Inhabited

/-- What an absolute sequence of names refers to. -/
def World.kindAt (w : World) (loc : List Str) : Option Kind :=
  (w.root.get loc).map Node.kind

/-- The path string of the working directory (`os.Getwd`). -/
def World.wd (w : World) : Str := '/' :: joinSlash w.cwd

/-- One element of a path lookup by the kernel, at the directory `cur`. -/
def stepComp (root : Node) (cur : List Str) (c : Str) : Except Errno (List Str) :=
  match root.get cur with
  | none => .error .ENOENT
  | some (.file _) => .error .ENOTDIR
  | some (.dir kids) =>
    if c = [] ∨ c = ['.'] then .ok cur
    else if c = ['.', '.'] then .ok cur.dropLast
    else match kidLookup c kids with
      | none => .error .ENOENT
      | some _ => .ok (cur ++ [c])

/-- A path lookup, element by element. -/
def walkComps (root : Node) : List Str → List Str → Except Errno (List Str)
  | cur, [] => .ok cur
  | cur, c :: cs =>
    match stepComp root cur c with
    | .error e => .error e
    | .ok cur1 => walkComps root cur1 cs

/-- Where the lookup of a path string starts. -/
def startOf (w : World) (p : Str) : List Str := if IsAbs p then [] else w.cwd

/-- The location a path string names. -/
def resolve (w : World) (p : Str) : Except Errno (List Str) :=
  if p = [] then .error .ENOENT else walkComps w.root (startOf w p) (splitSlash p)

/-- System call `stat` (`os.Stat`). -/
def stat (w : World) (p : Str) : Except Errno Kind :=
  match resolve w p with
  | .error e => .error e
  | .ok loc =>
    match w.kindAt loc with
    | none => .error .ENOENT
    | some k => .ok k

/-- The length of a string in bytes (Go `len`), in the UTF-8 encoding. -/
def byteLen : Str → Nat
  | [] => 0
  | c :: s => c.utf8Size + byteLen s

/-- Function `fsutil.IsDir` of `github.com/gookit/goutil`: false for the empty
path and for a path of more than 468 bytes; otherwise whether `os.Stat`
succeeds and reports a directory. -/
def IsDir (w : World) (p : Str) : Bool :=
  if p = [] ∨ 468 < byteLen p then false
  else match stat w p with
    | .ok .dir => true
    | _ => false

/-- One element of `os.MkdirAll`: a name that is missing in the directory
`cur` is made there. -/
def mkdirStep (root : Node) (cur : List Str) (c : Str) : Except Errno (Node × List Str) :=
  match root.get cur with
  | none => .error .ENOENT
  | some (.file _) => .error .ENOTDIR
  | some (.dir kids) =>
    if c = [] ∨ c = ['.'] then .ok (root, cur)
    else if c = ['.', '.'] then .ok (root, cur.dropLast)
    else match kidLookup c kids with
      | none => .ok (root.put (cur ++ [c]) (.dir []), cur ++ [c])
      | some _ => .ok (root, cur ++ [c])

/-- The elements of `os.MkdirAll`, one after the other; what has been made
stays when a later element fails. -/
def mkdirComps : Node → List Str → List Str → Node × Option Errno
  | root, cur, [] =>
    match root.get cur with
    | some (.dir _) => (root, none)
    | some (.file _) => (root, some .ENOTDIR)
    | none => (root, some .ENOENT)
  | root, cur, c :: cs =>
    match mkdirStep root cur c with
    | .error e => (root, some e)
    | .ok (root1, cur1) => mkdirComps root1 cur1 cs

/-- Go `os.MkdirAll`. -/
def MkdirAll (w : World) (p : Str) : World × Option Errno :=
  if p = [] then (w, some .ENOENT)
  else
    let r := mkdirComps w.root (startOf w p) (splitSlash p)
    ({ w with root := r.1 }, r.2)

/-- Opening a path with `O_RDWR|O_CREATE|O_TRUNC` (`os.Create`, and the
`os.OpenFile` call of `Extract`): the file is made in an existing directory,
or an existing file is emptied. Returns the new state and the location of
the file. -/
def createAt (w : World) (p : Str) : Except Errno (World × List Str) :=
  if p = [] then .error .ENOENT
  else
    match walkComps w.root (startOf w p) (splitSlash p).dropLast with
    | .error e => .error e
    | .ok cur =>
      match w.root.get cur with
      | none => .error .ENOENT
      | some (.file _) => .error .ENOTDIR
      | some (.dir kids) =>
        let c := (splitSlash p).getLast?.getD []
        if c = [] ∨ c = ['.'] ∨ c = ['.', '.'] then .error .EISDIR
        else match kidLookup c kids with
          | some (.dir _) => .error .EISDIR
          | _ => .ok ({ w with root := w.root.put (cur ++ [c]) (.file []) }, cur ++ [c])

/-- The file at a location with new content. -/
def World.write (w : World) (loc : List Str) (data : Bytes) : World :=
  { w with root := w.root.put loc (.file data) }

/-! ## Packages `archive/tar` and `gzip` -/

/-- One record of a tar stream as a reader yields it: the header name,
whether the header is a directory header, and the content. -/
structure Entry where
  name : Str
  isDir : Bool
  body : Bytes
  deriving DecidableEq, Repr, Inhabited

/-- How the reading of a tar stream ends: at the clean end of the stream
(`io.EOF` from `Next`), at a header that cannot be read, or inside the
content of an entry whose header was read. -/
inductive TarEnd where
  | eof
  | badHeader
  | badBody (name : Str) (got : Bytes)
  deriving DecidableEq, Repr, Inhabited

/-- The encodings, which the program uses as black boxes.
`header name isDir size` is what `WriteHeader` emits, `padding size` what
follows a content of `size` bytes, `trailer` what `Close` appends. `gzOut t`
is what the gzip writer has handed to its destination once it has been given
`t`, and `gzAll t` the complete stream after its `Close`. `untar` and
`untargz` are the readers: the entries they yield and how the stream ends;
`untargz` is `none` when `gzip.NewReader` refuses the stream. -/
structure Codec where
  header : Str → Bool → Nat → Bytes
  padding : Nat → Bytes
  trailer : Bytes
  gzOut : Bytes → Bytes
  gzAll : Bytes → Bytes
  untar : Bytes → List Entry × TarEnd
  untargz : Bytes → Option (List Entry × TarEnd)

/-- The bytes a tar writer produces for a sequence of entries. -/
def tarStream (K : Codec) : List Entry → Bytes
  | [] => K.trailer
  | e :: es =>
    K.header e.name e.isDir e.body.length ++ e.body ++ K.padding e.body.length ++ tarStream K es

/-- What the program needs of the encodings: a reader gets back the
entries a writer wrote (a directory entry carries no content). -/
def Codec.Lawful (K : Codec) : Prop :=
  ∀ es : List Entry, (∀ e ∈ es, e.isDir = true → e.body = []) →
    K.untar (tarStream K es) = (es, TarEnd.eof) ∧
    K.untargz (K.gzAll (tarStream K es)) = some (es, TarEnd.eof)

/-- An entry whose header has been written, with the walked path it was
written for. -/
structure Written where
  path : Str
  name : Str
  isDir : Bool
  deriving DecidableEq, Repr, Inhabited

/-- The destination of `Archive`: the file `dstFile`, the gzip writer when
there is one, and the tar writer on top. `cap` is the number of bytes the
file can take (`none`: no limit), `pushed` the tar bytes produced so far,
`pad` the padding the tar writer still has to emit, `owed` the content bytes
the current header announced and that have not been written, `failed`
whether a write to the file has failed, `closed` whether the gzip stream has
been finalized, `log` the headers written. -/
structure Dev where
  gz : Bool
  cap : Option Nat
  pushed : Bytes
  pad : Bytes
  owed : Nat
  failed : Bool
  closed : Bool
  log : List Written

/-- Whether the file can take `n` bytes. -/
def fits (cap : Option Nat) (n : Nat) : Bool :=
  match cap with
  | none => true
  | some c => decide (n ≤ c)

/-- The bytes the writers have tried to put into the file. -/
def emitted (K : Codec) (d : Dev) : Bytes :=
  if d.gz then (if d.closed then K.gzAll d.pushed else K.gzOut d.pushed) else d.pushed

/-- The content of the destination file. -/
def onDisk (K : Codec) (d : Dev) : Bytes :=
  match d.cap with
  | none => emitted K d
  | some c => (emitted K d).take c

/-- The tar writer hands bytes down; `false` when the write fails (now, or
because an earlier one has). -/
def push (K : Codec) (d : Dev) (bs : Bytes) : Dev × Bool :=
  if d.failed then (d, false)
  else
    let d1 := { d with pushed := d.pushed ++ bs }
    if fits d.cap (emitted K d1).length then (d1, true)
    else ({ d1 with failed := true }, false)

/-- The errors `Archive` and `Extract` return. -/
inductive Error where
  | badExtension
  | notExists
  | mkdirFailed (e : Errno)
  | openFailed (e : Errno)
  | sys (e : Errno)
  | gzipReader
  | tarHeader
  | outsideTarget
  | createFailed (e : Errno)
  | extractFailed
  | writeFailed
  | writeTooLong
  | missedWriting
  | relFailed
  deriving DecidableEq, Repr, Inhabited

/-- One filesystem object as `filepath.Walk` hands it to its callback: the
path string, the location, and what `Lstat` and a read see. -/
structure Visit where
  path : Str
  loc : List Str
  isDir : Bool
  data : Bytes
  deriving Inhabited

/-- The content of a visited file at this moment: the destination file is
growing while it is read. -/
def liveData (K : Codec) (dstLoc : List Str) (d : Dev) (v : Visit) : Bytes :=
  if v.loc = dstLoc then onDisk K d else v.data

/-- The calls `tw.WriteHeader(header)` and, for a file, `io.Copy(tw, file)`. -/
def writeEntry (K : Codec) (dstLoc : List Str) (d : Dev) (v : Visit) (name : Str) :
    Dev × Option Error :=
  let size := if v.isDir then 0 else (liveData K dstLoc d v).length
  if d.failed then (d, some .writeFailed)
  else if 0 < d.owed then (d, some .missedWriting)
  else
    let r := push K d (d.pad ++ K.header name v.isDir size)
    if !r.2 then (r.1, some .writeFailed)
    else
      let d1 := { r.1 with pad := K.padding size, owed := size,
                           log := r.1.log ++ [⟨v.path, name, v.isDir⟩] }
      if v.isDir then (d1, none)
      else
        let body := liveData K dstLoc d1 v
        if size < body.length then
          let r2 := push K d1 (body.take size)
          ({ r2.1 with owed := 0 }, some (if r2.2 then .writeTooLong else .writeFailed))
        else
          let r2 := push K d1 body
          if r2.2 then ({ r2.1 with owed := size - body.length }, none)
          else (r2.1, some .writeFailed)

/-- The deferred `tw.Close()`, `gw.Close()`: padding and trailer are
written unless an earlier write failed or content is owed, then the gzip
stream is finalized. What the calls return is dropped. -/
def finish (K : Codec) (d : Dev) : Dev :=
  let d1 := if d.failed ∨ 0 < d.owed then d else (push K d (d.pad ++ K.trailer)).1
  if d1.gz ∧ ¬ d1.failed then
    let d2 := { d1 with closed := true }
    if fits d2.cap (emitted K d2).length then d2 else { d2 with failed := true }
  else d1

mutual
/-- The objects `filepath.Walk` visits from a node on, in its order: the
node, then for each entry of a directory the walk of that entry, under the
path `Join(path, name)`. -/
def walkNode (path : Str) (loc : List Str) : Node → List Visit
  | .file d => [⟨path, loc, false, d⟩]
  | .dir kids => ⟨path, loc, true, []⟩ :: walkKids path loc kids
/-- The walks of the entries of a directory. -/
def walkKids (path : Str) (loc : List Str) : List (Str × Node) → List Visit
  | [] => []
  | (n, c) :: rest => walkNode (Join path n) (loc ++ [n]) c ++ walkKids path loc rest
end

/-- The run of `filepath.Walk` over the objects: the callback is called on
one after the other, and the first error it returns ends the walk. -/
def runWalk (f : Dev → Visit → Dev × Option Error) : Dev → List Visit → Dev × Option Error
  | d, [] => (d, none)
  | d, v :: vs =>
    match f d v with
    | (d1, none) => runWalk f d1 vs
    | (d1, some e) => (d1, some e)

/-! ## Package `tarutil` -/

def suffixTar : Str := ".tar".toList

def suffixTarGz : Str := ".tar.gz".toList

/-- Source `pathExists`: false for the empty path and when `os.Stat` reports that
the path does not exist; true otherwise, also when `os.Stat` fails in another
way. -/
def pathExists (w : World) (path : Str) : Bool :=
  if path = [] then false
  else match stat w path with
    | .error .ENOENT => false
    | _ => true

/-- The callback `Archive` gives to `filepath.Walk`. -/
def walkFn (K : Codec) (src : Str) (excludePaths : List Str) (dstLoc : List Str)
    (d : Dev) (v : Visit) : Dev × Option Error :=
  if src = v.path then (d, none)
  else if excludePaths.any (fun excludePath => Contains v.path excludePath) then (d, none)
  else match Rel src v.path with
    | none => (d, some .relFailed)
    | some relPath => writeEntry K dstLoc d v relPath

/-- The paths `filepath.Walk` visits from `src` on, when it is not stopped. -/
def walkedPaths (w : World) (src : Str) : List Str :=
  match resolve w src with
  | .error _ => []
  | .ok loc =>
    match w.root.get loc with
    | none => []
    | some node => (walkNode src loc node).map Visit.path

/-- What a call of `Archive` leaves: the error it returns, the filesystem,
the headers it wrote, whether a write to the destination failed, and, for a
directory source, the paths of the objects that were under `src` when the
walk began. -/
structure Outcome where
  err : Option Error
  world : World
  log : List Written
  writeFailed : Bool
  walked : List Str

/-- The body of `Archive` once the destination file is open: the walk when
`fsutil.IsDir(src)` holds, and otherwise the branch for a single file, which
opens `src`, writes the header `tar.FileInfoHeader` makes of it (named by the
base name; for a directory a directory header, whose name ends in a
separator) and copies what it reads; reading a directory fails. -/
def archiveInto (K : Codec) (w : World) (dstLoc : List Str) (d0 : Dev) (src : Str)
    (excludePaths : List Str) : Dev × Option Error :=
  if IsDir w src then
    match resolve w src with
    | .error e => (d0, some (.sys e))
    | .ok loc =>
      match w.root.get loc with
      | none => (d0, some (.sys .ENOENT))
      | some node => runWalk (walkFn K src excludePaths dstLoc) d0 (walkNode src loc node)
  else
    match resolve w src with
    | .error e => (d0, some (.sys e))
    | .ok loc =>
      match w.root.get loc with
      | none => (d0, some (.sys .ENOENT))
      | some node =>
        match node with
        | .dir _ =>
          match writeEntry K dstLoc d0 ⟨src, loc, true, []⟩ (basename src ++ ['/']) with
          | (d1, none) => (d1, some (.sys .EISDIR))
          | (d1, some e) => (d1, some e)
        | .file data => writeEntry K dstLoc d0 ⟨src, loc, false, data⟩ (basename src)

/-- Source `Archive(src, dst, excludePaths...)`, on a destination that can take
`cap` bytes. -/
def Archive (K : Codec) (cap : Option Nat) (w : World) (src dst : Str)
    (excludePaths : List Str) : Outcome :=
  if !pathExists w src then ⟨some .notExists, w, [], false, []⟩
  else
    let made := if !pathExists w (Dir dst) then MkdirAll w (Dir dst) else (w, none)
    match made.2 with
    | some e => ⟨some (.mkdirFailed e), made.1, [], false, []⟩
    | none =>
      if !HasSuffix dst suffixTar && !HasSuffix dst suffixTarGz then
        ⟨some .badExtension, made.1, [], false, []⟩
      else
        match createAt made.1 dst with
        | .error e => ⟨some (.sys e), made.1, [], false, []⟩
        | .ok (w2, dstLoc) =>
          let d0 : Dev := ⟨HasSuffix dst suffixTarGz, cap, [], [], 0, false, false, []⟩
          let run := archiveInto K w2 dstLoc d0 src excludePaths
          let d := finish K run.1
          ⟨run.2, w2.write dstLoc (onDisk K d), d.log, d.failed,
            if IsDir w2 src then walkedPaths w2 src else []⟩

/-- What `Extract` does with one entry of the stream at the cleaned
destination `dst`. -/
def extractEntry (w : World) (dst : Str) (e : Entry) : World × Option Error :=
  let target := Clean (Join dst e.name)
  if !HasPrefix target dst then (w, some .outsideTarget)
  else if e.isDir then
    let r := MkdirAll w target
    match r.2 with
    | some en => (r.1, some (.mkdirFailed en))
    | none => (r.1, none)
  else
    match createAt w target with
    | .error en => (w, some (.createFailed en))
    | .ok (w1, loc) => (w1.write loc e.body, none)

/-- The loop of `Extract` over the entries the reader yields. -/
def extractAll (dst : Str) : World → List Entry → World × Option Error
  | w, [] => (w, none)
  | w, e :: es =>
    match extractEntry w dst e with
    | (w1, none) => extractAll dst w1 es
    | (w1, some err) => (w1, some err)

/-- The end of the loop of `Extract`: a clean end of the stream is success;
a content that cannot be read in full leaves the file with what was read. -/
def extractEnd (dst : Str) (w : World) : TarEnd → World × Option Error
  | .eof => (w, none)
  | .badHeader => (w, some .tarHeader)
  | .badBody name got =>
    match extractEntry w dst ⟨name, false, got⟩ with
    | (w1, none) => (w1, some .extractFailed)
    | (w1, some err) => (w1, some err)

/-- Source `Extract(src, dst)`. -/
def Extract (K : Codec) (w : World) (src dst : Str) : World × Option Error :=
  if !HasSuffix src suffixTar && !HasSuffix src suffixTarGz then (w, some .badExtension)
  else
    let dst0 := if dst = [] then ['.'] else dst
    let dst1 := Clean (Abs w.wd dst0)
    let made := MkdirAll w dst1
    match made.2 with
    | some e => (made.1, some (.mkdirFailed e))
    | none =>
      let w1 := made.1
      match resolve w1 src with
      | .error e => (w1, some (.openFailed e))
      | .ok loc =>
        match w1.root.get loc with
        | none => (w1, some (.openFailed .ENOENT))
        | some (.dir _) =>
          (w1, some (if HasSuffix src suffixTarGz then .gzipReader else .tarHeader))
        | some (.file data) =>
          let decoded := if HasSuffix src suffixTarGz then K.untargz data else some (K.untar data)
          match decoded with
          | none => (w1, some .gzipReader)
          | some (es, fin) =>
            match extractAll dst1 w1 es with
            | (w2, some err) => (w2, some err)
            | (w2, none) => extractEnd dst1 w2 fin

/-! ## A small instance of the encodings -/

/-- A header: a tag (1 file, 2 directory), the length of the name, the
name, the size. -/
def toyHeader (name : Str) (isDir : Bool) (size : Nat) : Bytes :=
  (if isDir then 2 else 1) :: name.length :: (name.map Char.toNat ++ [size])

/-- The reader of the small tar encoding. -/
def toyUntarAux : Nat → Bytes → List Entry × TarEnd
  | 0, _ => ([], .badHeader)
  | fuel + 1, bs =>
    match bs with
    | [] => ([], .eof)
    | [0] => ([], .eof)
    | tag :: len :: rest =>
      if tag = 1 ∨ tag = 2 then
        if rest.length < len + 1 then ([], .badHeader)
        else
          let name := (rest.take len).map Char.ofNat
          let size := (rest.drop len).headD 0
          let rest2 := (rest.drop len).tail
          if tag = 2 then
            let r := toyUntarAux fuel rest2
            (⟨name, true, []⟩ :: r.1, r.2)
          else if rest2.length < size then ([], .badBody name rest2)
          else
            let r := toyUntarAux fuel (rest2.drop size)
            (⟨name, false, rest2.take size⟩ :: r.1, r.2)
      else ([], .badHeader)
    | _ => ([], .badHeader)

def toyUntar (bs : Bytes) : List Entry × TarEnd := toyUntarAux bs.length bs

/-- The small gzip encoding: two bytes in front, written with the first
data, and the length behind, written by `Close`. -/
def toyGzOut (t : Bytes) : Bytes := if t = [] then [] else [31, 139]

def toyGzAll (t : Bytes) : Bytes := 31 :: 139 :: (t ++ [t.length])

def toyUntargz (bs : Bytes) : Option (List Entry × TarEnd) :=
  match bs with
  | 31 :: 139 :: rest =>
    if rest.getLast? = some (rest.length - 1) then some (toyUntar rest.dropLast)
    else some ((toyUntar rest).1, .badHeader)
  | _ => none

def toyCodec : Codec :=
  ⟨toyHeader, fun _ => [], [0], toyGzOut, toyGzAll, toyUntar, toyUntargz⟩

/-! ## Trees as a filesystem has them -/

/-- A proper file name: not empty, without a separator, and neither `.`
nor `..`. -/
def goodName (n : Str) : Bool :=
  decide (n ≠ []) && !(n.contains '/') && decide (n ≠ ['.']) && decide (n ≠ ['.', '.'])

mutual
/-- Every name in the tree is a proper file name and no directory has a
name twice. -/
def Node.wf : Node → Bool
  | .file _ => true
  | .dir kids => wfKids kids
/-- The entries of a directory are well formed. -/
def wfKids : List (Str × Node) → Bool
  | [] => true
  | (n, c) :: rest => goodName n && (kidLookup n rest).isNone && c.wf && wfKids rest
end

mutual
/-- The objects of a tree in the order of the walk, each with the names
that lead to it from the top, and with its kind. -/
def relsNode : Node → List (List Str × Kind)
  | .file d => [([], .file d)]
  | .dir kids => ([], .dir) :: relsKids kids
/-- The objects below the entries of a directory. -/
def relsKids : List (Str × Node) → List (List Str × Kind)
  | [] => []
  | (n, c) :: rest => (relsNode c).map (fun x => (n :: x.1, x.2)) ++ relsKids rest
end

/-- The shape of the elements of a cleaned path: `..` elements only in
front, and only when the path is not rooted, then proper names. -/
def NormalParts (rooted : Bool) (ps : List Str) : Prop :=
  ∃ k gs, ps = List.replicate k ['.', '.'] ++ gs ∧ (rooted = true → k = 0) ∧
    ∀ g ∈ gs, goodName g = true

/-- No object strictly above `p` is a regular file. -/
def clearAbove (t : Node) (p : List Str) : Prop :=
  ∀ q, q <+: p → q ≠ p → ∀ d, t.get q ≠ some (.file d)

/-- The second tree has every object of the first, with the same kind. -/
def Node.ext (t t1 : Node) : Prop :=
  ∀ loc, (∀ ks, t.get loc = some (.dir ks) → ∃ ks1, t1.get loc = some (.dir ks1)) ∧
    (∀ d, t.get loc = some (.file d) → ∃ d1, t1.get loc = some (.file d1))

def Kind.isDir : Kind → Bool
  | .dir => true
  | .file _ => false

def Kind.data : Kind → Bytes
  | .dir => []
  | .file d => d

/-- The visit of the walk from `path` at `loc` to the object `x` below. -/
def visitAt (path : Str) (loc : List Str) (x : List Str × Kind) : Visit :=
  ⟨x.1.foldl Join path, loc ++ x.1, x.2.isDir, x.2.data⟩

/-- The record of the entry written for a visit. -/
def logOf (src : Str) (v : Visit) : Written :=
  ⟨v.path, (Rel src v.path).getD [], v.isDir⟩

/-- Whether the callback of `Archive` writes an entry for a walked path: the
path is not the source and contains none of the excluded strings. -/
def kept (src : Str) (excludePaths : List Str) (path : Str) : Bool :=
  decide (src ≠ path) && !(excludePaths.any (fun excludePath => Contains path excludePath))

/-- The segments of an entry name. -/
def segments (name : Str) : List Str := splitSlash name

/-- The entry `Archive` writes for a visit. -/
def entryOf (src : Str) (v : Visit) : Entry :=
  ⟨(Rel src v.path).getD [], v.isDir, v.data⟩

/-- A destination without limit, on which no write has failed and no
content is owed. -/
def Dev.sound (d : Dev) : Prop :=
  d.cap = none ∧ d.failed = false ∧ d.owed = 0 ∧ d.closed = false

/-- The second tree has every object of the first, unchanged in kind and
content. -/
def Node.keeps (t t1 : Node) : Prop :=
  ∀ loc, t.get loc ≠ none → (t1.get loc).map Node.kind = (t.get loc).map Node.kind

/-- The location of the directory `Extract` writes into: the elements of
the cleaned absolute form of `dst`. -/
def destLoc (w : World) (dst : Str) : List Str :=
  cleanParts (Clean (Abs w.wd (if dst = [] then ['.'] else dst)))

/-- A location where a directory can be made and is then empty: nothing is
beneath it, and what is above it, and the location itself, is a directory
or missing. -/
def freshAt (w : World) (loc : List Str) : Prop :=
  (∀ q, q <+: loc → w.kindAt q = none ∨ w.kindAt q = some Kind.dir) ∧
  (∀ r, r ≠ [] → w.kindAt (loc ++ r) = none)

/-! ## Example states -/

/-- A small tree: the directory `/d` with the file `x` and the directory
`y`, which holds the file `z`; and the file `/f`. -/
def sampleWorld : World :=
  ⟨.dir [("d".toList, .dir [("x".toList, .file [7, 8]),
                            ("y".toList, .dir [("z".toList, .file [9])])]),
         ("f".toList, .file [1, 2, 3])], []⟩

/-- The path elements of `k` times `.`, each after a separator. -/
def dots : Nat → Str
  | 0 => []
  | k + 1 => '/' :: '.' :: dots k

/-- A path of 470 bytes that names the directory `/d` of `sampleWorld`: `/d`
followed by 234 times `/.`. -/
def longSrc : Str := "/d".toList ++ dots 234

/-- A path of 469 bytes that names the directory `/d` of `sampleWorld` and
ends in `..`: `/d/y`, 231 times `/.`, and `/..`. -/
def longSrcUp : Str := "/d/y".toList ++ dots 231 ++ "/..".toList

/-- A tree with an archive `/a.tar` whose one entry is the file `../evil`. -/
def evilWorld : World :=
  ⟨.dir [("a.tar".toList, .file (tarStream toyCodec [⟨"../evil".toList, false, [1]⟩]))], []⟩

/-! ## Path strings -/

theorem splitSlash_ne_nil (s : Str) : splitSlash s ≠ [] := by
  cases s with
  | nil => simp [splitSlash]
  | cons c s =>
    simp only [splitSlash]
    split
    · simp
    · split <;> simp

theorem splitSlash_noSlash (s : Str) : ∀ c ∈ splitSlash s, '/' ∉ c := by
  induction s with
  | nil => simp [splitSlash]
  | cons a s ih =>
    simp only [splitSlash]
    split
    · intro c hc
      simp only [List.mem_cons] at hc
      rcases hc with rfl | hc
      · simp
      · exact ih c hc
    · rename_i hne
      cases h : splitSlash s with
      | nil => exact absurd h (splitSlash_ne_nil s)
      | cons x xs =>
        rw [h] at ih
        intro c hc
        simp only [List.mem_cons] at hc
        rcases hc with rfl | hc
        · have := ih x (by simp)
          simp only [List.mem_cons, not_or]
          exact ⟨fun h => hne h.symm, this⟩
        · exact ih c (by simp [hc])

theorem splitSlash_of_noSlash (n : Str) (h : '/' ∉ n) : splitSlash n = [n] := by
  induction n with
  | nil => simp [splitSlash]
  | cons a s ih =>
    simp only [List.mem_cons, not_or] at h
    have ha : ¬ a = '/' := fun e => h.1 e.symm
    simp [splitSlash, ha, ih h.2]

theorem splitSlash_append_slash (a b : Str) :
    splitSlash (a ++ '/' :: b) = splitSlash a ++ splitSlash b := by
  induction a with
  | nil => simp [splitSlash]
  | cons c s ih =>
    simp only [List.cons_append, splitSlash]
    split
    · simp [ih]
    · have ih2 : splitSlash (s.append ('/' :: b)) = splitSlash s ++ splitSlash b := ih
      rw [ih2]
      cases h : splitSlash s with
      | nil => exact absurd h (splitSlash_ne_nil s)
      | cons x xs => simp

theorem joinSlash_append_singleton (ps : List Str) (n : Str) (h : ps ≠ []) :
    joinSlash (ps ++ [n]) = joinSlash ps ++ '/' :: n := by
  induction ps with
  | nil => exact absurd rfl h
  | cons a rest ih =>
    cases rest with
    | nil => simp [joinSlash]
    | cons b rest2 =>
      have := ih (by simp)
      simp only [List.cons_append] at this ⊢
      simp [joinSlash, this]

theorem joinSlash_cons (a : Str) (ps : List Str) (h : ps ≠ []) :
    joinSlash (a :: ps) = a ++ '/' :: joinSlash ps := by
  cases ps with
  | nil => exact absurd rfl h
  | cons b rest => simp [joinSlash]

theorem splitSlash_joinSlash (ps : List Str) (h : ps ≠ []) (hs : ∀ p ∈ ps, '/' ∉ p) :
    splitSlash (joinSlash ps) = ps := by
  induction ps with
  | nil => exact absurd rfl h
  | cons a rest ih =>
    cases rest with
    | nil => simpa [joinSlash] using splitSlash_of_noSlash a (hs a (by simp))
    | cons b rest2 =>
      rw [joinSlash_cons a _ (by simp), splitSlash_append_slash,
        splitSlash_of_noSlash a (hs a (by simp)), ih (by simp) (fun p hp => hs p (by simp [hp]))]
      simp

theorem goodName_iff (n : Str) :
    goodName n = true ↔ n ≠ [] ∧ '/' ∉ n ∧ n ≠ ['.'] ∧ n ≠ ['.', '.'] := by
  simp [goodName, and_assoc]

/-! ## `strings.Contains` -/

theorem isPrefixOf_append_right (e a b : Str) (h : e.isPrefixOf a = true) :
    e.isPrefixOf (a ++ b) = true := by
  rw [List.isPrefixOf_iff_prefix] at h ⊢
  exact h.trans (List.prefix_append a b)

theorem Contains_append_right (a b e : Str) (h : Contains a e = true) :
    Contains (a ++ b) e = true := by
  induction a with
  | nil =>
    simp only [Contains] at h
    have he : e = [] := by
      rw [List.isPrefixOf_iff_prefix] at h
      exact List.prefix_nil.mp h
    subst he
    cases b <;> simp [Contains]
  | cons c s ih =>
    simp only [Contains, Bool.or_eq_true, List.cons_append] at h ⊢
    rcases h with h | h
    · left
      exact isPrefixOf_append_right e (c :: s) b h
    · right
      exact ih h

theorem Contains_iff (s e : Str) : Contains s e = true ↔ ∃ a b, s = a ++ e ++ b := by
  induction s with
  | nil =>
    simp only [Contains, List.isPrefixOf_iff_prefix, List.prefix_nil]
    constructor
    · rintro rfl
      exact ⟨[], [], rfl⟩
    · rintro ⟨a, b, h⟩
      have := congrArg List.length h
      simp at this
      have h2 : e.length = 0 := by omega
      exact List.length_eq_zero.mp h2
  | cons c s ih =>
    simp only [Contains, Bool.or_eq_true, List.isPrefixOf_iff_prefix, ih]
    constructor
    · rintro (⟨b, hb⟩ | ⟨a, b, h⟩)
      · exact ⟨[], b, by simpa using hb.symm⟩
      · exact ⟨c :: a, b, by simp [h]⟩
    · rintro ⟨a, b, h⟩
      cases a with
      | nil => left; exact ⟨b, by simpa using h.symm⟩
      | cons x a =>
        right
        simp only [List.cons_append, List.cons.injEq] at h
        exact ⟨a, b, h.2⟩

theorem cleanStep_good (r : Bool) (acc : List Str) (n : Str) (h : goodName n = true) :
    cleanStep r acc n = acc ++ [n] := by
  obtain ⟨h1, _, h3, h4⟩ := (goodName_iff n).mp h
  simp [cleanStep, h1, h3, h4]

theorem foldl_cleanStep_goods (r : Bool) (gs : List Str) :
    ∀ acc, (∀ g ∈ gs, goodName g = true) → gs.foldl (cleanStep r) acc = acc ++ gs := by
  induction gs with
  | nil => simp
  | cons g gs ih =>
    intro acc h
    simp only [List.foldl_cons]
    rw [cleanStep_good r acc g (h g (by simp)), ih _ (fun x hx => h x (by simp [hx]))]
    simp

theorem replicate_succ_concat (k : Nat) (x : Str) :
    List.replicate (k + 1) x = List.replicate k x ++ [x] := by
  induction k with
  | zero => rfl
  | succ k ih =>
    show x :: List.replicate (k + 1) x = (x :: List.replicate k x) ++ [x]
    rw [ih]
    rfl

theorem cleanStep_dotdot_replicate (k : Nat) :
    cleanStep false (List.replicate k ['.', '.']) ['.', '.'] =
      List.replicate (k + 1) ['.', '.'] := by
  cases k with
  | zero => simp [cleanStep]
  | succ k =>
    rw [replicate_succ_concat (k + 1)]
    have : (List.replicate (k + 1) ['.', '.']).getLast? = some ['.', '.'] := by
      rw [replicate_succ_concat k]
      simp
    simp [cleanStep, this]

theorem foldl_cleanStep_dotdots (k : Nat) : ∀ j,
    (List.replicate k ['.', '.']).foldl (cleanStep false) (List.replicate j ['.', '.']) =
      List.replicate (j + k) ['.', '.'] := by
  induction k with
  | zero => simp
  | succ k ih =>
    intro j
    rw [List.replicate_succ, List.foldl_cons, cleanStep_dotdot_replicate, ih]
    congr 1
    omega

theorem foldl_cleanStep_normal (r : Bool) (ps : List Str) (h : NormalParts r ps) :
    ps.foldl (cleanStep r) [] = ps := by
  obtain ⟨k, gs, rfl, hk, hg⟩ := h
  rw [List.foldl_append]
  cases r with
  | true =>
    have := hk rfl
    subst this
    simp only [List.replicate_zero, List.foldl_nil, List.nil_append]
    rw [foldl_cleanStep_goods _ _ _ hg]
    simp
  | false =>
    have := foldl_cleanStep_dotdots k 0
    simp only [List.replicate_zero, zero_add] at this
    rw [this, foldl_cleanStep_goods _ _ _ hg]

theorem normalParts_nil (r : Bool) : NormalParts r [] := ⟨0, [], by simp, fun _ => rfl, by simp⟩

theorem normalParts_concat (r : Bool) (ps : List Str) (n : Str) (h : NormalParts r ps)
    (hn : goodName n = true) : NormalParts r (ps ++ [n]) := by
  obtain ⟨k, gs, rfl, hk, hg⟩ := h
  refine ⟨k, gs ++ [n], by simp, hk, ?_⟩
  intro g hgm
  simp only [List.mem_append, List.mem_singleton] at hgm
  rcases hgm with hgm | rfl
  · exact hg g hgm
  · exact hn

theorem normalParts_append (r : Bool) (ps rel : List Str) (h : NormalParts r ps)
    (hn : ∀ g ∈ rel, goodName g = true) : NormalParts r (ps ++ rel) := by
  obtain ⟨k, gs, rfl, hk, hg⟩ := h
  refine ⟨k, gs ++ rel, by simp, hk, ?_⟩
  intro g hgm
  simp only [List.mem_append] at hgm
  rcases hgm with hgm | hgm
  · exact hg g hgm
  · exact hn g hgm

theorem normalParts_cleanStep (r : Bool) (acc : List Str) (c : Str) (h : NormalParts r acc)
    (hc : '/' ∉ c) : NormalParts r (cleanStep r acc c) := by
  unfold cleanStep
  split
  · exact h
  · rename_i h1
    simp only [not_or] at h1
    split
    · rename_i h2
      obtain ⟨k, gs, rfl, hk, hg⟩ := h
      rcases List.eq_nil_or_concat gs with rfl | ⟨gs1, g, hgs⟩
      on_goal 2 => rw [List.concat_eq_append] at hgs; subst hgs
      · -- only dotdots
        simp only [List.append_nil]
        cases k with
        | zero =>
          simp only [List.replicate_zero, List.getLast?_nil]
          cases r with
          | true => simpa using normalParts_nil true
          | false =>
            simp only [Bool.false_eq_true, ↓reduceIte, List.nil_append]
            exact ⟨1, [], by simp [h2], by simp, by simp⟩
        | succ k =>
          have hl : (List.replicate (k + 1) ['.', '.']).getLast? = some ['.', '.'] := by
            rw [replicate_succ_concat k]
            simp
          rw [hl]
          simp only [↓reduceIte]
          refine ⟨k + 2, [], ?_, ?_, by simp⟩
          · rw [replicate_succ_concat (k + 1), h2]
            simp
          · intro hr
            have := hk hr
            omega
      · have hl : (List.replicate k ['.', '.'] ++ (gs1 ++ [g])).getLast? = some g := by
          rw [← List.append_assoc]
          simp
        rw [hl]
        have hgg := hg g (by simp)
        have hne : g ≠ ['.', '.'] := ((goodName_iff g).mp hgg).2.2.2
        simp only [hne, ↓reduceIte]
        rw [← List.append_assoc, List.dropLast_concat]
        exact ⟨k, gs1, rfl, hk, fun x hx => hg x (by simp [hx])⟩
    · rename_i h2
      exact normalParts_concat r acc c h ((goodName_iff c).mpr ⟨h1.1, hc, h1.2, h2⟩)

theorem normalParts_foldl (r : Bool) (cs : List Str) : ∀ acc, NormalParts r acc →
    (∀ c ∈ cs, '/' ∉ c) → NormalParts r (cs.foldl (cleanStep r) acc) := by
  induction cs with
  | nil => intro acc h _; exact h
  | cons c cs ih =>
    intro acc h hc
    simp only [List.foldl_cons]
    exact ih _ (normalParts_cleanStep r acc c h (hc c (by simp)))
      (fun x hx => hc x (by simp [hx]))

theorem normalParts_cleanParts (s : Str) : NormalParts (IsAbs s) (cleanParts s) :=
  normalParts_foldl _ _ _ (normalParts_nil _) (splitSlash_noSlash s)

theorem normalParts_noSlash (r : Bool) (ps : List Str) (h : NormalParts r ps) :
    ∀ p ∈ ps, '/' ∉ p := by
  obtain ⟨k, gs, rfl, _, hg⟩ := h
  intro p hp
  simp only [List.mem_append] at hp
  rcases hp with hp | hp
  · have := List.eq_of_mem_replicate hp
    subst this
    decide
  · exact ((goodName_iff p).mp (hg p hp)).2.1

theorem normalParts_ne_nil (r : Bool) (ps : List Str) (h : NormalParts r ps) :
    ∀ p ∈ ps, p ≠ [] := by
  obtain ⟨k, gs, rfl, _, hg⟩ := h
  intro p hp
  simp only [List.mem_append] at hp
  rcases hp with hp | hp
  · have := List.eq_of_mem_replicate hp
    subst this
    decide
  · exact ((goodName_iff p).mp (hg p hp)).1

theorem normalParts_ne_dot (r : Bool) (ps : List Str) (h : NormalParts r ps) :
    ∀ p ∈ ps, p ≠ ['.'] := by
  obtain ⟨k, gs, rfl, _, hg⟩ := h
  intro p hp
  simp only [List.mem_append] at hp
  rcases hp with hp | hp
  · have := List.eq_of_mem_replicate hp
    subst this
    decide
  · exact ((goodName_iff p).mp (hg p hp)).2.2.1

theorem joinSlash_head (ps : List Str) (a : Str) (rest : List Str) (h : ps = a :: rest)
    (ha : a ≠ []) : (joinSlash ps).head? = a.head? := by
  subst h
  cases rest with
  | nil => simp [joinSlash]
  | cons b rest2 =>
    rw [joinSlash_cons a _ (by simp)]
    cases a with
    | nil => exact absurd rfl ha
    | cons x xs => simp

theorem isAbs_render (r : Bool) (ps : List Str) (h : NormalParts r ps) :
    IsAbs (render r ps) = r := by
  cases r with
  | true => simp [render, IsAbs]
  | false =>
    simp only [render, Bool.false_eq_true, ↓reduceIte]
    split
    · simp [IsAbs]
    · rename_i hne
      cases ps with
      | nil => exact absurd rfl hne
      | cons a rest =>
        have ha := normalParts_ne_nil _ _ h a (by simp)
        have hs := normalParts_noSlash _ _ h a (by simp)
        unfold IsAbs
        rw [joinSlash_head _ a rest rfl ha]
        cases a with
        | nil => exact absurd rfl ha
        | cons x xs =>
          simp only [List.mem_cons, not_or] at hs
          simp only [List.head?_cons, Option.some.injEq, decide_eq_false_iff_not]
          exact fun e => hs.1 e.symm

theorem cleanParts_render (r : Bool) (ps : List Str) (h : NormalParts r ps) :
    cleanParts (render r ps) = ps := by
  unfold cleanParts
  rw [isAbs_render r ps h]
  cases r with
  | true =>
    simp only [render, ↓reduceIte]
    cases ps with
    | nil => simp [joinSlash, splitSlash, cleanStep]
    | cons a rest =>
      have hsp : splitSlash ('/' :: joinSlash (a :: rest)) = [] :: (a :: rest) := by
        have := splitSlash_append_slash [] (joinSlash (a :: rest))
        simp only [List.nil_append] at this
        rw [this, splitSlash_joinSlash _ (by simp) (normalParts_noSlash _ _ h)]
        simp [splitSlash]
      rw [hsp, List.foldl_cons]
      have : cleanStep true [] [] = [] := by simp [cleanStep]
      rw [this]
      exact foldl_cleanStep_normal true _ h
  | false =>
    simp only [render, Bool.false_eq_true, ↓reduceIte]
    split
    · rename_i he
      subst he
      simp [splitSlash, cleanStep]
    · rename_i hne
      rw [splitSlash_joinSlash _ hne (normalParts_noSlash _ _ h)]
      exact foldl_cleanStep_normal false _ h

theorem Clean_render (r : Bool) (ps : List Str) (h : NormalParts r ps) :
    Clean (render r ps) = render r ps := by
  unfold Clean
  rw [isAbs_render r ps h, cleanParts_render r ps h]

theorem Clean_Clean (s : Str) : Clean (Clean s) = Clean s :=
  Clean_render _ _ (normalParts_cleanParts s)

theorem isAbs_append (a b : Str) (h : a ≠ []) : IsAbs (a ++ b) = IsAbs a := by
  cases a with
  | nil => exact absurd rfl h
  | cons x xs => simp [IsAbs]

theorem cleanParts_append_name (a n : Str) (ha : a ≠ []) (hn : goodName n = true) :
    cleanParts (a ++ '/' :: n) = cleanParts a ++ [n] := by
  unfold cleanParts
  rw [isAbs_append a _ ha, splitSlash_append_slash,
    splitSlash_of_noSlash n ((goodName_iff n).mp hn).2.1, List.foldl_append]
  simp only [List.foldl_cons, List.foldl_nil]
  exact cleanStep_good _ _ _ hn

theorem Join_name (a n : Str) (ha : a ≠ []) (hn : goodName n = true) :
    Join a n = render (IsAbs a) (cleanParts a ++ [n]) := by
  unfold Join Clean
  simp only [ne_eq, ha, not_false_eq_true, ↓reduceIte]
  rw [isAbs_append a _ ha, cleanParts_append_name a n ha hn]

theorem render_ne_nil (r : Bool) (ps : List Str) (h : NormalParts r ps) : render r ps ≠ [] := by
  cases r with
  | true => simp [render]
  | false =>
    simp only [render, Bool.false_eq_true, ↓reduceIte]
    split
    · simp
    · rename_i hne
      cases ps with
      | nil => exact absurd rfl hne
      | cons a rest =>
        have ha := normalParts_ne_nil _ _ h a (by simp)
        cases rest with
        | nil => simpa [joinSlash] using ha
        | cons b rest2 =>
          rw [joinSlash_cons a _ (by simp)]
          simp

theorem foldl_Join (rel : List Str) : ∀ (a : Str), a ≠ [] → (∀ g ∈ rel, goodName g = true) →
    rel ≠ [] → rel.foldl Join a = render (IsAbs a) (cleanParts a ++ rel) := by
  induction rel with
  | nil => intro a _ _ h; exact absurd rfl h
  | cons n rest ih =>
    intro a ha hg _
    have hn := hg n (by simp)
    simp only [List.foldl_cons]
    have hnp : NormalParts (IsAbs a) (cleanParts a ++ [n]) :=
      normalParts_concat _ _ _ (normalParts_cleanParts a) hn
    cases rest with
    | nil => simpa using Join_name a n ha hn
    | cons m rest2 =>
      rw [ih (Join a n) (by rw [Join_name a n ha hn]; exact render_ne_nil _ _ hnp)
        (fun g hgm => hg g (by simp [hgm])) (by simp)]
      rw [Join_name a n ha hn, isAbs_render _ _ hnp, cleanParts_render _ _ hnp]
      simp

theorem joinSlash_ne_nil (ps : List Str) (h : ps ≠ []) (hne : ∀ p ∈ ps, p ≠ []) :
    joinSlash ps ≠ [] := by
  cases ps with
  | nil => exact absurd rfl h
  | cons a rest =>
    cases rest with
    | nil => simpa [joinSlash] using hne a (by simp)
    | cons b rest2 =>
      rw [joinSlash_cons a _ (by simp)]
      have := hne a (by simp)
      simp

theorem partsOf_render (r : Bool) (ps : List Str) (h : NormalParts r ps) :
    partsOf (render r ps) = (r, ps) := by
  cases r with
  | true =>
    simp only [render, ↓reduceIte]
    unfold partsOf
    split
    · rename_i heq
      simp at heq
    · rename_i rest heq
      simp only [List.cons.injEq, true_and] at heq
      subst heq
      cases ps with
      | nil => simp [joinSlash]
      | cons a rest =>
        have hne := joinSlash_ne_nil (a :: rest) (by simp) (normalParts_ne_nil _ _ h)
        simp only [hne, ↓reduceIte]
        rw [splitSlash_joinSlash _ (by simp) (normalParts_noSlash _ _ h)]
    · rename_i h1 h2
      exact absurd rfl (h2 _)
  | false =>
    simp only [render, Bool.false_eq_true, ↓reduceIte]
    split
    · rename_i he
      subst he
      rfl
    · rename_i hne
      have hsp := splitSlash_joinSlash ps hne (normalParts_noSlash _ _ h)
      have hab := isAbs_render false ps h
      simp only [render, Bool.false_eq_true, ↓reduceIte, hne] at hab
      unfold partsOf
      split
      · rename_i heq
        rw [heq] at hsp
        have : ps = [['.']] := by rw [← hsp]; rfl
        exact absurd rfl (normalParts_ne_dot _ _ h ['.'] (by rw [this]; simp))
      · rename_i rest heq
        rw [heq] at hab
        simp [IsAbs] at hab
      · rw [hsp]

theorem stripCommon_append (ps rel : List Str) : stripCommon ps (ps ++ rel) = ([], rel) := by
  induction ps with
  | nil =>
    cases rel <;> simp [stripCommon]
  | cons a rest ih =>
    simp [stripCommon, ih]

theorem render_injective (r : Bool) (ps qs : List Str) (hp : NormalParts r ps)
    (hq : NormalParts r qs) (h : render r ps = render r qs) : ps = qs := by
  have := congrArg cleanParts h
  rwa [cleanParts_render r ps hp, cleanParts_render r qs hq] at this

/-- The name `Archive` gives to the object at `rel` below `src`. -/
theorem Rel_descendant (a : Str) (rel : List Str) (hg : ∀ g ∈ rel, goodName g = true)
    (hne : rel ≠ []) :
    Rel a (render (IsAbs a) (cleanParts a ++ rel)) = some (joinSlash rel) := by
  have h0 := normalParts_cleanParts a
  have h1 := normalParts_append _ _ rel h0 hg
  unfold Rel
  simp only [Clean_render _ _ h1]
  have hc : Clean a = render (IsAbs a) (cleanParts a) := rfl
  rw [hc]
  have hneq : render (IsAbs a) (cleanParts a ++ rel) ≠ render (IsAbs a) (cleanParts a) := by
    intro e
    have := render_injective _ _ _ h1 h0 e
    have h2 := congrArg List.length this
    simp only [List.length_append] at h2
    have : rel.length = 0 := by omega
    exact hne (List.length_eq_zero.mp this)
  simp only [hneq, ↓reduceIte, partsOf_render _ _ h0, partsOf_render _ _ h1,
    stripCommon_append, ne_eq, not_true_eq_false, List.head?_nil, List.map_nil, List.nil_append]
  simp

theorem render_concat (r : Bool) (ps : List Str) (n : Str) (hne : ps ≠ []) :
    render r (ps ++ [n]) = render r ps ++ '/' :: n := by
  cases r with
  | true => simp [render, joinSlash_append_singleton ps n hne]
  | false => simp [render, hne, joinSlash_append_singleton ps n hne]

/-! ## Trees -/

theorem kidLookup_kidReplace (a n : Str) (v : Node) (l : List (Str × Node))
    (h : kidLookup n l ≠ none) :
    kidLookup a (kidReplace n v l) = if a = n then some v else kidLookup a l := by
  induction l with
  | nil => simp [kidLookup] at h
  | cons x rest ih =>
    obtain ⟨m, y⟩ := x
    simp only [kidReplace]
    by_cases hmn : m = n
    · subst hmn
      simp only [↓reduceIte, kidLookup]
      by_cases h1 : a = m
      · subst h1; simp
      · have : ¬ m = a := fun e => h1 e.symm
        simp [h1, this]
    · simp only [kidLookup, hmn, ↓reduceIte] at h
      simp only [hmn, ↓reduceIte, kidLookup, ih h]
      by_cases h1 : a = n
      · subst h1
        simp [hmn]
      · simp [h1]

theorem kidLookup_kidInsert (a n : Str) (v : Node) (l : List (Str × Node))
    (h0 : kidLookup n l = none) :
    kidLookup a (kidInsert n v l) = if a = n then some v else kidLookup a l := by
  induction l with
  | nil =>
    simp only [kidInsert, kidLookup]
    by_cases h : a = n
    · simp [h]
    · have : ¬ n = a := fun e => h e.symm
      simp [h, this]
  | cons x rest ih =>
    obtain ⟨m, y⟩ := x
    simp only [kidInsert]
    have hmn : ¬ m = n := by
      intro e
      simp [kidLookup, e] at h0
    simp only [kidLookup, hmn, ↓reduceIte] at h0
    by_cases hlt : n < m
    · simp only [hlt, ↓reduceIte, kidLookup]
      by_cases h : a = n
      · subst h; simp
      · have : ¬ n = a := fun e => h e.symm
        simp [h, this]
    · simp only [hlt, ↓reduceIte, kidLookup, ih h0]
      by_cases h : a = n
      · subst h
        simp [hmn]
      · simp [h]

theorem kidLookup_kidPut (a n : Str) (v : Node) (l : List (Str × Node)) :
    kidLookup a (kidPut n v l) = if a = n then some v else kidLookup a l := by
  unfold kidPut
  cases h : kidLookup n l with
  | none => exact kidLookup_kidInsert a n v l h
  | some k => exact kidLookup_kidReplace a n v l (by simp [h])

theorem Node.get_nil (t : Node) : t.get [] = some t := by
  cases t <;> rfl

theorem Node.get_append (p r : List Str) : ∀ t : Node,
    t.get (p ++ r) = (t.get p).bind (fun n => n.get r) := by
  induction p with
  | nil => intro t; simp [Node.get_nil]
  | cons c rest ih =>
    intro t
    cases t with
    | file d =>
      simp [Node.get]
    | dir kids =>
      simp only [List.cons_append, Node.get]
      cases kidLookup c kids with
      | none => simp
      | some k => simpa using ih k

theorem Node.get_dir_singleton (kids : List (Str × Node)) (c : Str) :
    (Node.dir kids).get [c] = kidLookup c kids := by
  simp only [Node.get]
  cases kidLookup c kids with
  | none => rfl
  | some k => simp [Node.get_nil]

theorem Node.get_file_cons (d : Bytes) (c : Str) (r : List Str) :
    (Node.file d).get (c :: r) = none := rfl

theorem Node.get_emptyDir_cons (c : Str) (r : List Str) :
    (Node.dir []).get (c :: r) = none := by
  simp [Node.get, kidLookup]

/-- A path that exists has directories above it. -/
theorem Node.get_parent_dir (t : Node) (p : List Str) (c : Str) (r : List Str)
    (h : t.get (p ++ c :: r) ≠ none) : ∃ ks, t.get p = some (.dir ks) := by
  rw [Node.get_append] at h
  cases hp : t.get p with
  | none => simp [hp] at h
  | some n =>
    cases n with
    | file d => simp [hp, Node.get_file_cons] at h
    | dir ks => exact ⟨ks, rfl⟩

theorem Node.get_put_diverge (p : List Str) : ∀ (t v : Node) (q : List Str),
    ¬ p <+: q → ¬ q <+: p → (t.put p v).get q = t.get q := by
  induction p with
  | nil => intro t v q h; exact absurd (List.nil_prefix) h
  | cons c rest ih =>
    intro t v q h1 h2
    cases t with
    | file d => rfl
    | dir kids =>
      cases q with
      | nil => exact absurd (List.nil_prefix) h2
      | cons c' q' =>
        simp only [Node.put, Node.get, kidLookup_kidPut]
        by_cases hc : c' = c
        · subst hc
          have h1' : ¬ rest <+: q' := fun h => h1 ((List.prefix_cons_inj c').mpr h)
          have h2' : ¬ q' <+: rest := fun h => h2 ((List.prefix_cons_inj c').mpr h)
          simp only [↓reduceIte]
          rw [ih _ _ _ h1' h2']
          cases hk : kidLookup c' kids with
          | none =>
            simp only [Option.getD_none]
            cases q' with
            | nil => exact absurd (List.nil_prefix) h2'
            | cons x xs => exact Node.get_emptyDir_cons x xs
          | some k => simp
        · simp [hc]

theorem clearAbove_sub (kids : List (Str × Node)) (c : Str) (rest : List Str)
    (h : clearAbove (.dir kids) (c :: rest)) :
    clearAbove ((kidLookup c kids).getD (.dir [])) rest := by
  intro q hq hne d
  cases hk : kidLookup c kids with
  | none =>
    simp only [Option.getD_none]
    cases q with
    | nil => simp [Node.get]
    | cons x xs => simp [Node.get_emptyDir_cons]
  | some k =>
    simp only [Option.getD_some]
    have := h (c :: q) ((List.prefix_cons_inj c).mpr hq) (by simpa using hne) d
    simpa [Node.get, hk] using this

theorem Node.get_put_below (p : List Str) : ∀ (t v : Node) (r : List Str),
    clearAbove t p → (t.put p v).get (p ++ r) = v.get r := by
  induction p with
  | nil => intro t v r _; simp [Node.put]
  | cons c rest ih =>
    intro t v r h
    cases t with
    | file d =>
      exact absurd rfl (h [] List.nil_prefix (by simp) d)
    | dir kids =>
      simp only [Node.put, List.cons_append, Node.get, kidLookup_kidPut, ↓reduceIte]
      exact ih _ _ _ (clearAbove_sub kids c rest h)

theorem Node.get_put_above (p : List Str) : ∀ (t v : Node) (q : List Str),
    clearAbove t p → q <+: p → q ≠ p → ∃ ks, (t.put p v).get q = some (.dir ks) := by
  induction p with
  | nil =>
    intro t v q _ hq hne
    exact absurd (List.prefix_nil.mp hq) hne
  | cons c rest ih =>
    intro t v q h hq hne
    cases t with
    | file d => exact absurd rfl (h [] List.nil_prefix (by simp) d)
    | dir kids =>
      cases q with
      | nil => exact ⟨_, rfl⟩
      | cons c' q' =>
        have hcc : c' = c := (List.cons_prefix_cons.mp hq).1
        subst hcc
        have hq' : q' <+: rest := (List.cons_prefix_cons.mp hq).2
        simp only [Node.put, Node.get, kidLookup_kidPut, ↓reduceIte]
        exact ih _ _ _ (clearAbove_sub kids c' rest h) hq' (by simpa using hne)

/-! ## Well-formed trees -/

theorem wfKids_cons (n : Str) (c : Node) (rest : List (Str × Node)) :
    wfKids ((n, c) :: rest) = true ↔
      goodName n = true ∧ kidLookup n rest = none ∧ c.wf = true ∧ wfKids rest = true := by
  simp [wfKids, and_assoc]

theorem wf_dir (kids : List (Str × Node)) : (Node.dir kids).wf = wfKids kids := by
  simp [Node.wf]

theorem wfKids_lookup (kids : List (Str × Node)) (n : Str) (k : Node)
    (h : wfKids kids = true) (hk : kidLookup n kids = some k) :
    k.wf = true ∧ goodName n = true := by
  induction kids with
  | nil => simp [kidLookup] at hk
  | cons x rest ih =>
    obtain ⟨m, y⟩ := x
    obtain ⟨h1, _, h3, h4⟩ := (wfKids_cons m y rest).mp h
    simp only [kidLookup] at hk
    split at hk
    · rename_i e
      subst e
      simp only [Option.some.injEq] at hk
      subst hk
      exact ⟨h3, h1⟩
    · exact ih h4 hk

theorem wfKids_kidReplace (kids : List (Str × Node)) (n : Str) (v : Node)
    (h : wfKids kids = true) (hv : v.wf = true) : wfKids (kidReplace n v kids) = true ∧
      ∀ a, kidLookup a (kidReplace n v kids) = none ↔ kidLookup a kids = none := by
  induction kids with
  | nil => simp [kidReplace, wfKids]
  | cons x rest ih =>
    obtain ⟨m, y⟩ := x
    obtain ⟨h1, h2, h3, h4⟩ := (wfKids_cons m y rest).mp h
    simp only [kidReplace]
    by_cases hmn : m = n
    · subst hmn
      simp only [↓reduceIte]
      refine ⟨(wfKids_cons m v rest).mpr ⟨h1, h2, hv, h4⟩, ?_⟩
      intro a
      simp only [kidLookup]
      split <;> simp
    · simp only [hmn, ↓reduceIte]
      obtain ⟨ih1, ih2⟩ := ih h4
      refine ⟨(wfKids_cons m y _).mpr ⟨h1, (ih2 m).mpr h2, h3, ih1⟩, ?_⟩
      intro a
      simp only [kidLookup]
      split
      · simp
      · exact ih2 a

theorem wfKids_kidInsert (kids : List (Str × Node)) (n : Str) (v : Node)
    (h : wfKids kids = true) (hn : goodName n = true) (hv : v.wf = true)
    (h0 : kidLookup n kids = none) : wfKids (kidInsert n v kids) = true := by
  induction kids with
  | nil => simp [kidInsert, wfKids, hn, hv, kidLookup]
  | cons x rest ih =>
    obtain ⟨m, y⟩ := x
    obtain ⟨h1, h2, h3, h4⟩ := (wfKids_cons m y rest).mp h
    have hmn : ¬ m = n := by
      intro e
      simp [kidLookup, e] at h0
    have h0' : kidLookup n rest = none := by
      simpa [kidLookup, hmn] using h0
    simp only [kidInsert]
    split
    · exact (wfKids_cons n v _).mpr ⟨hn, h0, hv, h⟩
    · refine (wfKids_cons m y _).mpr ⟨h1, ?_, h3, ih h4 h0'⟩
      rw [kidLookup_kidInsert m n v rest h0']
      simp [hmn, h2]

theorem wfKids_kidPut (kids : List (Str × Node)) (n : Str) (v : Node)
    (h : wfKids kids = true) (hn : goodName n = true) (hv : v.wf = true) :
    wfKids (kidPut n v kids) = true := by
  unfold kidPut
  cases h0 : kidLookup n kids with
  | none => exact wfKids_kidInsert kids n v h hn hv h0
  | some k => exact (wfKids_kidReplace kids n v h hv).1

theorem Node.wf_get (p : List Str) : ∀ (t n : Node), t.wf = true → t.get p = some n →
    n.wf = true ∧ ∀ c ∈ p, goodName c = true := by
  induction p with
  | nil =>
    intro t n h hg
    rw [Node.get_nil] at hg
    simp only [Option.some.injEq] at hg
    subst hg
    exact ⟨h, by simp⟩
  | cons c rest ih =>
    intro t n h hg
    cases t with
    | file d => simp [Node.get] at hg
    | dir kids =>
      simp only [Node.get] at hg
      cases hk : kidLookup c kids with
      | none => simp [hk] at hg
      | some k =>
        simp only [hk] at hg
        rw [wf_dir] at h
        obtain ⟨hk1, hk2⟩ := wfKids_lookup kids c k h hk
        obtain ⟨i1, i2⟩ := ih k n hk1 hg
        refine ⟨i1, ?_⟩
        intro x hx
        simp only [List.mem_cons] at hx
        rcases hx with rfl | hx
        · exact hk2
        · exact i2 x hx

theorem Node.wf_put_leaf (par : List Str) : ∀ (t : Node) (ks : List (Str × Node)) (c : Str)
    (v : Node), t.wf = true → t.get par = some (.dir ks) → goodName c = true → v.wf = true →
    (t.put (par ++ [c]) v).wf = true := by
  induction par with
  | nil =>
    intro t ks c v h hg hc hv
    rw [Node.get_nil] at hg
    simp only [Option.some.injEq] at hg
    subst hg
    simp only [List.nil_append, Node.put, wf_dir]
    rw [wf_dir] at h
    exact wfKids_kidPut ks c v h hc hv
  | cons a rest ih =>
    intro t ks c v h hg hc hv
    cases t with
    | file d => simp [Node.get] at hg
    | dir kids =>
      simp only [Node.get] at hg
      cases hk : kidLookup a kids with
      | none => simp [hk] at hg
      | some k =>
        simp only [hk] at hg
        rw [wf_dir] at h
        obtain ⟨hk1, hk2⟩ := wfKids_lookup kids a k h hk
        simp only [List.cons_append, Node.put, hk, Option.getD_some, wf_dir]
        exact wfKids_kidPut kids a _ h hk2 (ih k ks c v hk1 hg hc hv)

/-! ## Putting a leaf -/

theorem clearAbove_of_parent (t : Node) (par : List Str) (c : Str) (ks : List (Str × Node))
    (h : t.get par = some (.dir ks)) : clearAbove t (par ++ [c]) := by
  intro q hq hne d hd
  obtain ⟨r, hr⟩ := hq
  cases r with
  | nil =>
    simp only [List.append_nil] at hr
    exact hne hr
  | cons x xs =>
    rcases List.eq_nil_or_concat xs with rfl | ⟨ys, y, rfl⟩
    · have : q = par := by
        have := List.append_inj_left' hr rfl
        exact this
      subst this
      rw [h] at hd
      cases hd
    · rw [List.concat_eq_append] at hr
      have h1 : q ++ (x :: ys) = par := by
        have : q ++ x :: (ys ++ [y]) = (q ++ x :: ys) ++ [y] := by simp
        rw [this] at hr
        exact List.append_inj_left' hr rfl
      rw [← h1, Node.get_append, hd] at h
      simp [Node.get_file_cons] at h

/-- What a tree holds after a file or an empty directory is put into an
existing directory, at a name where there is no directory. -/
theorem Node.kind_put_leaf (t : Node) (par : List Str) (c : Str) (v : Node)
    (ks : List (Str × Node)) (hpar : t.get par = some (.dir ks))
    (hold : ∀ ks1, t.get (par ++ [c]) ≠ some (.dir ks1))
    (hv : (∃ d, v = .file d) ∨ v = .dir []) (loc : List Str) :
    ((t.put (par ++ [c]) v).get loc).map Node.kind =
      if loc = par ++ [c] then some v.kind else (t.get loc).map Node.kind := by
  have hca := clearAbove_of_parent t par c ks hpar
  by_cases h1 : (par ++ [c]) <+: loc
  · obtain ⟨r, rfl⟩ := h1
    rw [Node.get_put_below _ _ _ _ hca]
    cases r with
    | nil => simp [Node.get_nil]
    | cons x xs =>
      have hne : ¬ (par ++ [c] ++ x :: xs = par ++ [c]) := by
        intro e
        have := congrArg List.length e
        simp at this
      simp only [hne, ↓reduceIte]
      have hv2 : v.get (x :: xs) = none := by
        rcases hv with ⟨d, rfl⟩ | rfl
        · rfl
        · exact Node.get_emptyDir_cons x xs
      rw [hv2, Node.get_append]
      cases hp : t.get (par ++ [c]) with
      | none => simp
      | some n =>
        cases n with
        | file d => simp [Node.get_file_cons]
        | dir ks1 => exact absurd hp (hold ks1)
  · by_cases h2 : loc <+: (par ++ [c])
    · have hne : loc ≠ par ++ [c] := fun e => h1 (e ▸ List.prefix_refl _)
      obtain ⟨ks2, hk2⟩ := Node.get_put_above _ t v loc hca h2 hne
      simp only [hne, ↓reduceIte, hk2]
      obtain ⟨r, hr⟩ := h2
      have hlp : loc <+: par := by
        rcases List.eq_nil_or_concat r with rfl | ⟨ys, y, rfl⟩
        · simp only [List.append_nil] at hr
          exact absurd hr hne
        · rw [List.concat_eq_append, ← List.append_assoc] at hr
          exact ⟨ys, List.append_inj_left' hr rfl⟩
      obtain ⟨r2, hr2⟩ := hlp
      cases r2 with
      | nil =>
        simp only [List.append_nil] at hr2
        subst hr2
        simp [hpar, Node.kind]
      | cons y ys =>
        have : t.get (loc ++ y :: ys) ≠ none := by simp [hr2, hpar]
        obtain ⟨ks3, hk3⟩ := Node.get_parent_dir t loc y ys this
        simp [hk3, Node.kind]
    · have hne : loc ≠ par ++ [c] := fun e => h1 (e ▸ List.prefix_refl _)
      simp only [hne, ↓reduceIte]
      rw [Node.get_put_diverge _ _ _ _ h1 h2]

theorem Node.ext_refl (t : Node) : t.ext t := by
  intro loc
  exact ⟨fun ks h => ⟨ks, h⟩, fun d h => ⟨d, h⟩⟩

theorem Node.ext_trans (a b c : Node) (h1 : a.ext b) (h2 : b.ext c) : a.ext c := by
  intro loc
  constructor
  · intro ks h
    obtain ⟨ks1, hk1⟩ := (h1 loc).1 ks h
    exact (h2 loc).1 ks1 hk1
  · intro d h
    obtain ⟨d1, hd1⟩ := (h1 loc).2 d h
    exact (h2 loc).2 d1 hd1

theorem kind_eq_dir (o : Option Node) :
    o.map Node.kind = some Kind.dir ↔ ∃ ks, o = some (.dir ks) := by
  cases o with
  | none =>
    constructor
    · intro h; cases h
    · rintro ⟨ks, h⟩; cases h
  | some n =>
    cases n with
    | file d =>
      constructor
      · intro h
        simp [Node.kind] at h
      · rintro ⟨ks, h⟩
        cases h
    | dir ks =>
      constructor
      · intro _
        exact ⟨ks, rfl⟩
      · intro _
        rfl

theorem kind_eq_file (o : Option Node) (d : Bytes) :
    o.map Node.kind = some (Kind.file d) ↔ o = some (.file d) := by
  cases o with
  | none => simp
  | some n => cases n <;> simp [Node.kind]

theorem kind_eq_none (o : Option Node) : o.map Node.kind = none ↔ o = none := by
  cases o <;> simp

theorem Node.ext_put_leaf (t : Node) (par : List Str) (c : Str) (v : Node)
    (ks : List (Str × Node)) (hpar : t.get par = some (.dir ks))
    (hold : ∀ ks1, t.get (par ++ [c]) ≠ some (.dir ks1))
    (hv : (∃ d, v = .file d) ∨ (v = .dir [] ∧ t.get (par ++ [c]) = none)) :
    t.ext (t.put (par ++ [c]) v) := by
  have hv' : (∃ d, v = .file d) ∨ v = .dir [] := by
    rcases hv with h | h
    · exact Or.inl h
    · exact Or.inr h.1
  intro loc
  have key := Node.kind_put_leaf t par c v ks hpar hold hv' loc
  by_cases hl : loc = par ++ [c]
  · subst hl
    simp only [↓reduceIte] at key
    constructor
    · intro ks1 h
      exact absurd h (hold ks1)
    · intro d h
      rcases hv with ⟨d1, rfl⟩ | ⟨_, hn⟩
      · exact ⟨d1, (kind_eq_file _ d1).mp key⟩
      · rw [hn] at h
        cases h
  · simp only [hl, ↓reduceIte] at key
    constructor
    · intro ks1 h
      rw [h] at key
      exact (kind_eq_dir _).mp key
    · intro d h
      rw [h] at key
      exact ⟨d, (kind_eq_file _ d).mp key⟩

/-! ## System calls keep the tree well formed and only add to it -/

theorem get_concat_of_dir (t : Node) (cur : List Str) (c : Str) (kids : List (Str × Node))
    (h : t.get cur = some (.dir kids)) : t.get (cur ++ [c]) = kidLookup c kids := by
  rw [Node.get_append, h]
  exact Node.get_dir_singleton kids c

theorem goodName_of (c : Str) (h1 : ¬ (c = [] ∨ c = ['.'])) (h2 : ¬ c = ['.', '.'])
    (h3 : '/' ∉ c) : goodName c = true := by
  simp only [not_or] at h1
  exact (goodName_iff c).mpr ⟨h1.1, h3, h1.2, h2⟩

theorem mkdirStep_frame (root : Node) (cur : List Str) (c : Str) (root1 : Node)
    (cur1 : List Str) (hwf : root.wf = true) (hc : '/' ∉ c)
    (h : mkdirStep root cur c = .ok (root1, cur1)) : root1.wf = true ∧ root.ext root1 := by
  unfold mkdirStep at h
  split at h
  · cases h
  · cases h
  · rename_i kids hk
    split at h
    · cases h
      exact ⟨hwf, Node.ext_refl _⟩
    · rename_i h1
      split at h
      · cases h
        exact ⟨hwf, Node.ext_refl _⟩
      · rename_i h2
        split at h
        · rename_i hl
          cases h
          have hg := get_concat_of_dir root cur c kids hk
          rw [hl] at hg
          refine ⟨Node.wf_put_leaf cur root kids c _ hwf hk (goodName_of c h1 h2 hc) rfl, ?_⟩
          exact Node.ext_put_leaf root cur c _ kids hk (by simp [hg]) (Or.inr ⟨rfl, hg⟩)
        · cases h
          exact ⟨hwf, Node.ext_refl _⟩

theorem mkdirComps_frame (cs : List Str) : ∀ (root : Node) (cur : List Str),
    root.wf = true → (∀ c ∈ cs, '/' ∉ c) →
    (mkdirComps root cur cs).1.wf = true ∧ root.ext (mkdirComps root cur cs).1 := by
  induction cs with
  | nil =>
    intro root cur hwf _
    simp only [mkdirComps]
    split <;> exact ⟨hwf, Node.ext_refl _⟩
  | cons c cs ih =>
    intro root cur hwf hc
    simp only [mkdirComps]
    split
    · exact ⟨hwf, Node.ext_refl _⟩
    · rename_i root1 cur1 hs
      obtain ⟨h1, h2⟩ := mkdirStep_frame root cur c root1 cur1 hwf (hc c (by simp)) hs
      obtain ⟨h3, h4⟩ := ih root1 cur1 h1 (fun x hx => hc x (by simp [hx]))
      exact ⟨h3, Node.ext_trans _ _ _ h2 h4⟩

theorem MkdirAll_frame (w : World) (p : Str) (hwf : w.root.wf = true) :
    (MkdirAll w p).1.root.wf = true ∧ w.root.ext (MkdirAll w p).1.root ∧
      (MkdirAll w p).1.cwd = w.cwd := by
  unfold MkdirAll
  split
  · exact ⟨hwf, Node.ext_refl _, rfl⟩
  · obtain ⟨h1, h2⟩ := mkdirComps_frame (splitSlash p) w.root (startOf w p) hwf
      (splitSlash_noSlash p)
    exact ⟨h1, h2, rfl⟩

theorem mem_getLast?_getD (l : List Str) (h : l ≠ []) : l.getLast?.getD [] ∈ l := by
  rw [List.getLast?_eq_getLast l h]
  simp [List.getLast_mem]

theorem createAt_frame (w : World) (p : Str) (w2 : World) (loc : List Str)
    (hwf : w.root.wf = true) (h : createAt w p = .ok (w2, loc)) :
    w2.root.wf = true ∧ w.root.ext w2.root ∧ w2.cwd = w.cwd ∧
      w2.root.get loc = some (.file []) ∧
      ∃ par c ks, loc = par ++ [c] ∧ w.root.get par = some (.dir ks) ∧ goodName c = true ∧
        (∀ ks1, w.root.get loc ≠ some (.dir ks1)) ∧
        w2.root = w.root.put loc (.file []) := by
  unfold createAt at h
  split at h
  · cases h
  · split at h
    · cases h
    · rename_i cur hcur
      split at h
      · cases h
      · cases h
      · rename_i kids hk
        simp only at h
        split at h
        · cases h
        · rename_i hc
          simp only [not_or] at hc
          have hmem := mem_getLast?_getD (splitSlash p) (splitSlash_ne_nil p)
          have hns := splitSlash_noSlash p _ hmem
          have hgood : goodName ((splitSlash p).getLast?.getD []) = true :=
            (goodName_iff _).mpr ⟨hc.1, hns, hc.2.1, hc.2.2⟩
          have hg := get_concat_of_dir w.root cur ((splitSlash p).getLast?.getD []) kids hk
          have hold : ∀ ks1, w.root.get (cur ++ [(splitSlash p).getLast?.getD []])
              ≠ some (.dir ks1) := by
            intro ks1 e
            rw [hg] at e
            rw [e] at h
            cases h
          have hfin : w2 = World.mk (w.root.put (cur ++ [(splitSlash p).getLast?.getD []])
              (.file [])) w.cwd ∧ loc = cur ++ [(splitSlash p).getLast?.getD []] := by
            split at h
            · cases h
            · simp only [Except.ok.injEq, Prod.mk.injEq] at h
              exact ⟨h.1.symm, h.2.symm⟩
          obtain ⟨e1, e2⟩ := hfin
          subst e1 e2
          refine ⟨Node.wf_put_leaf cur w.root kids _ _ hwf hk hgood rfl,
            Node.ext_put_leaf w.root cur _ _ kids hk hold (Or.inl ⟨[], rfl⟩), rfl, ?_,
            cur, _, kids, rfl, hk, hgood, hold, rfl⟩
          have := Node.kind_put_leaf w.root cur _ (.file []) kids hk hold (Or.inl ⟨[], rfl⟩)
            (cur ++ [(splitSlash p).getLast?.getD []])
          simp only [↓reduceIte] at this
          exact (kind_eq_file _ _).mp this

theorem stepComp_ext (t t1 : Node) (cur : List Str) (c : Str) (cur1 : List Str)
    (hext : t.ext t1) (h : stepComp t cur c = .ok cur1) : stepComp t1 cur c = .ok cur1 := by
  unfold stepComp at h ⊢
  split at h
  · cases h
  · cases h
  · rename_i kids hk
    obtain ⟨kids1, hk1⟩ := (hext cur).1 kids hk
    rw [hk1]
    simp only
    split at h
    · rename_i hc
      simp only [hc, ↓reduceIte]
      exact h
    · rename_i hc
      simp only [hc, ↓reduceIte]
      split at h
      · rename_i hdd
        simp only [hdd, ↓reduceIte]
        exact h
      · rename_i hdd
        simp only [hdd, ↓reduceIte]
        split at h
        · cases h
        · rename_i k hl
          have hg := get_concat_of_dir t cur c kids hk
          rw [hl] at hg
          have hg1 := get_concat_of_dir t1 cur c kids1 hk1
          have : t1.get (cur ++ [c]) ≠ none := by
            cases k with
            | file d =>
              obtain ⟨d1, hd1⟩ := (hext _).2 d hg
              simp [hd1]
            | dir ks =>
              obtain ⟨ks1, hd1⟩ := (hext _).1 ks hg
              simp [hd1]
          rw [hg1] at this
          cases hl1 : kidLookup c kids1 with
          | none => exact absurd hl1 this
          | some k1 => exact h

theorem stepComp_ext_notdir (t t1 : Node) (cur : List Str) (c : Str)
    (hext : t.ext t1) (h : stepComp t cur c = .error .ENOTDIR) :
    stepComp t1 cur c = .error .ENOTDIR := by
  unfold stepComp at h ⊢
  split at h
  · cases h
  · rename_i d hk
    obtain ⟨d1, hd1⟩ := (hext cur).2 d hk
    rw [hd1]
  · split at h
    · cases h
    · split at h
      · cases h
      · split at h <;> cases h

theorem walkComps_ext (cs : List Str) : ∀ (t t1 : Node) (cur loc : List Str),
    t.ext t1 → walkComps t cur cs = .ok loc → walkComps t1 cur cs = .ok loc := by
  induction cs with
  | nil =>
    intro t t1 cur loc _ h
    simpa [walkComps] using h
  | cons c cs ih =>
    intro t t1 cur loc hext h
    simp only [walkComps] at h ⊢
    split at h
    · cases h
    · rename_i cur1 hs
      rw [stepComp_ext t t1 cur c cur1 hext hs]
      exact ih t t1 cur1 loc hext h

theorem walkComps_ext_notdir (cs : List Str) : ∀ (t t1 : Node) (cur : List Str),
    t.ext t1 → walkComps t cur cs = .error .ENOTDIR →
    walkComps t1 cur cs = .error .ENOTDIR := by
  induction cs with
  | nil =>
    intro t t1 cur _ h
    simp [walkComps] at h
  | cons c cs ih =>
    intro t t1 cur hext h
    simp only [walkComps] at h ⊢
    split at h
    · rename_i e hs
      cases h
      rw [stepComp_ext_notdir t t1 cur c hext hs]
    · rename_i cur1 hs
      rw [stepComp_ext t t1 cur c cur1 hext hs]
      exact ih t t1 cur1 hext h

theorem stepComp_errors (t : Node) (cur : List Str) (c : Str) (e : Errno)
    (h : stepComp t cur c = .error e) : e = .ENOENT ∨ e = .ENOTDIR := by
  unfold stepComp at h
  split at h
  · cases h; exact Or.inl rfl
  · cases h; exact Or.inr rfl
  · split at h
    · cases h
    · split at h
      · cases h
      · split at h
        · cases h; exact Or.inl rfl
        · cases h

theorem walkComps_errors (cs : List Str) : ∀ (t : Node) (cur : List Str) (e : Errno),
    walkComps t cur cs = .error e → e = .ENOENT ∨ e = .ENOTDIR := by
  induction cs with
  | nil => intro t cur e h; simp [walkComps] at h
  | cons c cs ih =>
    intro t cur e h
    simp only [walkComps] at h
    split at h
    · rename_i e1 hs
      cases h
      exact stepComp_errors t cur c _ hs
    · exact ih _ _ _ h

/-- A path lookup ends at an object that exists. -/
theorem stepComp_exists (t : Node) (cur : List Str) (c : Str) (cur1 : List Str)
    (h : stepComp t cur c = .ok cur1) : t.get cur1 ≠ none := by
  unfold stepComp at h
  split at h
  · cases h
  · cases h
  · rename_i kids hk
    split at h
    · cases h
      simp [hk]
    · split at h
      · cases h
        rcases List.eq_nil_or_concat cur with rfl | ⟨ys, y, rfl⟩
        · simp [Node.get_nil]
        · rw [List.concat_eq_append] at hk ⊢
          rw [List.dropLast_concat]
          obtain ⟨ks, hks⟩ := Node.get_parent_dir t ys y [] (by simp [hk])
          simp [hks]
      · split at h
        · cases h
        · rename_i k hl
          cases h
          rw [get_concat_of_dir t cur c kids hk, hl]
          simp

theorem walkComps_exists (cs : List Str) : ∀ (t : Node) (cur loc : List Str),
    cs ≠ [] → walkComps t cur cs = .ok loc → t.get loc ≠ none := by
  induction cs with
  | nil => intro t cur loc h; exact absurd rfl h
  | cons c cs ih =>
    intro t cur loc _ h
    simp only [walkComps] at h
    split at h
    · cases h
    · rename_i cur1 hs
      cases cs with
      | nil =>
        simp only [walkComps, Except.ok.injEq] at h
        subst h
        exact stepComp_exists t cur c cur1 hs
      | cons c2 cs2 => exact ih t cur1 loc (by simp) h

theorem resolve_exists (w : World) (p : Str) (loc : List Str) (h : resolve w p = .ok loc) :
    w.root.get loc ≠ none := by
  unfold resolve at h
  split at h
  · cases h
  · exact walkComps_exists _ _ _ _ (splitSlash_ne_nil p) h

theorem resolve_ext (w w1 : World) (p : Str) (loc : List Str) (hext : w.root.ext w1.root)
    (hcwd : w1.cwd = w.cwd) (h : resolve w p = .ok loc) : resolve w1 p = .ok loc := by
  unfold resolve at h ⊢
  split at h
  · cases h
  · rename_i hp
    simp only [hp, ↓reduceIte]
    have : startOf w1 p = startOf w p := by simp [startOf, hcwd]
    rw [this]
    exact walkComps_ext _ _ _ _ _ hext h

theorem IsDir_iff (w : World) (p : Str) :
    IsDir w p = true ↔ byteLen p ≤ 468 ∧
      ∃ loc ks, resolve w p = .ok loc ∧ w.root.get loc = some (.dir ks) := by
  unfold IsDir stat World.kindAt
  constructor
  · intro h
    split at h
    · cases h
    · rename_i hlen
      have hle : byteLen p ≤ 468 := by
        by_contra hc
        exact hlen (Or.inr (by omega))
      refine ⟨hle, ?_⟩
      split at h
      · rename_i heq
        split at heq
        · cases heq
        · rename_i loc hr
          split at heq
          · cases heq
          · rename_i k hk
            cases heq
            obtain ⟨ks, hks⟩ := (kind_eq_dir _).mp hk
            exact ⟨loc, ks, hr, hks⟩
      · cases h
  · rintro ⟨hle, loc, ks, hr, hg⟩
    have hp : p ≠ [] := by
      intro e
      simp [resolve, e] at hr
    have hc : ¬ (p = [] ∨ 468 < byteLen p) := by
      rintro (h | h)
      · exact hp h
      · omega
    simp [hc, hr, hg, Node.kind]

/-- A path of at most 468 bytes that `fsutil.IsDir` refuses does not name a
directory. -/
theorem IsDir_false_not_dir (w : World) (p : Str) (hlen : byteLen p ≤ 468) (loc : List Str)
    (hr : resolve w p = .ok loc) (h : IsDir w p = false) :
    ∀ ks, w.root.get loc ≠ some (.dir ks) := by
  intro ks hg
  have := (IsDir_iff w p).mpr ⟨hlen, loc, ks, hr, hg⟩
  rw [h] at this
  cases this

theorem pathExists_cases (w : World) (p : Str) (h : pathExists w p = true) :
    (∃ loc, resolve w p = .ok loc) ∨ resolve w p = .error .ENOTDIR := by
  unfold pathExists at h
  split at h
  · cases h
  · rename_i hp
    cases hr : resolve w p with
    | ok loc => exact Or.inl ⟨loc, rfl⟩
    | error e =>
      right
      have he : e = .ENOENT ∨ e = .ENOTDIR := by
        unfold resolve at hr
        simp only [hp, ↓reduceIte] at hr
        exact walkComps_errors _ _ _ _ hr
      rcases he with rfl | rfl
      · simp [stat, hr] at h
      · rfl

theorem resolve_ext_notdir (w w1 : World) (p : Str) (hext : w.root.ext w1.root)
    (hcwd : w1.cwd = w.cwd) (h : resolve w p = .error .ENOTDIR) :
    resolve w1 p = .error .ENOTDIR := by
  unfold resolve at h ⊢
  split at h
  · cases h
  · rename_i hp
    simp only [hp, ↓reduceIte]
    have : startOf w1 p = startOf w p := by simp [startOf, hcwd]
    rw [this]
    exact walkComps_ext_notdir _ _ _ _ hext h

theorem IsDir_ext (w w1 : World) (p : Str) (hext : w.root.ext w1.root)
    (hcwd : w1.cwd = w.cwd) (hp : pathExists w p = true) : IsDir w1 p = IsDir w p := by
  rcases pathExists_cases w p hp with ⟨loc, hr⟩ | hr
  · have hr1 := resolve_ext w w1 p loc hext hcwd hr
    have hne := resolve_exists w p loc hr
    cases hg : w.root.get loc with
    | none => exact absurd hg hne
    | some n =>
      cases n with
      | file d =>
        obtain ⟨d1, hd1⟩ := (hext loc).2 d hg
        simp [IsDir, stat, World.kindAt, hr, hr1, hg, hd1, Node.kind]
      | dir ks =>
        obtain ⟨ks1, hd1⟩ := (hext loc).1 ks hg
        simp [IsDir, stat, World.kindAt, hr, hr1, hg, hd1, Node.kind]
  · have hr1 := resolve_ext_notdir w w1 p hext hcwd hr
    simp [IsDir, stat, hr, hr1]

/-! ## The walk -/

theorem visitAt_cons (path : Str) (loc : List Str) (n : Str) (x : List Str × Kind) :
    visitAt path loc (n :: x.1, x.2) = visitAt (Join path n) (loc ++ [n]) x := by
  simp [visitAt]

mutual
theorem walkNode_eq (path : Str) (loc : List Str) : ∀ node : Node,
    walkNode path loc node = (relsNode node).map (visitAt path loc)
  | .file d => by simp [walkNode, relsNode, visitAt, Kind.isDir, Kind.data]
  | .dir kids => by
    simp only [walkNode, relsNode, List.map_cons]
    rw [walkKids_eq path loc kids]
    simp [visitAt, Kind.isDir, Kind.data]
theorem walkKids_eq (path : Str) (loc : List Str) : ∀ kids : List (Str × Node),
    walkKids path loc kids = (relsKids kids).map (visitAt path loc)
  | [] => by simp [walkKids, relsKids]
  | (n, c) :: rest => by
    simp only [walkKids, relsKids, List.map_append, List.map_map]
    rw [walkNode_eq (Join path n) (loc ++ [n]) c, walkKids_eq path loc rest]
    congr 1
    apply List.map_congr_left
    intro x _
    exact (visitAt_cons path loc n x).symm
end

mutual
theorem relsNode_good : ∀ node : Node, node.wf = true →
    ∀ x ∈ relsNode node, ∀ g ∈ x.1, goodName g = true
  | .file d => by
    intro _ x hx g hg
    simp only [relsNode, List.mem_singleton] at hx
    subst hx
    simp at hg
  | .dir kids => by
    intro h x hx g hg
    simp only [relsNode, List.mem_cons] at hx
    rcases hx with rfl | hx
    · simp at hg
    · rw [wf_dir] at h
      exact relsKids_good kids h x hx g hg
theorem relsKids_good : ∀ kids : List (Str × Node), wfKids kids = true →
    ∀ x ∈ relsKids kids, ∀ g ∈ x.1, goodName g = true
  | [] => by
    intro _ x hx
    simp [relsKids] at hx
  | (n, c) :: rest => by
    intro h x hx g hg
    obtain ⟨h1, _, h3, h4⟩ := (wfKids_cons n c rest).mp h
    simp only [relsKids, List.mem_append, List.mem_map] at hx
    rcases hx with ⟨y, hy, rfl⟩ | hx
    · simp only [List.mem_cons] at hg
      rcases hg with rfl | hg
      · exact h1
      · exact relsNode_good c h3 y hy g hg
    · exact relsKids_good rest h4 x hx g hg
end

theorem relsKids_ne_nil : ∀ kids : List (Str × Node), ∀ x ∈ relsKids kids, x.1 ≠ []
  | [] => by
    intro x hx
    simp [relsKids] at hx
  | (n, c) :: rest => by
    intro x hx
    simp only [relsKids, List.mem_append, List.mem_map] at hx
    rcases hx with ⟨y, _, rfl⟩ | hx
    · simp
    · exact relsKids_ne_nil rest x hx

theorem relsNode_head (node : Node) :
    ∃ tl, relsNode node = ([], node.kind) :: tl ∧ ∀ x ∈ tl, x.1 ≠ [] := by
  cases node with
  | file d => exact ⟨[], by simp [relsNode, Node.kind], by simp⟩
  | dir kids => exact ⟨relsKids kids, by simp [relsNode, Node.kind], relsKids_ne_nil kids⟩

theorem map_eq_append_cons {α β : Type} (f : α → β) (l : List α) (pre : List β) (x : β)
    (post : List β) (h : l.map f = pre ++ x :: post) :
    ∃ A y B, l = A ++ y :: B ∧ A.map f = pre ∧ f y = x ∧ B.map f = post := by
  induction l generalizing pre with
  | nil => simp at h
  | cons a l ih =>
    cases pre with
    | nil =>
      simp only [List.map_cons, List.nil_append, List.cons.injEq] at h
      exact ⟨[], a, l, rfl, rfl, h.1, h.2⟩
    | cons p pre =>
      simp only [List.map_cons, List.cons_append, List.cons.injEq] at h
      obtain ⟨A, y, B, h1, h2, h3, h4⟩ := ih pre h.2
      exact ⟨a :: A, y, B, by simp [h1], by simp [h.1, h2], h3, h4⟩

mutual
/-- In the order of the walk, an object comes after the directory that
holds it. -/
theorem relsNode_parent : ∀ (node : Node) (pre : List (List Str × Kind)) (x : List Str × Kind)
    (post : List (List Str × Kind)), relsNode node = pre ++ x :: post →
    ∀ rel n, x.1 = rel ++ [n] → ∃ y ∈ pre, y.1 = rel ∧ y.2 = Kind.dir
  | .file d => by
    intro pre x post h rel n hx
    simp only [relsNode] at h
    cases pre with
    | nil =>
      simp only [List.nil_append, List.cons.injEq] at h
      rw [← h.1] at hx
      simp at hx
    | cons p pre =>
      simp only [List.cons_append, List.cons.injEq] at h
      have := congrArg List.length h.2
      simp at this
      omega
  | .dir kids => by
    intro pre x post h rel n hx
    simp only [relsNode] at h
    cases pre with
    | nil =>
      simp only [List.nil_append, List.cons.injEq] at h
      rw [← h.1] at hx
      simp at hx
    | cons p pre =>
      simp only [List.cons_append, List.cons.injEq] at h
      obtain ⟨hp, hk⟩ := h
      rcases relsKids_parent kids pre x post hk rel n hx with hr | ⟨y, hy, h1, h2⟩
      · exact ⟨p, by simp, by rw [← hp, hr], by rw [← hp]⟩
      · exact ⟨y, by simp [hy], h1, h2⟩
theorem relsKids_parent : ∀ (kids : List (Str × Node)) (pre : List (List Str × Kind))
    (x : List Str × Kind) (post : List (List Str × Kind)), relsKids kids = pre ++ x :: post →
    ∀ rel n, x.1 = rel ++ [n] → rel = [] ∨ ∃ y ∈ pre, y.1 = rel ∧ y.2 = Kind.dir
  | [] => by
    intro pre x post h
    simp [relsKids] at h
  | (m, c) :: rest => by
    intro pre x post h rel n hx
    simp only [relsKids] at h
    rcases List.append_eq_append_iff.mp h with ⟨a, h1, h2⟩ | ⟨c1, h1, h2⟩
    · -- the object is among the later entries
      rcases relsKids_parent rest a x post h2 rel n hx with hr | ⟨y, hy, e1, e2⟩
      · exact Or.inl hr
      · exact Or.inr ⟨y, by rw [h1]; simp [hy], e1, e2⟩
    · cases c1 with
      | nil =>
        simp only [List.nil_append] at h2
        simp only [List.append_nil] at h1
        rcases relsKids_parent rest [] x post h2.symm rel n hx with hr | ⟨y, hy, _, _⟩
        · exact Or.inl hr
        · simp at hy
      | cons x1 c2 =>
        simp only [List.cons_append, List.cons.injEq] at h2
        obtain ⟨hx1, _⟩ := h2
        subst hx1
        obtain ⟨A, y, B, e1, e2, e3, _⟩ := map_eq_append_cons _ _ _ _ _ h1
        rw [← e3] at hx
        simp only at hx
        rcases List.eq_nil_or_concat y.1 with hy | ⟨rel0, n0, hy⟩
        · rw [hy] at hx
          left
          have := congrArg List.length hx
          simp at this
          exact this
        · right
          rw [List.concat_eq_append] at hy
          rw [hy] at hx
          have hx2 : (m :: rel0) ++ [n0] = rel ++ [n] := by simpa using hx
          have hrel : m :: rel0 = rel := List.append_inj_left' hx2 rfl
          have hn : n0 = n := by
            have := List.append_inj_right' hx2 rfl
            simpa using this
          subst hn
          obtain ⟨y0, hy0, f1, f2⟩ := relsNode_parent c A y B e1 rel0 n0 hy
          refine ⟨(m :: y0.1, y0.2), ?_, ?_, f2⟩
          · rw [← e2]
            exact List.mem_map.mpr ⟨y0, hy0, rfl⟩
          · simp [f1, hrel]
end

/-! ## Walked paths and entry names -/

theorem visitAt_path (src : Str) (loc : List Str) (x : List Str × Kind) (hs : src ≠ [])
    (hg : ∀ g ∈ x.1, goodName g = true) (hne : x.1 ≠ []) :
    (visitAt src loc x).path = render (IsAbs src) (cleanParts src ++ x.1) :=
  foldl_Join x.1 src hs hg hne

theorem render_descendant_ne (src : Str) (rel : List Str) (hg : ∀ g ∈ rel, goodName g = true)
    (hne : rel ≠ []) : render (IsAbs src) (cleanParts src ++ rel) ≠ src := by
  intro e
  have h0 := normalParts_cleanParts src
  have h1 := normalParts_append _ _ rel h0 hg
  have hc : Clean src = src := by
    have := Clean_render _ _ h1
    rwa [e] at this
  have h2 : render (IsAbs src) (cleanParts src ++ rel) = render (IsAbs src) (cleanParts src) := by
    rw [e]
    exact hc.symm
  have := render_injective _ _ _ h1 h0 h2
  have h3 := congrArg List.length this
  simp only [List.length_append] at h3
  have : rel.length = 0 := by omega
  exact hne (List.length_eq_zero.mp this)

theorem visitAt_path_ne (src : Str) (loc : List Str) (x : List Str × Kind) (hs : src ≠ [])
    (hg : ∀ g ∈ x.1, goodName g = true) (hne : x.1 ≠ []) : src ≠ (visitAt src loc x).path := by
  rw [visitAt_path src loc x hs hg hne]
  exact fun e => render_descendant_ne src x.1 hg hne e.symm

theorem visitAt_root (src : Str) (loc : List Str) (x : List Str × Kind) (h : x.1 = []) :
    (visitAt src loc x).path = src := by
  simp [visitAt, h]

theorem logOf_visitAt (src : Str) (loc : List Str) (x : List Str × Kind) (hs : src ≠ [])
    (hg : ∀ g ∈ x.1, goodName g = true) (hne : x.1 ≠ []) :
    logOf src (visitAt src loc x) =
      ⟨render (IsAbs src) (cleanParts src ++ x.1), joinSlash x.1, x.2.isDir⟩ := by
  have hp := visitAt_path src loc x hs hg hne
  simp only [logOf, hp, Rel_descendant src x.1 hg hne, Option.getD_some]
  simp [visitAt]

theorem render_child (src : Str) (rel : List Str) (n : Str) (hne : rel ≠ []) :
    render (IsAbs src) (cleanParts src ++ (rel ++ [n])) =
      render (IsAbs src) (cleanParts src ++ rel) ++ '/' :: n := by
  rw [← List.append_assoc]
  exact render_concat _ _ n (by simp [hne])

theorem kept_parent (src : Str) (excl : List Str) (a b : Str) (ha : src ≠ a)
    (h : kept src excl (a ++ b) = true) : kept src excl a = true := by
  simp only [kept, Bool.and_eq_true, decide_eq_true_eq, Bool.not_eq_true',
    List.any_eq_false] at h ⊢
  refine ⟨ha, ?_⟩
  intro e he hc
  exact h.2 e he (Contains_append_right a b e hc)

/-! ## The log of the headers written -/

theorem push_log (K : Codec) (d : Dev) (bs : Bytes) : (push K d bs).1.log = d.log := by
  unfold push
  split
  · rfl
  · simp only
    split <;> rfl

theorem writeEntry_log (K : Codec) (dstLoc : List Str) (d : Dev) (v : Visit) (name : Str) :
    ((writeEntry K dstLoc d v name).1.log = d.log ∧ (writeEntry K dstLoc d v name).2 ≠ none) ∨
    (writeEntry K dstLoc d v name).1.log = d.log ++ [⟨v.path, name, v.isDir⟩] := by
  unfold writeEntry
  simp only
  repeat' split
  all_goals first
    | (right; solve | simp [push_log])
    | (left; refine ⟨?_, ?_⟩ <;> solve | simp [push_log])

theorem walkFn_log (K : Codec) (src : Str) (excl : List Str) (dstLoc : List Str) (d : Dev)
    (v : Visit) :
    ((walkFn K src excl dstLoc d v).1.log = d.log ∧
      ((walkFn K src excl dstLoc d v).2 = none → kept src excl v.path = false)) ∨
    (kept src excl v.path = true ∧
      (walkFn K src excl dstLoc d v).1.log = d.log ++ [logOf src v]) := by
  unfold walkFn
  split
  · rename_i h
    left
    exact ⟨rfl, fun _ => by simp [kept, h]⟩
  · rename_i h
    split
    · rename_i h2
      left
      refine ⟨rfl, fun _ => ?_⟩
      simp only [kept, Bool.and_eq_false_imp, decide_eq_true_eq]
      intro _
      simp [h2]
    · rename_i h2
      have hk : kept src excl v.path = true := by
        simp only [kept, Bool.and_eq_true, decide_eq_true_eq, Bool.not_eq_true']
        exact ⟨h, by simpa using h2⟩
      split
      · left
        exact ⟨rfl, fun hn => by simp at hn⟩
      · rename_i relPath hr
        rcases writeEntry_log K dstLoc d v relPath with ⟨h3, h4⟩ | h3
        · left
          exact ⟨h3, fun hn => absurd hn h4⟩
        · right
          refine ⟨hk, ?_⟩
          rw [h3]
          simp [logOf, hr]

theorem runWalk_log (K : Codec) (src : Str) (excl : List Str) (dstLoc : List Str)
    (L : List Visit) : ∀ d : Dev, ∃ L1 L2, L = L1 ++ L2 ∧
      ((runWalk (walkFn K src excl dstLoc) d L).2 = none → L2 = []) ∧
      (runWalk (walkFn K src excl dstLoc) d L).1.log =
        d.log ++ (L1.filter (fun v => kept src excl v.path)).map (logOf src) := by
  induction L with
  | nil =>
    intro d
    exact ⟨[], [], rfl, fun _ => rfl, by simp [runWalk]⟩
  | cons v vs ih =>
    intro d
    simp only [runWalk]
    have hw := walkFn_log K src excl dstLoc d v
    cases hf : walkFn K src excl dstLoc d v with
    | mk d1 e =>
      rw [hf] at hw
      simp only at hw
      cases e with
      | none =>
        simp only
        obtain ⟨L1, L2, h1, h2, h3⟩ := ih d1
        refine ⟨v :: L1, L2, by simp [h1], h2, ?_⟩
        rw [h3]
        rcases hw with ⟨ha, hb⟩ | ⟨ha, hb⟩
        · simp [ha, hb rfl]
        · simp [ha, hb]
      | some er =>
        simp only
        rcases hw with ⟨ha, _⟩ | ⟨ha, hb⟩
        · exact ⟨[], v :: vs, rfl, fun h => by simp at h, by simp [ha]⟩
        · exact ⟨[v], vs, rfl, fun h => by simp at h, by simp [ha, hb]⟩

theorem finish_log (K : Codec) (d : Dev) : (finish K d).log = d.log := by
  unfold finish
  simp only
  repeat' split
  all_goals simp [push_log]

/-- The stages of `Archive`. -/
theorem Archive_cases (K : Codec) (cap : Option Nat) (w : World) (src dst : Str)
    (excl : List Str) :
    ((Archive K cap w src dst excl).log = [] ∧ (Archive K cap w src dst excl).err ≠ none ∧
      (Archive K cap w src dst excl).walked = []) ∨
    ∃ w1 w2 dstLoc, pathExists w src = true ∧
      (w1 = w ∨ w1 = (MkdirAll w (Dir dst)).1) ∧
      createAt w1 dst = .ok (w2, dstLoc) ∧
      (HasSuffix dst suffixTar = true ∨ HasSuffix dst suffixTarGz = true) ∧
      Archive K cap w src dst excl =
        ⟨(archiveInto K w2 dstLoc ⟨HasSuffix dst suffixTarGz, cap, [], [], 0, false, false, []⟩
            src excl).2,
          w2.write dstLoc (onDisk K (finish K (archiveInto K w2 dstLoc
            ⟨HasSuffix dst suffixTarGz, cap, [], [], 0, false, false, []⟩ src excl).1)),
          (finish K (archiveInto K w2 dstLoc
            ⟨HasSuffix dst suffixTarGz, cap, [], [], 0, false, false, []⟩ src excl).1).log,
          (finish K (archiveInto K w2 dstLoc
            ⟨HasSuffix dst suffixTarGz, cap, [], [], 0, false, false, []⟩ src excl).1).failed,
          if IsDir w2 src then walkedPaths w2 src else []⟩ := by
  unfold Archive
  split
  · left
    exact ⟨rfl, by simp, rfl⟩
  · rename_i hpe
    simp only [Bool.not_eq_true, Bool.not_eq_false] at hpe
    simp only
    split
    · left
      exact ⟨rfl, by simp, rfl⟩
    · rename_i hmade
      split
      · left
        exact ⟨rfl, by simp, rfl⟩
      · rename_i hsuf
        split
        · left
          exact ⟨rfl, by simp, rfl⟩
        · rename_i w2 dstLoc hc
          right
          refine ⟨_, w2, dstLoc, by simpa using hpe, ?_, hc, ?_, rfl⟩
          · split
            · right; rfl
            · left; rfl
          · simp only [Bool.and_eq_true, Bool.not_eq_true', not_and, Bool.not_eq_false] at hsuf
            by_cases h1 : HasSuffix dst suffixTar = true
            · exact Or.inl h1
            · exact Or.inr (hsuf (by simpa using h1))

theorem joinSlash_cons_char (c : Char) (x : Str) (xs : List Str) :
    joinSlash ((c :: x) :: xs) = c :: joinSlash (x :: xs) := by
  cases xs <;> simp [joinSlash]

theorem joinSlash_splitSlash (p : Str) : joinSlash (splitSlash p) = p := by
  induction p with
  | nil => simp [splitSlash, joinSlash]
  | cons c s ih =>
    simp only [splitSlash]
    split
    · rename_i hc
      rw [joinSlash_cons [] _ (splitSlash_ne_nil s), ih, hc]
      simp
    · cases h : splitSlash s with
      | nil => exact absurd h (splitSlash_ne_nil s)
      | cons x xs =>
        simp only
        rw [joinSlash_cons_char, ← h, ih]

theorem last_slash_unique (a b a1 b1 : Str) (h : a ++ '/' :: b = a1 ++ '/' :: b1)
    (hb : '/' ∉ b) (hb1 : '/' ∉ b1) : a = a1 ∧ b = b1 := by
  rcases List.append_eq_append_iff.mp h with ⟨c, h1, h2⟩ | ⟨c, h1, h2⟩
  · cases c with
    | nil =>
      simp only [List.nil_append, List.cons.injEq, true_and] at h2
      simp only [List.append_nil] at h1
      exact ⟨h1.symm, h2⟩
    | cons x c1 =>
      simp only [List.cons_append, List.cons.injEq] at h2
      exact absurd (by rw [h2.2]; simp) hb
  · cases c with
    | nil =>
      simp only [List.nil_append, List.cons.injEq, true_and] at h2
      simp only [List.append_nil] at h1
      exact ⟨h1, h2.symm⟩
    | cons x c1 =>
      simp only [List.cons_append, List.cons.injEq] at h2
      exact absurd (by rw [h2.2]; simp) hb1

theorem takeWhile_append_stop (l r : Str) (h : '/' ∉ l) :
    (l ++ '/' :: r).takeWhile (fun c => c ≠ '/') = l := by
  induction l with
  | nil => simp
  | cons x xs ih =>
    simp only [List.mem_cons, not_or] at h
    have hx : decide (x ≠ '/') = true := by
      have : x ≠ '/' := fun e => h.1 e.symm
      simpa using this
    rw [List.cons_append, List.takeWhile_cons]
    simp only [hx, ↓reduceIte]
    exact congrArg _ (ih h.2)

theorem takeWhile_all (l : Str) (h : '/' ∉ l) : l.takeWhile (fun c => c ≠ '/') = l := by
  induction l with
  | nil => simp
  | cons x xs ih =>
    simp only [List.mem_cons, not_or] at h
    have hx : decide (x ≠ '/') = true := by
      have : x ≠ '/' := fun e => h.1 e.symm
      simpa using this
    rw [List.takeWhile_cons]
    simp only [hx, ↓reduceIte]
    exact congrArg _ (ih h.2)

theorem dropWhile_slash_none (l : Str) (hne : l ≠ []) (h : '/' ∉ l) (r : Str) :
    (l.reverse ++ r).dropWhile (fun c => c = '/') = l.reverse ++ r := by
  rcases List.eq_nil_or_concat l with rfl | ⟨ys, y, rfl⟩
  · exact absurd rfl hne
  · rw [List.concat_eq_append] at h ⊢
    have hy : y ≠ '/' := by
      intro e
      exact h (by simp [e])
    simp [List.dropWhile_cons, hy]

/-- The base name of a path whose last element is a proper name. -/
theorem basename_of_last (p : Str) (init : List Str) (last : Str)
    (h : splitSlash p = init ++ [last]) (hg : goodName last = true) : basename p = last := by
  obtain ⟨hne, hns, _, _⟩ := (goodName_iff last).mp hg
  have hp := joinSlash_splitSlash p
  rw [h] at hp
  have hns' : '/' ∉ last.reverse := by simpa using hns
  unfold basename
  cases init with
  | nil =>
    simp only [List.nil_append, joinSlash] at hp
    subst hp
    have hd := dropWhile_slash_none last hne hns []
    simp only [List.append_nil] at hd
    simp only [hd]
    have : last.reverse ≠ [] := by simpa using hne
    simp only [this, ↓reduceIte]
    rw [takeWhile_all _ hns']
    simp
  | cons i0 irest =>
    rw [joinSlash_append_singleton _ _ (by simp)] at hp
    subst hp
    have hrev : (joinSlash (i0 :: irest) ++ '/' :: last).reverse =
        last.reverse ++ '/' :: (joinSlash (i0 :: irest)).reverse := by simp
    rw [hrev, dropWhile_slash_none last hne hns]
    have : last.reverse ++ '/' :: (joinSlash (i0 :: irest)).reverse ≠ [] := by
      cases hl : last.reverse <;> simp
    simp only [this, ↓reduceIte]
    rw [takeWhile_append_stop _ _ hns']
    simp

theorem walkComps_append (a b : List Str) : ∀ (t : Node) (cur : List Str),
    walkComps t cur (a ++ b) =
      match walkComps t cur a with
      | .error e => .error e
      | .ok cur1 => walkComps t cur1 b := by
  induction a with
  | nil => intro t cur; simp [walkComps]
  | cons c cs ih =>
    intro t cur
    simp only [List.cons_append, walkComps]
    cases stepComp t cur c with
    | error e => rfl
    | ok cur1 => exact ih t cur1

theorem stepComp_to_file (t : Node) (cur : List Str) (c : Str) (loc : List Str) (d : Bytes)
    (h : stepComp t cur c = .ok loc) (hf : t.get loc = some (.file d)) (hc : '/' ∉ c) :
    goodName c = true ∧ loc = cur ++ [c] := by
  unfold stepComp at h
  split at h
  · cases h
  · cases h
  · rename_i kids hk
    split at h
    · cases h
      rw [hk] at hf
      cases hf
    · rename_i h1
      split at h
      · cases h
        rcases List.eq_nil_or_concat cur with rfl | ⟨ys, y, rfl⟩
        · simp only [List.dropLast_nil] at hf
          rw [hk] at hf
          cases hf
        · rw [List.concat_eq_append] at hk hf
          rw [List.dropLast_concat] at hf
          obtain ⟨ks, hks⟩ := Node.get_parent_dir t ys y [] (by simp [hk])
          rw [hks] at hf
          cases hf
      · rename_i h2
        split at h
        · cases h
        · cases h
          exact ⟨goodName_of c h1 h2 hc, rfl⟩

/-- A path that names a regular file ends in a proper name, its base
name. -/
theorem basename_of_file (w : World) (p : Str) (loc : List Str) (d : Bytes)
    (h : resolve w p = .ok loc) (hf : w.root.get loc = some (.file d)) :
    goodName (basename p) = true := by
  unfold resolve at h
  split at h
  · cases h
  · rcases List.eq_nil_or_concat (splitSlash p) with hnil | ⟨init, last, hs⟩
    · exact absurd hnil (splitSlash_ne_nil p)
    · rw [List.concat_eq_append] at hs
      rw [hs, walkComps_append] at h
      split at h
      · cases h
      · rename_i cur1 _
        simp only [walkComps] at h
        cases hst : stepComp w.root cur1 last with
        | error e =>
          rw [hst] at h
          cases h
        | ok cur2 =>
          rw [hst] at h
          simp only [Except.ok.injEq] at h
          subst h
          have hmem : last ∈ splitSlash p := by rw [hs]; simp
          obtain ⟨hg, _⟩ := stepComp_to_file w.root cur1 last cur2 d hst hf
            (splitSlash_noSlash p last hmem)
          rw [basename_of_last p init last hs hg]
          exact hg

theorem filter_eq_append_cons {α : Type} (p : α → Bool) (l : List α) (A : List α) (y : α)
    (B : List α) (h : l.filter p = A ++ y :: B) :
    ∃ A1 B1, l = A1 ++ y :: B1 ∧ A1.filter p = A ∧ p y = true := by
  induction l generalizing A with
  | nil => simp at h
  | cons a l ih =>
    by_cases hp : p a = true
    · simp only [List.filter_cons, hp, ↓reduceIte] at h
      cases A with
      | nil =>
        simp only [List.nil_append, List.cons.injEq] at h
        exact ⟨[], l, by simp [h.1], rfl, by rw [← h.1]; exact hp⟩
      | cons a0 A0 =>
        simp only [List.cons_append, List.cons.injEq] at h
        obtain ⟨A1, B1, h1, h2, h3⟩ := ih A0 h.2
        exact ⟨a :: A1, B1, by simp [h1], by simp [List.filter_cons, hp, ← h.1, h2], h3⟩
    · simp only [List.filter_cons, hp] at h
      obtain ⟨A1, B1, h1, h2, h3⟩ := ih A h
      exact ⟨a :: A1, B1, by simp [h1], by simp [List.filter_cons, hp, h2], h3⟩

/-- The headers written for a directory source: those of the kept objects
among a front part of the walk. -/
theorem archiveInto_dir (K : Codec) (w : World) (dstLoc : List Str) (d0 : Dev) (src : Str)
    (excl : List Str) (hd0 : d0.log = []) (hdir : IsDir w src = true) :
    ∃ loc ks R1 R2, resolve w src = .ok loc ∧ w.root.get loc = some (.dir ks) ∧
      relsNode (.dir ks) = R1 ++ R2 ∧
      ((archiveInto K w dstLoc d0 src excl).2 = none → R2 = []) ∧
      (archiveInto K w dstLoc d0 src excl).1.log =
        (R1.filter (fun x => kept src excl (visitAt src loc x).path)).map
          (fun x => logOf src (visitAt src loc x)) ∧
      walkedPaths w src = (relsNode (.dir ks)).map (fun x => (visitAt src loc x).path) := by
  obtain ⟨_, loc, ks, hr, hg⟩ := (IsDir_iff w src).mp hdir
  have hrun : archiveInto K w dstLoc d0 src excl =
      runWalk (walkFn K src excl dstLoc) d0 (walkNode src loc (.dir ks)) := by
    unfold archiveInto
    simp only [hdir, ↓reduceIte, hr, hg]
  obtain ⟨L1, L2, h1, h2, h3⟩ := runWalk_log K src excl dstLoc (walkNode src loc (.dir ks)) d0
  rw [walkNode_eq] at h1
  obtain ⟨R1, R2, e1, e2, e3⟩ := List.map_eq_append_iff.mp h1
  refine ⟨loc, ks, R1, R2, hr, hg, e1, ?_, ?_, ?_⟩
  · intro hn
    rw [hrun] at hn
    have := h2 hn
    rw [this] at e3
    simpa using e3
  · rw [hrun, h3, hd0, ← e2]
    simp [List.filter_map, Function.comp_def]
  · simp [walkedPaths, hr, hg, walkNode_eq]

/-- The headers written for a source that `fsutil.IsDir` refuses: at most
one, for the source, named by its base name; a directory header, with a
separator after the name, when the source is a directory all the same. -/
theorem archiveInto_file (K : Codec) (w : World) (dstLoc : List Str) (d0 : Dev) (src : Str)
    (excl : List Str) (hd0 : d0.log = []) (hdir : IsDir w src = false) :
    (archiveInto K w dstLoc d0 src excl).1.log = [] ∨
    ((archiveInto K w dstLoc d0 src excl).1.log = [⟨src, basename src, false⟩] ∧
      goodName (basename src) = true) ∨
    ((archiveInto K w dstLoc d0 src excl).1.log = [⟨src, basename src ++ ['/'], true⟩] ∧
      468 < byteLen src ∧ (archiveInto K w dstLoc d0 src excl).2 ≠ none) := by
  unfold archiveInto
  simp only [hdir, Bool.false_eq_true, ↓reduceIte]
  split
  · exact Or.inl hd0
  · rename_i loc hr
    split
    · exact Or.inl hd0
    · rename_i node hg
      split
      · rename_i ks
        have hlen : 468 < byteLen src := by
          by_contra hc
          exact IsDir_false_not_dir w src (by omega) loc hr hdir ks hg
        rcases writeEntry_log K dstLoc d0 ⟨src, loc, true, []⟩ (basename src ++ ['/']) with
          ⟨h1, _⟩ | h1
        · left
          split <;> rename_i heq <;> rw [heq] at h1 <;> simpa [hd0] using h1
        · right
          right
          split <;> rename_i heq <;> rw [heq] at h1 <;>
            exact ⟨by simpa [hd0] using h1, hlen, by simp⟩
      · rename_i data
        rcases writeEntry_log K dstLoc d0 ⟨src, loc, false, data⟩ (basename src) with
          ⟨h1, _⟩ | h1
        · left
          rw [h1, hd0]
        · right
          left
          rw [h1, hd0]
          exact ⟨rfl, basename_of_file w src loc data hr hg⟩

/-- The state in which `Archive` walks: well formed when the first state
is, and the source is a directory in it when it is one in the first. -/
theorem Archive_stage_frame (w w1 w2 : World) (src dst : Str) (dstLoc : List Str)
    (hwf : w.root.wf = true) (hpe : pathExists w src = true)
    (hw1 : w1 = w ∨ w1 = (MkdirAll w (Dir dst)).1)
    (hc : createAt w1 dst = .ok (w2, dstLoc)) :
    w2.root.wf = true ∧ IsDir w2 src = IsDir w src := by
  have h1 : w1.root.wf = true ∧ w.root.ext w1.root ∧ w1.cwd = w.cwd := by
    rcases hw1 with rfl | rfl
    · exact ⟨hwf, Node.ext_refl _, rfl⟩
    · exact MkdirAll_frame w (Dir dst) hwf
  obtain ⟨h2, h3, h4, _⟩ := createAt_frame w1 dst w2 dstLoc h1.1 hc
  exact ⟨h2, IsDir_ext w w2 src (Node.ext_trans _ _ _ h1.2.1 h3) (by rw [h4, h1.2.2]) hpe⟩

theorem src_ne_nil_of_pathExists (w : World) (src : Str) (h : pathExists w src = true) :
    src ≠ [] := by
  intro e
  simp [pathExists, e] at h

theorem joinSlash_noSlash_single (rel : List Str) (hg : ∀ g ∈ rel, goodName g = true)
    (h : '/' ∉ joinSlash rel) (hne : rel ≠ []) : ∃ n, rel = [n] := by
  cases rel with
  | nil => exact absurd rfl hne
  | cons a rest =>
    cases rest with
    | nil => exact ⟨a, rfl⟩
    | cons b rest2 =>
      rw [joinSlash_cons a _ (by simp)] at h
      exact absurd (by simp) h

/-- C10. Ancestors come first, also under exclusion. For a directory source on a
well-formed tree, and every destination and list of excluded strings: (1) the walked path
of a written entry has no excluded string in any of its front parts, so nothing is written
for an object beneath a directory that was skipped for an excluded substring (the walked
path of an object is the walked path of its directory, a separator and its name); (2) in
the sequence of headers `Archive` writes, every entry whose name is `par/base` comes after
a directory entry named `par`. -/
theorem Archive_ancestors_first (K : Codec) (cap : Option Nat) (w : World) (src dst : Str)
    (excludePaths : List Str) (hwf : w.root.wf = true) (hsrcdir : IsDir w src = true) :
    (∀ e ∈ (Archive K cap w src dst excludePaths).log, ∀ a b, e.path = a ++ b →
      ∀ x ∈ excludePaths, Contains a x = false) ∧
    (∀ pre e post, (Archive K cap w src dst excludePaths).log = pre ++ e :: post →
      ∀ par base, e.name = par ++ '/' :: base → '/' ∉ base →
        ∃ e1 ∈ pre, e1.name = par ∧ e1.isDir = true) := by
  rcases Archive_cases K cap w src dst excludePaths with ⟨h0, _, _⟩ | ⟨w1, w2, dstLoc, hpe, hw1,
    hc, _, hA⟩
  · rw [h0]
    exact ⟨by simp, by
      intro pre e post h
      have := congrArg List.length h
      simp at this
      omega⟩
  · obtain ⟨hwf2, hdireq⟩ := Archive_stage_frame w w1 w2 src dst dstLoc hwf hpe hw1 hc
    have hsrc := src_ne_nil_of_pathExists w src hpe
    rw [hA]
    simp only [finish_log]
    cases hdir : IsDir w2 src with
    | false =>
      rw [hdireq, hsrcdir] at hdir
      cases hdir
    | true =>
      obtain ⟨loc, ks, R1, R2, hr, hg, hR, _, hlog, _⟩ :=
        archiveInto_dir K w2 dstLoc ⟨HasSuffix dst suffixTarGz, cap, [], [], 0, false, false, []⟩
          src excludePaths rfl hdir
      rw [hlog]
      have hnode : (Node.dir ks).wf = true := (Node.wf_get loc w2.root _ hwf2 hg).1
      have hgood : ∀ x ∈ R1, ∀ g ∈ x.1, goodName g = true := by
        intro x hx
        exact relsNode_good _ hnode x (by rw [hR]; simp [hx])
      constructor
      · intro e he a b hab x hx
        obtain ⟨y, hy, rfl⟩ := List.mem_map.mp he
        obtain ⟨_, hk⟩ := List.mem_filter.mp hy
        simp only [logOf] at hab
        rw [hab] at hk
        simp only [kept, Bool.and_eq_true, decide_eq_true_eq, Bool.not_eq_true',
          List.any_eq_false] at hk
        cases hC : Contains a x with
        | false => rfl
        | true => exact absurd (Contains_append_right a b x hC) (by simpa using hk.2 x hx)
      · intro pre e post h par base hn hb
        obtain ⟨A, y, B, hf, hpre, hey, _⟩ := map_eq_append_cons _ _ _ _ _ h
        obtain ⟨A1, B1, hR1, hA1, hky⟩ := filter_eq_append_cons _ _ _ _ _ hf
        have hyR : y ∈ R1 := by rw [hR1]; simp
        have hyg := hgood y hyR
        have hyne : y.1 ≠ [] := by
          intro e0
          have : (visitAt src loc y).path = src := visitAt_root src loc y e0
          simp only [this, kept, ne_eq, not_true_eq_false, decide_False, Bool.false_and] at hky
          exact absurd hky (by simp)
        have hlogy := logOf_visitAt src loc y hsrc hyg hyne
        rw [hlogy] at hey
        rw [← hey] at hn
        simp only at hn
        rcases List.eq_nil_or_concat y.1 with e0 | ⟨rel, n, hrel⟩
        · exact absurd e0 hyne
        · rw [List.concat_eq_append] at hrel
          have hgn : goodName n = true := hyg n (by rw [hrel]; simp)
          have hnn : '/' ∉ n := ((goodName_iff n).mp hgn).2.1
          by_cases hrn : rel = []
          · subst hrn
            rw [hrel] at hn
            simp only [List.nil_append, joinSlash] at hn
            rw [hn] at hnn
            exact absurd (by simp) hnn
          · rw [hrel, joinSlash_append_singleton rel n hrn] at hn
            obtain ⟨hpar, _⟩ := last_slash_unique _ _ _ _ hn hnn hb
            obtain ⟨z, hz, hz1, hz2⟩ := relsNode_parent (.dir ks) A1 y (B1 ++ R2)
              (by rw [hR, hR1]; simp) rel n hrel
            have hzg : ∀ g ∈ z.1, goodName g = true := by
              rw [hz1]
              intro g hgm
              exact hyg g (by rw [hrel]; simp [hgm])
            have hzne : z.1 ≠ [] := by rw [hz1]; exact hrn
            have hpy := visitAt_path src loc y hsrc hyg hyne
            have hpz := visitAt_path src loc z hsrc hzg hzne
            have hchild : (visitAt src loc y).path = (visitAt src loc z).path ++ '/' :: n := by
              rw [hpy, hpz, hrel, hz1]
              exact render_child src rel n hrn
            have hkz : kept src excludePaths (visitAt src loc z).path = true := by
              rw [hchild] at hky
              exact kept_parent src excludePaths _ _ (visitAt_path_ne src loc z hsrc hzg hzne) hky
            refine ⟨logOf src (visitAt src loc z), ?_, ?_, ?_⟩
            · rw [← hpre, ← hA1]
              exact List.mem_map.mpr ⟨z, List.mem_filter.mpr ⟨hz, hkz⟩, rfl⟩
            · rw [logOf_visitAt src loc z hsrc hzg hzne]
              simp only
              rw [hz1, hpar]
            · rw [logOf_visitAt src loc z hsrc hzg hzne]
              simp [hz2, Kind.isDir]

theorem goodName_head (n : Str) (h : goodName n = true) : n.head? ≠ some '/' := by
  obtain ⟨h1, h2, _, _⟩ := (goodName_iff n).mp h
  cases n with
  | nil => simp
  | cons c cs =>
    simp only [List.mem_cons, not_or] at h2
    simp only [List.head?_cons, ne_eq, Option.some.injEq]
    exact fun e => h2.1 e.symm

/-- The entry names `Archive` writes for a source path of at most 468 bytes, on a
well-formed tree. For every written entry: its name has no leading separator and no
segment `..`; for a directory source the entry is not that of the source itself and its
name is the walked path relative to `src`; for another source the entry is that of `src`,
named by its base name, and it is the only one. -/
theorem Archive_entry_names_relative (K : Codec) (cap : Option Nat) (w : World)
    (src dst : Str) (excludePaths : List Str) (hwf : w.root.wf = true)
    (hlen : byteLen src ≤ 468) :
    (∀ e ∈ (Archive K cap w src dst excludePaths).log,
      e.name.head? ≠ some '/' ∧ ['.', '.'] ∉ segments e.name ∧
      (IsDir w src = true → e.path ≠ src ∧ Rel src e.path = some e.name) ∧
      (IsDir w src = false → e.path = src ∧ e.name = basename src)) ∧
    (IsDir w src = false → (Archive K cap w src dst excludePaths).log.length ≤ 1) := by
  rcases Archive_cases K cap w src dst excludePaths with ⟨h0, _, _⟩ | ⟨w1, w2, dstLoc, hpe, hw1,
    hc, _, hA⟩
  · rw [h0]
    exact ⟨by simp, by simp⟩
  · obtain ⟨hwf2, hdireq⟩ := Archive_stage_frame w w1 w2 src dst dstLoc hwf hpe hw1 hc
    have hsrc := src_ne_nil_of_pathExists w src hpe
    rw [hA]
    simp only [finish_log]
    cases hdir : IsDir w2 src with
    | false =>
      have hdw : IsDir w src = false := by rw [← hdireq]; exact hdir
      rcases archiveInto_file K w2 dstLoc
        ⟨HasSuffix dst suffixTarGz, cap, [], [], 0, false, false, []⟩ src excludePaths rfl hdir
        with h1 | ⟨h1, hg⟩
      · rw [h1]
        exact ⟨by simp, by simp⟩
      · rw [h1]
        refine ⟨?_, by simp⟩
        intro e he
        simp only [List.mem_singleton] at he
        subst he
        refine ⟨goodName_head _ hg, ?_, ?_, fun _ => ⟨rfl, rfl⟩⟩
        · simp only [segments]
          rw [splitSlash_of_noSlash _ ((goodName_iff _).mp hg).2.1]
          simp only [List.mem_singleton]
          exact fun e => ((goodName_iff _).mp hg).2.2.2 e.symm
        · intro h
          rw [hdw] at h
          cases h
      · exact absurd hlen (by omega)
    | true =>
      have hdw : IsDir w src = true := by rw [← hdireq]; exact hdir
      obtain ⟨loc, ks, R1, R2, hr, hg, hR, _, hlog, _⟩ :=
        archiveInto_dir K w2 dstLoc ⟨HasSuffix dst suffixTarGz, cap, [], [], 0, false, false, []⟩
          src excludePaths rfl hdir
      rw [hlog]
      have hnode : (Node.dir ks).wf = true := (Node.wf_get loc w2.root _ hwf2 hg).1
      refine ⟨?_, fun h => by rw [hdw] at h; cases h⟩
      intro e he
      obtain ⟨y, hy, rfl⟩ := List.mem_map.mp he
      obtain ⟨hyR, hky⟩ := List.mem_filter.mp hy
      have hyg : ∀ g ∈ y.1, goodName g = true :=
        relsNode_good _ hnode y (by rw [hR]; simp [hyR])
      have hyne : y.1 ≠ [] := by
        intro e0
        have : (visitAt src loc y).path = src := visitAt_root src loc y e0
        simp only [this, kept, ne_eq, not_true_eq_false, decide_False, Bool.false_and] at hky
        exact absurd hky (by simp)
      rw [logOf_visitAt src loc y hsrc hyg hyne]
      simp only
      refine ⟨?_, ?_, fun _ => ⟨render_descendant_ne src y.1 hyg hyne,
        Rel_descendant src y.1 hyg hyne⟩, fun h => by rw [hdw] at h; cases h⟩
      · cases hy1 : y.1 with
        | nil => exact absurd hy1 hyne
        | cons a rest =>
          have ha : goodName a = true := hyg a (by rw [hy1]; simp)
          rw [joinSlash_head _ a rest rfl ((goodName_iff a).mp ha).1]
          exact goodName_head a ha
      · simp only [segments]
        rw [splitSlash_joinSlash _ hyne (fun p hp => ((goodName_iff p).mp (hyg p hp)).2.1)]
        intro hmem
        exact ((goodName_iff _).mp (hyg _ hmem)).2.2.2 rfl

theorem kept_iff (src : Str) (excl : List Str) (p : Str) :
    kept src excl p = true ↔ p ≠ src ∧ ∀ x ∈ excl, Contains p x = false := by
  simp only [kept, Bool.and_eq_true, decide_eq_true_eq, Bool.not_eq_true', List.any_eq_false,
    Bool.not_eq_true]
  constructor
  · rintro ⟨h1, h2⟩
    exact ⟨fun e => h1 e.symm, h2⟩
  · rintro ⟨h1, h2⟩
    exact ⟨fun e => h1 e.symm, h2⟩

/-- Exclusion by literal substring of the walked path. For a directory source on a
well-formed tree, when `Archive` returns no error: the walked paths of the entries written
are, in the order of the walk, the walked paths other than `src` in which no excluded
string occurs; so a walked path `p` other than `src` is written if and only if no excluded
string occurs in `p`, whether or not the directory that holds it was skipped. The walked
path of an object below `src` is the cleaned `src` followed by the names that lead to the
object. -/
theorem Archive_writes_the_unexcluded (K : Codec) (cap : Option Nat) (w : World)
    (src dst : Str) (excludePaths : List Str) (hwf : w.root.wf = true)
    (hsrcdir : IsDir w src = true)
    (hok : (Archive K cap w src dst excludePaths).err = none) :
    (Archive K cap w src dst excludePaths).log.map Written.path =
      (Archive K cap w src dst excludePaths).walked.filter (kept src excludePaths) ∧
    (∀ p ∈ (Archive K cap w src dst excludePaths).walked,
      (p ∈ (Archive K cap w src dst excludePaths).log.map Written.path ↔
        p ≠ src ∧ ∀ x ∈ excludePaths, Contains p x = false)) ∧
    (∀ p ∈ (Archive K cap w src dst excludePaths).walked, p ≠ src →
      ∃ rel, rel ≠ [] ∧ (∀ g ∈ rel, goodName g = true) ∧
        p = render (IsAbs src) (cleanParts src ++ rel)) := by
  have key : (Archive K cap w src dst excludePaths).log.map Written.path =
      (Archive K cap w src dst excludePaths).walked.filter (kept src excludePaths) ∧
      (∀ p ∈ (Archive K cap w src dst excludePaths).walked, p ≠ src →
        ∃ rel, rel ≠ [] ∧ (∀ g ∈ rel, goodName g = true) ∧
          p = render (IsAbs src) (cleanParts src ++ rel)) := by
    rcases Archive_cases K cap w src dst excludePaths with ⟨_, h0, _⟩ | ⟨w1, w2, dstLoc, hpe,
      hw1, hc, _, hA⟩
    · exact absurd hok h0
    · obtain ⟨hwf2, hdireq⟩ := Archive_stage_frame w w1 w2 src dst dstLoc hwf hpe hw1 hc
      have hsrc := src_ne_nil_of_pathExists w src hpe
      have hdir : IsDir w2 src = true := by rw [hdireq]; exact hsrcdir
      rw [hA] at hok ⊢
      simp only [finish_log, hdir, ↓reduceIte] at hok ⊢
      obtain ⟨loc, ks, R1, R2, hr, hg, hR, hfin, hlog, hwalk⟩ :=
        archiveInto_dir K w2 dstLoc ⟨HasSuffix dst suffixTarGz, cap, [], [], 0, false, false, []⟩
          src excludePaths rfl hdir
      have hR2 := hfin hok
      subst hR2
      simp only [List.append_nil] at hR
      rw [hlog, hwalk, hR]
      have hnode : (Node.dir ks).wf = true := (Node.wf_get loc w2.root _ hwf2 hg).1
      constructor
      · simp [List.filter_map, Function.comp_def, logOf]
      · intro p hp hne
        obtain ⟨y, hy, rfl⟩ := List.mem_map.mp hp
        have hyg : ∀ g ∈ y.1, goodName g = true := relsNode_good _ hnode y (by rw [hR]; exact hy)
        have hyne : y.1 ≠ [] := fun e0 => hne (visitAt_root src loc y e0)
        exact ⟨y.1, hyne, hyg, visitAt_path src loc y hsrc hyg hyne⟩
  refine ⟨key.1, ?_, key.2⟩
  intro p hp
  rw [key.1, List.mem_filter, kept_iff]
  exact ⟨fun h => h.2, fun h => ⟨hp, h⟩⟩

/-! ## What `Archive` puts into the destination -/

theorem push_sound (K : Codec) (d : Dev) (bs : Bytes) (h : d.sound) :
    push K d bs = ({ d with pushed := d.pushed ++ bs }, true) := by
  obtain ⟨h1, h2, _, _⟩ := h
  simp [push, h1, h2, fits]

theorem writeEntry_sound (K : Codec) (dstLoc : List Str) (d : Dev) (v : Visit) (name : Str)
    (h : d.sound) (hloc : v.loc ≠ dstLoc) (hdata : v.isDir = true → v.data = []) :
    (writeEntry K dstLoc d v name).2 = none ∧ (writeEntry K dstLoc d v name).1.sound ∧
    (writeEntry K dstLoc d v name).1.gz = d.gz ∧
    ∀ rest, (writeEntry K dstLoc d v name).1.pushed ++ (writeEntry K dstLoc d v name).1.pad ++
        tarStream K rest =
      d.pushed ++ d.pad ++ tarStream K (⟨name, v.isDir, v.data⟩ :: rest) := by
  have hs := h
  obtain ⟨h1, h2, h3, h4⟩ := h
  cases hd : v.isDir with
  | true =>
    have hdat := hdata hd
    simp [writeEntry, h2, h3, push_sound K d _ hs, hd, Dev.sound, h1, h4, tarStream, hdat]
  | false =>
    have hp2 : ∀ (d1 : Dev) bs, d1.cap = none → d1.failed = false →
        push K d1 bs = ({ d1 with pushed := d1.pushed ++ bs }, true) := by
      intro d1 bs c1 c2
      simp [push, c1, c2, fits]
    simp [writeEntry, h2, h3, push_sound K d _ hs, hd, liveData, hloc, hp2, h1, Dev.sound,
      h4, tarStream]

theorem runWalk_stream (K : Codec) (src : Str) (excl : List Str) (dstLoc : List Str)
    (L : List Visit) : ∀ d : Dev, d.sound → (∀ v ∈ L, v.loc ≠ dstLoc) →
    (∀ v ∈ L, v.isDir = true → v.data = []) →
    (∀ v ∈ L, kept src excl v.path = true → Rel src v.path ≠ none) →
    (runWalk (walkFn K src excl dstLoc) d L).2 = none ∧
    (runWalk (walkFn K src excl dstLoc) d L).1.sound ∧
    (runWalk (walkFn K src excl dstLoc) d L).1.gz = d.gz ∧
    ∀ rest, (runWalk (walkFn K src excl dstLoc) d L).1.pushed ++
        (runWalk (walkFn K src excl dstLoc) d L).1.pad ++ tarStream K rest =
      d.pushed ++ d.pad ++
        tarStream K ((L.filter (fun v => kept src excl v.path)).map (entryOf src) ++ rest) := by
  induction L with
  | nil =>
    intro d h _ _ _
    exact ⟨rfl, h, rfl, fun rest => by simp [runWalk]⟩
  | cons v vs ih =>
    intro d h hloc hdata hrel
    have hvs := ih
    by_cases hk : kept src excl v.path = true
    · have hrv := hrel v (by simp) hk
      obtain ⟨name, hname⟩ := Option.ne_none_iff_exists'.mp hrv
      have hk2 := hk
      simp only [kept, Bool.and_eq_true, decide_eq_true_eq, Bool.not_eq_true'] at hk2
      have hwf : walkFn K src excl dstLoc d v = writeEntry K dstLoc d v name := by
        simp [walkFn, hk2.1, hk2.2, hname]
      obtain ⟨w1, w2, w3, w4⟩ := writeEntry_sound K dstLoc d v name h (hloc v (by simp))
        (hdata v (by simp))
      have hstep : runWalk (walkFn K src excl dstLoc) d (v :: vs) =
          runWalk (walkFn K src excl dstLoc) (writeEntry K dstLoc d v name).1 vs := by
        simp only [runWalk, hwf]
        cases hwe : writeEntry K dstLoc d v name with
        | mk d1 e =>
          rw [hwe] at w1
          simp only at w1
          subst w1
          rfl
      rw [hstep]
      obtain ⟨i1, i2, i3, i4⟩ := hvs _ w2 (fun x hx => hloc x (by simp [hx]))
        (fun x hx => hdata x (by simp [hx])) (fun x hx => hrel x (by simp [hx]))
      refine ⟨i1, i2, by rw [i3, w3], ?_⟩
      intro rest
      rw [i4 rest, w4]
      simp [List.filter_cons, hk, entryOf, hname]
    · have hwf : walkFn K src excl dstLoc d v = (d, none) := by
        simp only [kept, Bool.and_eq_true, decide_eq_true_eq, Bool.not_eq_true', not_and,
          Bool.not_eq_false] at hk
        unfold walkFn
        by_cases h1 : src = v.path
        · simp [h1]
        · simp [h1, hk h1]
      have hstep : runWalk (walkFn K src excl dstLoc) d (v :: vs) =
          runWalk (walkFn K src excl dstLoc) d vs := by
        simp [runWalk, hwf]
      rw [hstep]
      obtain ⟨i1, i2, i3, i4⟩ := hvs d h (fun x hx => hloc x (by simp [hx]))
        (fun x hx => hdata x (by simp [hx])) (fun x hx => hrel x (by simp [hx]))
      refine ⟨i1, i2, i3, ?_⟩
      intro rest
      rw [i4 rest]
      simp [List.filter_cons, hk]

theorem finish_sound (K : Codec) (d : Dev) (h : d.sound) :
    onDisk K (finish K d) =
      if d.gz then K.gzAll (d.pushed ++ d.pad ++ K.trailer) else d.pushed ++ d.pad ++ K.trailer := by
  obtain ⟨h1, h2, h3, h4⟩ := h
  cases hg : d.gz <;>
    simp [finish, h2, h3, push, h1, fits, onDisk, emitted, hg, h4]

/-! ## System calls on cleaned absolute paths -/

theorem get_prefix_ne_none (t : Node) (p r : List Str) (h : t.get (p ++ r) ≠ none) :
    t.get p ≠ none := by
  rw [Node.get_append] at h
  intro e
  rw [e] at h
  simp at h

theorem walkComps_names (names : List Str) : ∀ (t : Node) (cur : List Str),
    (∀ c ∈ names, goodName c = true) → t.get (cur ++ names) ≠ none →
    walkComps t cur names = .ok (cur ++ names) := by
  induction names with
  | nil => intro t cur _ _; simp [walkComps]
  | cons c rest ih =>
    intro t cur hg hne
    obtain ⟨ks, hks⟩ := Node.get_parent_dir t cur c rest hne
    have hc := (goodName_iff c).mp (hg c (by simp))
    have h1 : t.get (cur ++ [c]) ≠ none := by
      have : cur ++ c :: rest = (cur ++ [c]) ++ rest := by simp
      rw [this] at hne
      exact get_prefix_ne_none t _ _ hne
    rw [get_concat_of_dir t cur c ks hks] at h1
    have hstep : stepComp t cur c = .ok (cur ++ [c]) := by
      unfold stepComp
      simp only [hks, hc.1, hc.2.2.1, hc.2.2.2, or_self, ↓reduceIte]
      cases hl : kidLookup c ks with
      | none => exact absurd hl h1
      | some k => rfl
    simp only [walkComps, hstep]
    have := ih t (cur ++ [c]) (fun x hx => hg x (by simp [hx])) (by simpa using hne)
    simpa using this

theorem splitSlash_render_true (names : List Str) (hne : names ≠ [])
    (hg : ∀ c ∈ names, goodName c = true) : splitSlash (render true names) = [] :: names := by
  simp only [render, ↓reduceIte]
  have := splitSlash_append_slash [] (joinSlash names)
  simp only [List.nil_append] at this
  rw [this, splitSlash_joinSlash names hne (fun p hp => ((goodName_iff p).mp (hg p hp)).2.1)]
  simp [splitSlash]

theorem stepComp_root_empty (t : Node) (ks : List (Str × Node)) (h : t.get [] = some (.dir ks)) :
    stepComp t [] [] = .ok [] := by
  simp [stepComp, h]

theorem root_dir_of_get (t : Node) (p : List Str) (ks : List (Str × Node))
    (h : t.get p = some (.dir ks)) : ∃ ks0, t.get [] = some (.dir ks0) := by
  cases p with
  | nil => exact ⟨ks, h⟩
  | cons c rest => exact Node.get_parent_dir t [] c rest (by simp [h])

theorem isAbs_render_true (names : List Str) : IsAbs (render true names) = true := by
  simp [render, IsAbs]

theorem render_true_ne_nil (names : List Str) : render true names ≠ [] := by
  simp [render]

theorem startOf_render_true (w : World) (names : List Str) :
    startOf w (render true names) = [] := by
  simp [startOf, isAbs_render_true]

/-- Opening a cleaned absolute path for writing makes or empties the file. -/
theorem createAt_abs (w : World) (par : List Str) (c : Str) (ks : List (Str × Node))
    (hg : ∀ x ∈ par ++ [c], goodName x = true) (hpar : w.root.get par = some (.dir ks))
    (hold : ∀ ks1, w.root.get (par ++ [c]) ≠ some (.dir ks1)) :
    createAt w (render true (par ++ [c])) =
      .ok (⟨w.root.put (par ++ [c]) (.file []), w.cwd⟩, par ++ [c]) := by
  obtain ⟨ks0, hroot⟩ := root_dir_of_get w.root par ks hpar
  have hsp := splitSlash_render_true (par ++ [c]) (by simp) hg
  have hwalk : walkComps w.root [] ([] :: par) = .ok par := by
    simp only [walkComps, stepComp_root_empty w.root ks0 hroot]
    have := walkComps_names par w.root [] (fun x hx => hg x (by simp [hx])) (by simp [hpar])
    simpa using this
  have hc := (goodName_iff c).mp (hg c (by simp))
  have hlk := get_concat_of_dir w.root par c ks hpar
  unfold createAt
  simp only [render_true_ne_nil, ↓reduceIte, startOf_render_true, hsp]
  have hdl : ([] :: (par ++ [c])).dropLast = [] :: par := by
    rw [← List.cons_append, List.dropLast_concat]
  have hgl : ([] :: (par ++ [c])).getLast?.getD [] = c := by
    have : ([] : Str) :: (par ++ [c]) = (([] : Str) :: par) ++ [c] := rfl
    rw [this, List.getLast?_concat]
    rfl
  rw [hdl, hwalk]
  simp only [hpar, hgl, hc.1, hc.2.2.1, hc.2.2.2, or_self, ↓reduceIte]
  cases hl : kidLookup c ks with
  | none => rfl
  | some k =>
    cases k with
    | file d => rfl
    | dir ks1 =>
      rw [hl] at hlk
      exact absurd hlk (hold ks1)

theorem World.kindAt_put_leaf (w : World) (par : List Str) (c : Str) (v : Node)
    (ks : List (Str × Node)) (hpar : w.root.get par = some (.dir ks))
    (hold : ∀ ks1, w.root.get (par ++ [c]) ≠ some (.dir ks1))
    (hv : (∃ d, v = .file d) ∨ v = .dir []) (loc : List Str) :
    (World.mk (w.root.put (par ++ [c]) v) w.cwd).kindAt loc =
      if loc = par ++ [c] then some v.kind else w.kindAt loc :=
  Node.kind_put_leaf w.root par c v ks hpar hold hv loc

theorem kindAt_dir_iff (w : World) (loc : List Str) :
    w.kindAt loc = some Kind.dir ↔ ∃ ks, w.root.get loc = some (.dir ks) :=
  kind_eq_dir _

theorem kindAt_none_iff (w : World) (loc : List Str) :
    w.kindAt loc = none ↔ w.root.get loc = none :=
  kind_eq_none _

/-- The file of a cleaned absolute path after it has been opened for
writing and written. -/
theorem create_write_abs (w : World) (par : List Str) (c : Str) (body : Bytes)
    (hg : ∀ x ∈ par ++ [c], goodName x = true) (hpar : w.kindAt par = some Kind.dir)
    (hold : w.kindAt (par ++ [c]) ≠ some Kind.dir) :
    ∃ w1, createAt w (render true (par ++ [c])) = .ok (w1, par ++ [c]) ∧
      (w1.write (par ++ [c]) body).cwd = w.cwd ∧
      ∀ loc, (w1.write (par ++ [c]) body).kindAt loc =
        if loc = par ++ [c] then some (Kind.file body) else w.kindAt loc := by
  obtain ⟨ks, hks⟩ := (kindAt_dir_iff w par).mp hpar
  have hold' : ∀ ks1, w.root.get (par ++ [c]) ≠ some (.dir ks1) := by
    intro ks1 e
    exact hold ((kindAt_dir_iff w _).mpr ⟨ks1, e⟩)
  refine ⟨_, createAt_abs w par c ks hg hks hold', rfl, ?_⟩
  intro loc
  have k1 := World.kindAt_put_leaf w par c (.file []) ks hks hold' (Or.inl ⟨[], rfl⟩)
  -- the state after the file has been made
  have hpar1 : ∃ ks1, (w.root.put (par ++ [c]) (.file [])).get par = some (.dir ks1) := by
    have := k1 par
    have hne : par ≠ par ++ [c] := by
      intro e
      have := congrArg List.length e
      simp at this
    simp only [hne, ↓reduceIte] at this
    rw [hpar] at this
    exact (kind_eq_dir _).mp this
  obtain ⟨ks1, hks1⟩ := hpar1
  have hold1 : ∀ ks2, (w.root.put (par ++ [c]) (.file [])).get (par ++ [c]) ≠ some (.dir ks2) := by
    intro ks2 e
    have := k1 (par ++ [c])
    simp only [↓reduceIte] at this
    have h2 : (World.mk (w.root.put (par ++ [c]) (.file [])) w.cwd).kindAt (par ++ [c]) =
        some Kind.dir := (kind_eq_dir _).mpr ⟨ks2, e⟩
    rw [h2] at this
    simp [Node.kind] at this
  have k2 := World.kindAt_put_leaf (World.mk (w.root.put (par ++ [c]) (.file [])) w.cwd) par c
    (.file body) ks1 hks1 hold1 (Or.inl ⟨body, rfl⟩) loc
  simp only [World.write]
  rw [k2, k1 loc]
  by_cases hl : loc = par ++ [c]
  · simp [hl, Node.kind]
  · simp [hl]

theorem mkdirStep_name (root : Node) (cur : List Str) (c : Str) (ks : List (Str × Node))
    (hcur : root.get cur = some (.dir ks)) (hc : goodName c = true) :
    mkdirStep root cur c =
      .ok (if (root.get (cur ++ [c])).map Node.kind = none
        then root.put (cur ++ [c]) (.dir []) else root, cur ++ [c]) := by
  have hcc := (goodName_iff c).mp hc
  have hlk := get_concat_of_dir root cur c ks hcur
  unfold mkdirStep
  simp only [hcur, hcc.1, hcc.2.2.1, hcc.2.2.2, or_self, ↓reduceIte]
  rw [hlk]
  cases kidLookup c ks with
  | none => simp
  | some k => simp

theorem prefix_concat_cases (loc cur : List Str) (c : Str) (rest : List Str)
    (h : loc <+: cur ++ c :: rest) : loc <+: cur ∨ (cur ++ [c]) <+: loc := by
  obtain ⟨r, hr⟩ := h
  rcases List.append_eq_append_iff.mp hr with ⟨a, h1, h2⟩ | ⟨b, h1, h2⟩
  · -- cur = loc ++ a
    exact Or.inl ⟨a, h1.symm⟩
  · -- loc = cur ++ b
    cases b with
    | nil =>
      simp only [List.append_nil] at h1
      exact Or.inl ⟨[], by simp [h1]⟩
    | cons x xs =>
      simp only [List.cons_append, List.cons.injEq] at h2
      right
      exact ⟨xs, by rw [h1, h2.1]; simp⟩

/-- Function `os.MkdirAll` along names below an existing directory: it makes what
is missing, and nothing else changes. -/
theorem mkdirComps_names (names : List Str) : ∀ (root : Node) (cur : List Str),
    (∀ c ∈ names, goodName c = true) → (∃ ks, root.get cur = some (.dir ks)) →
    (∀ q, q <+: names → (root.get (cur ++ q)).map Node.kind = none ∨
      (root.get (cur ++ q)).map Node.kind = some Kind.dir) →
    (mkdirComps root cur names).2 = none ∧
    ∀ loc, ((mkdirComps root cur names).1.get loc).map Node.kind =
      if loc <+: cur ++ names ∧ (root.get loc).map Node.kind = none then some Kind.dir
      else (root.get loc).map Node.kind := by
  induction names with
  | nil =>
    intro root cur _ hcur _
    obtain ⟨ks, hks⟩ := hcur
    simp only [mkdirComps, hks, List.append_nil, true_and]
    intro loc
    split
    · rename_i h
      obtain ⟨r, hr⟩ := h.1
      have : root.get loc ≠ none := by
        apply get_prefix_ne_none root loc r
        rw [hr, hks]
        simp
      exact absurd ((kind_eq_none _).mp h.2) this
    · rfl
  | cons c rest ih =>
    intro root cur hg hcur hpre
    obtain ⟨ks, hks⟩ := hcur
    have hc := hg c (by simp)
    simp only [mkdirComps, mkdirStep_name root cur c ks hks hc]
    have hpc := hpre [c] (by simp)
    -- the tree after the step
    have hstep : ∀ loc, ((if (root.get (cur ++ [c])).map Node.kind = none
        then root.put (cur ++ [c]) (.dir []) else root).get loc).map Node.kind =
        if loc = cur ++ [c] then some Kind.dir else (root.get loc).map Node.kind := by
      intro loc
      split
      · rename_i hn
        have hold : ∀ ks1, root.get (cur ++ [c]) ≠ some (.dir ks1) := by
          intro ks1 e
          rw [e] at hn
          simp at hn
        have := Node.kind_put_leaf root cur c (.dir []) ks hks hold (Or.inr rfl) loc
        rw [this]
        simp [Node.kind]
      · rename_i hn
        rcases hpc with h | h
        · exact absurd h hn
        · by_cases hl : loc = cur ++ [c]
          · simp [hl, h]
          · simp [hl]
    have hcur1 : ∃ ks1, (if (root.get (cur ++ [c])).map Node.kind = none
        then root.put (cur ++ [c]) (.dir []) else root).get (cur ++ [c]) = some (.dir ks1) := by
      have := hstep (cur ++ [c])
      simp only [↓reduceIte] at this
      exact (kind_eq_dir _).mp this
    have hpre1 : ∀ q, q <+: rest → ((if (root.get (cur ++ [c])).map Node.kind = none
        then root.put (cur ++ [c]) (.dir []) else root).get ((cur ++ [c]) ++ q)).map Node.kind
          = none ∨ ((if (root.get (cur ++ [c])).map Node.kind = none
        then root.put (cur ++ [c]) (.dir []) else root).get ((cur ++ [c]) ++ q)).map Node.kind
          = some Kind.dir := by
      intro q hq
      rw [hstep]
      split
      · exact Or.inr rfl
      · have := hpre (c :: q) ((List.prefix_cons_inj c).mpr hq)
        simpa using this
    obtain ⟨i1, i2⟩ := ih _ (cur ++ [c]) (fun x hx => hg x (by simp [hx])) hcur1 hpre1
    refine ⟨i1, ?_⟩
    intro loc
    rw [i2 loc, hstep loc]
    have happ : cur ++ [c] ++ rest = cur ++ c :: rest := by simp
    rw [happ]
    by_cases hl : loc = cur ++ [c]
    · subst hl
      simp only [↓reduceIte]
      have hp : (cur ++ [c]) <+: cur ++ c :: rest := ⟨rest, by simp⟩
      rcases hpc with h | h
      · simp [h, hp]
      · simp [h]
    · simp only [hl, ↓reduceIte]

theorem prefix_nil_iff (loc : List Str) : loc <+: ([] : List Str) ↔ loc = [] :=
  List.prefix_nil

/-- Function `os.MkdirAll` of a cleaned absolute path. -/
theorem MkdirAll_abs (w : World) (names : List Str) (hg : ∀ c ∈ names, goodName c = true)
    (hpre : ∀ q, q <+: names → w.kindAt q = none ∨ w.kindAt q = some Kind.dir) :
    (MkdirAll w (render true names)).2 = none ∧
    (MkdirAll w (render true names)).1.cwd = w.cwd ∧
    ∀ loc, (MkdirAll w (render true names)).1.kindAt loc =
      if loc <+: names ∧ w.kindAt loc = none then some Kind.dir else w.kindAt loc := by
  have hroot : ∃ ks, w.root.get [] = some (.dir ks) := by
    rcases hpre [] List.nil_prefix with h | h
    · rw [kindAt_none_iff, Node.get_nil] at h
      cases h
    · exact (kindAt_dir_iff w []).mp h
  obtain ⟨ks0, hks0⟩ := hroot
  have hstep0 : mkdirStep w.root [] [] = .ok (w.root, []) := by
    simp [mkdirStep, hks0]
  have key := mkdirComps_names names w.root [] hg ⟨ks0, hks0⟩ hpre
  simp only [List.nil_append] at key
  unfold MkdirAll
  simp only [render_true_ne_nil, ↓reduceIte, startOf_render_true]
  cases hn : names with
  | nil =>
    subst hn
    have : splitSlash (render true []) = [[], []] := by
      simp [render, joinSlash, splitSlash]
    simp only [this, mkdirComps, hstep0, hks0, true_and]
    intro loc
    split
    · rename_i h
      have := List.prefix_nil.mp h.1
      subst this
      have h2 := h.2
      rw [kindAt_none_iff, Node.get_nil] at h2
      cases h2
    · rfl
  | cons a rest =>
    rw [← hn]
    rw [splitSlash_render_true names (by rw [hn]; simp) hg]
    simp only [mkdirComps, hstep0]
    exact ⟨key.1, trivial, key.2⟩

/-! ## The destination of `Extract` -/

theorem normalParts_rooted_good (ps : List Str) (h : NormalParts true ps) :
    ∀ c ∈ ps, goodName c = true := by
  obtain ⟨k, gs, rfl, hk, hg⟩ := h
  have := hk rfl
  subst this
  simpa using hg

theorem Abs_form (wd s : Str) (hwd : IsAbs wd = true) :
    ∃ t, IsAbs t = true ∧ Abs wd s = Clean t := by
  unfold Abs
  split
  · rename_i h
    exact ⟨s, h, rfl⟩
  · have hne : wd ≠ [] := by
      intro e
      simp [e, IsAbs] at hwd
    refine ⟨wd ++ '/' :: s, ?_, ?_⟩
    · rw [isAbs_append wd _ hne]
      exact hwd
    · simp [Join, hne]

theorem wd_isAbs (w : World) : IsAbs w.wd = true := by
  simp [World.wd, IsAbs]

/-- The directory `Extract` writes into: a cleaned absolute path of proper
names. -/
theorem destLoc_spec (w : World) (dst : Str) :
    Clean (Abs w.wd (if dst = [] then ['.'] else dst)) = render true (destLoc w dst) ∧
    ∀ c ∈ destLoc w dst, goodName c = true := by
  obtain ⟨t, ht, hA⟩ := Abs_form w.wd (if dst = [] then ['.'] else dst) (wd_isAbs w)
  have hnp : NormalParts true (cleanParts t) := by
    have := normalParts_cleanParts t
    rwa [ht] at this
  have hC : Clean t = render true (cleanParts t) := by
    unfold Clean
    rw [ht]
  have hdl : destLoc w dst = cleanParts t := by
    unfold destLoc
    rw [hA, Clean_Clean, hC, cleanParts_render true _ hnp]
  rw [hdl, hA, Clean_Clean, hC]
  exact ⟨rfl, normalParts_rooted_good _ hnp⟩

theorem normalParts_of_good (ps : List Str) (h : ∀ c ∈ ps, goodName c = true) :
    NormalParts true ps :=
  ⟨0, ps, by simp, fun _ => rfl, h⟩

/-- The target of an entry whose name is made of proper names. -/
theorem target_spec (dparts rel : List Str) (hd : ∀ c ∈ dparts, goodName c = true)
    (hr : ∀ c ∈ rel, goodName c = true) (hne : rel ≠ []) :
    Clean (Join (render true dparts) (joinSlash rel)) = render true (dparts ++ rel) := by
  have hnd := normalParts_of_good dparts hd
  have hj : Join (render true dparts) (joinSlash rel) = render true (dparts ++ rel) := by
    unfold Join Clean
    simp only [ne_eq, render_true_ne_nil, not_false_eq_true, ↓reduceIte]
    rw [isAbs_append _ _ (render_true_ne_nil dparts), isAbs_render_true]
    congr 1
    unfold cleanParts
    rw [isAbs_append _ _ (render_true_ne_nil dparts), isAbs_render_true,
      splitSlash_append_slash, List.foldl_append,
      splitSlash_joinSlash rel hne (fun p hp => ((goodName_iff p).mp (hr p hp)).2.1)]
    have := cleanParts_render true dparts hnd
    unfold cleanParts at this
    rw [isAbs_render_true] at this
    rw [this, foldl_cleanStep_goods true rel dparts hr]
  rw [hj]
  exact Clean_render true _ (normalParts_of_good _ (by
    intro c hc
    simp only [List.mem_append] at hc
    rcases hc with hc | hc
    · exact hd c hc
    · exact hr c hc))

theorem joinSlash_front (ps rel : List Str) : joinSlash ps <+: joinSlash (ps ++ rel) := by
  induction rel using List.reverseRecOn with
  | nil => simp
  | append_singleton rel1 n ih =>
    by_cases hne : ps ++ rel1 = []
    · have hp : ps = [] := (List.append_eq_nil.mp hne).1
      subst hp
      simp [joinSlash]
    · rw [← List.append_assoc, joinSlash_append_singleton _ n hne]
      exact ih.trans (List.prefix_append _ _)

theorem HasPrefix_target (dparts rel : List Str) :
    HasPrefix (render true (dparts ++ rel)) (render true dparts) = true := by
  unfold HasPrefix
  rw [List.isPrefixOf_iff_prefix]
  simp only [render, ↓reduceIte]
  exact (List.prefix_cons_inj '/').mpr (joinSlash_front dparts rel)

/-! ## What stays as it is -/

theorem Node.keeps_refl (t : Node) : t.keeps t := fun _ _ => rfl

theorem Node.keeps_trans (a b c : Node) (h1 : a.keeps b) (h2 : b.keeps c) : a.keeps c := by
  intro loc hne
  have e1 := h1 loc hne
  have hb : b.get loc ≠ none := by
    intro e
    rw [e] at e1
    have : (a.get loc).map Node.kind = none := e1.symm
    exact hne ((kind_eq_none _).mp this)
  rw [h2 loc hb, e1]

theorem mkdirStep_keeps (root : Node) (cur : List Str) (c : Str) (root1 : Node)
    (cur1 : List Str) (h : mkdirStep root cur c = .ok (root1, cur1)) : root.keeps root1 := by
  unfold mkdirStep at h
  split at h
  · cases h
  · cases h
  · rename_i kids hk
    split at h
    · cases h
      exact Node.keeps_refl _
    · split at h
      · cases h
        exact Node.keeps_refl _
      · split at h
        · rename_i hl
          cases h
          have hg := get_concat_of_dir root cur c kids hk
          rw [hl] at hg
          intro loc hne
          have := Node.kind_put_leaf root cur c (.dir []) kids hk (by simp [hg]) (Or.inr rfl) loc
          rw [this]
          have hlne : loc ≠ cur ++ [c] := by
            intro e
            rw [e] at hne
            exact hne hg
          simp [hlne]
        · cases h
          exact Node.keeps_refl _

theorem mkdirComps_keeps (cs : List Str) : ∀ (root : Node) (cur : List Str),
    root.keeps (mkdirComps root cur cs).1 := by
  induction cs with
  | nil =>
    intro root cur
    simp only [mkdirComps]
    split <;> exact Node.keeps_refl _
  | cons c cs ih =>
    intro root cur
    simp only [mkdirComps]
    split
    · exact Node.keeps_refl _
    · rename_i root1 cur1 hs
      exact Node.keeps_trans _ _ _ (mkdirStep_keeps root cur c root1 cur1 hs) (ih root1 cur1)

theorem MkdirAll_keeps (w : World) (p : Str) : w.root.keeps (MkdirAll w p).1.root := by
  unfold MkdirAll
  split
  · exact Node.keeps_refl _
  · exact mkdirComps_keeps _ _ _

/-- What `createAt` has done when it succeeds. -/
theorem createAt_inv (w : World) (p : Str) (w2 : World) (loc : List Str)
    (h : createAt w p = .ok (w2, loc)) :
    p ≠ [] ∧ ∃ cur c ks, walkComps w.root (startOf w p) (splitSlash p).dropLast = .ok cur ∧
      splitSlash p = (splitSlash p).dropLast ++ [c] ∧ loc = cur ++ [c] ∧
      w.root.get cur = some (.dir ks) ∧ goodName c = true ∧
      (∀ ks1, w.root.get (cur ++ [c]) ≠ some (.dir ks1)) ∧
      w2 = ⟨w.root.put (cur ++ [c]) (.file []), w.cwd⟩ := by
  unfold createAt at h
  split at h
  · cases h
  · rename_i hp
    refine ⟨hp, ?_⟩
    split at h
    · cases h
    · rename_i cur hcur
      split at h
      · cases h
      · cases h
      · rename_i kids hk
        simp only at h
        split at h
        · cases h
        · rename_i hc
          simp only [not_or] at hc
          have hmem := mem_getLast?_getD (splitSlash p) (splitSlash_ne_nil p)
          have hns := splitSlash_noSlash p _ hmem
          have hgood : goodName ((splitSlash p).getLast?.getD []) = true :=
            (goodName_iff _).mpr ⟨hc.1, hns, hc.2.1, hc.2.2⟩
          have hg := get_concat_of_dir w.root cur ((splitSlash p).getLast?.getD []) kids hk
          have hold : ∀ ks1, w.root.get (cur ++ [(splitSlash p).getLast?.getD []])
              ≠ some (.dir ks1) := by
            intro ks1 e
            rw [hg] at e
            rw [e] at h
            cases h
          have hfin : w2 = World.mk (w.root.put (cur ++ [(splitSlash p).getLast?.getD []])
              (.file [])) w.cwd ∧ loc = cur ++ [(splitSlash p).getLast?.getD []] := by
            split at h
            · cases h
            · simp only [Except.ok.injEq, Prod.mk.injEq] at h
              exact ⟨h.1.symm, h.2.symm⟩
          refine ⟨cur, _, kids, hcur, ?_, hfin.2, hk, hgood, hold, hfin.1⟩
          have hne := splitSlash_ne_nil p
          rw [List.getLast?_eq_getLast _ hne]
          simp only [Option.getD_some]
          exact (List.dropLast_append_getLast hne).symm

theorem stepComp_name_exists (t : Node) (cur : List Str) (c : Str) (ks : List (Str × Node))
    (hcur : t.get cur = some (.dir ks)) (hc : goodName c = true)
    (hex : t.get (cur ++ [c]) ≠ none) : stepComp t cur c = .ok (cur ++ [c]) := by
  have hcc := (goodName_iff c).mp hc
  rw [get_concat_of_dir t cur c ks hcur] at hex
  unfold stepComp
  simp only [hcur, hcc.1, hcc.2.2.1, hcc.2.2.2, or_self, ↓reduceIte]
  cases hl : kidLookup c ks with
  | none => exact absurd hl hex
  | some k => rfl

/-- After `createAt` the path names the file that was made. -/
theorem createAt_resolve (w : World) (p : Str) (w2 : World) (loc : List Str)
    (hwf : w.root.wf = true) (h : createAt w p = .ok (w2, loc)) : resolve w2 p = .ok loc := by
  obtain ⟨hp, cur, c, ks, hwalk, hsp, hloc, hks, hc, hold, hw2⟩ := createAt_inv w p w2 loc h
  obtain ⟨_, hext, hcwd, hget, _⟩ := createAt_frame w p w2 loc hwf h
  unfold resolve
  simp only [hp, ↓reduceIte]
  have hst : startOf w2 p = startOf w p := by simp [startOf, hcwd]
  rw [hst, hsp, walkComps_append, walkComps_ext _ _ _ _ _ hext hwalk]
  simp only [walkComps]
  obtain ⟨ks2, hks2⟩ := (hext cur).1 ks hks
  rw [stepComp_name_exists w2.root cur c ks2 hks2 hc (by rw [← hloc, hget]; simp)]
  rw [hloc]

/-- The state after the content of an existing file has been replaced. -/
theorem write_spec (w : World) (par : List Str) (c : Str) (d0 data : Bytes)
    (hf : w.root.get (par ++ [c]) = some (.file d0)) :
    w.root.ext (w.write (par ++ [c]) data).root ∧ (w.write (par ++ [c]) data).cwd = w.cwd ∧
    (∀ loc, (w.write (par ++ [c]) data).kindAt loc =
      if loc = par ++ [c] then some (Kind.file data) else w.kindAt loc) ∧
    (∀ q, ¬ (par ++ [c]) <+: q → ¬ q <+: (par ++ [c]) →
      (w.write (par ++ [c]) data).root.get q = w.root.get q) := by
  obtain ⟨ks, hks⟩ := Node.get_parent_dir w.root par c [] (by simp [hf])
  have hold : ∀ ks1, w.root.get (par ++ [c]) ≠ some (.dir ks1) := by
    intro ks1 e
    rw [hf] at e
    cases e
  refine ⟨Node.ext_put_leaf w.root par c _ ks hks hold (Or.inl ⟨data, rfl⟩), rfl, ?_, ?_⟩
  · intro loc
    have := World.kindAt_put_leaf w par c (.file data) ks hks hold (Or.inl ⟨data, rfl⟩) loc
    simpa [World.write, Node.kind] using this
  · intro q h1 h2
    exact Node.get_put_diverge _ _ _ _ h1 h2

/-! ## One entry of `Extract` -/

theorem kindAt_prefix_dir (w : World) (p q : List Str) (h : w.kindAt p = some Kind.dir)
    (hq : q <+: p) : w.kindAt q = some Kind.dir := by
  obtain ⟨r, hr⟩ := hq
  obtain ⟨ks, hks⟩ := (kindAt_dir_iff w p).mp h
  cases r with
  | nil =>
    simp only [List.append_nil] at hr
    rw [hr]
    exact h
  | cons x xs =>
    rw [← hr] at hks
    obtain ⟨ks1, hks1⟩ := Node.get_parent_dir w.root q x xs (by simp [hks])
    exact (kindAt_dir_iff w q).mpr ⟨ks1, hks1⟩

theorem extractEntry_file (u : World) (dparts rp : List Str) (c : Str) (body : Bytes)
    (hd : ∀ x ∈ dparts, goodName x = true) (hr : ∀ x ∈ rp ++ [c], goodName x = true)
    (hpar : u.kindAt (dparts ++ rp) = some Kind.dir)
    (hold : u.kindAt (dparts ++ rp ++ [c]) ≠ some Kind.dir) :
    (extractEntry u (render true dparts) ⟨joinSlash (rp ++ [c]), false, body⟩).2 = none ∧
    (extractEntry u (render true dparts) ⟨joinSlash (rp ++ [c]), false, body⟩).1.cwd = u.cwd ∧
    ∀ loc, (extractEntry u (render true dparts) ⟨joinSlash (rp ++ [c]), false, body⟩).1.kindAt loc
      = if loc = dparts ++ rp ++ [c] then some (Kind.file body) else u.kindAt loc := by
  have ht := target_spec dparts (rp ++ [c]) hd hr (by simp)
  have hg : ∀ x ∈ (dparts ++ rp) ++ [c], goodName x = true := by
    intro x hx
    simp only [List.mem_append, List.mem_singleton] at hx
    rcases hx with (hx | hx) | hx
    · exact hd x hx
    · exact hr x (by simp [hx])
    · exact hr x (by simp [hx])
  obtain ⟨w1, hc1, hc2, hc3⟩ := create_write_abs u (dparts ++ rp) c body hg hpar hold
  have happ : dparts ++ (rp ++ [c]) = dparts ++ rp ++ [c] := by simp
  have hpfx : HasPrefix (render true (dparts ++ rp ++ [c])) (render true dparts) = true := by
    rw [← happ]
    exact HasPrefix_target _ _
  unfold extractEntry
  simp only [ht, hpfx, Bool.not_true, Bool.false_eq_true, ↓reduceIte, happ, hc1]
  exact ⟨trivial, hc2, hc3⟩

theorem extractEntry_dir (u : World) (dparts rp : List Str) (c : Str) (body : Bytes)
    (hd : ∀ x ∈ dparts, goodName x = true) (hr : ∀ x ∈ rp ++ [c], goodName x = true)
    (hpar : u.kindAt (dparts ++ rp) = some Kind.dir)
    (hold : u.kindAt (dparts ++ rp ++ [c]) = none ∨
      u.kindAt (dparts ++ rp ++ [c]) = some Kind.dir) :
    (extractEntry u (render true dparts) ⟨joinSlash (rp ++ [c]), true, body⟩).2 = none ∧
    (extractEntry u (render true dparts) ⟨joinSlash (rp ++ [c]), true, body⟩).1.cwd = u.cwd ∧
    ∀ loc, (extractEntry u (render true dparts) ⟨joinSlash (rp ++ [c]), true, body⟩).1.kindAt loc
      = if loc = dparts ++ rp ++ [c] then some Kind.dir else u.kindAt loc := by
  have ht := target_spec dparts (rp ++ [c]) hd hr (by simp)
  have hg : ∀ x ∈ (dparts ++ rp) ++ [c], goodName x = true := by
    intro x hx
    simp only [List.mem_append, List.mem_singleton] at hx
    rcases hx with (hx | hx) | hx
    · exact hd x hx
    · exact hr x (by simp [hx])
    · exact hr x (by simp [hx])
  have hproper : ∀ q, q <+: dparts ++ rp ++ [c] → q ≠ dparts ++ rp ++ [c] →
      u.kindAt q = some Kind.dir := by
    intro q hq hne
    obtain ⟨r, hr2⟩ := hq
    rcases List.eq_nil_or_concat r with rfl | ⟨ys, y, rfl⟩
    · simp only [List.append_nil] at hr2
      exact absurd hr2 hne
    · rw [List.concat_eq_append, ← List.append_assoc] at hr2
      have : q ++ ys = dparts ++ rp := List.append_inj_left' hr2 rfl
      exact kindAt_prefix_dir u _ q hpar ⟨ys, this⟩
  have hpre : ∀ q, q <+: dparts ++ rp ++ [c] → u.kindAt q = none ∨ u.kindAt q = some Kind.dir := by
    intro q hq
    by_cases hne : q = dparts ++ rp ++ [c]
    · rw [hne]
      exact hold
    · exact Or.inr (hproper q hq hne)
  obtain ⟨m1, m2, m3⟩ := MkdirAll_abs u (dparts ++ rp ++ [c]) hg hpre
  have happ : dparts ++ (rp ++ [c]) = dparts ++ rp ++ [c] := by simp
  have hpfx : HasPrefix (render true (dparts ++ rp ++ [c])) (render true dparts) = true := by
    rw [← happ]
    exact HasPrefix_target _ _
  unfold extractEntry
  simp only [ht, hpfx, Bool.not_true, Bool.false_eq_true, ↓reduceIte, happ, m1]
  refine ⟨trivial, m2, ?_⟩
  intro loc
  rw [m3 loc]
  by_cases hl : loc = dparts ++ rp ++ [c]
  · subst hl
    simp only [↓reduceIte]
    rcases hold with h | h
    · rw [if_pos ⟨List.prefix_refl _, h⟩]
    · rw [if_neg (by rw [h]; simp), h]
  · simp only [hl, ↓reduceIte]
    split
    · rename_i h
      have := hproper loc h.1 hl
      rw [h.2] at this
      cases this
    · rfl

/-! ## From `Archive` to `Extract` -/

/-- The state in which `Archive` reads the source, when the destination
could be opened. -/
theorem Archive_stage (w w1 w2 : World) (src dst : Str) (dstLoc : List Str)
    (hwf : w.root.wf = true) (hpe : pathExists w src = true)
    (hw1 : w1 = w ∨ w1 = (MkdirAll w (Dir dst)).1)
    (hc : createAt w1 dst = .ok (w2, dstLoc)) :
    w2.root.wf = true ∧ IsDir w2 src = IsDir w src ∧ w.root.ext w2.root ∧ w2.cwd = w.cwd ∧
    resolve w2 dst = .ok dstLoc ∧ w2.root.get dstLoc = some (.file []) ∧
    (∃ par c, dstLoc = par ++ [c]) ∧
    (∀ loc, w.root.get loc ≠ none → loc ≠ dstLoc → w2.kindAt loc = w.kindAt loc) := by
  have h1 : w1.root.wf = true ∧ w.root.ext w1.root ∧ w1.cwd = w.cwd ∧ w.root.keeps w1.root := by
    rcases hw1 with rfl | rfl
    · exact ⟨hwf, Node.ext_refl _, rfl, Node.keeps_refl _⟩
    · obtain ⟨a, b, c⟩ := MkdirAll_frame w (Dir dst) hwf
      exact ⟨a, b, c, MkdirAll_keeps w (Dir dst)⟩
  obtain ⟨h2, h3, h4, h5, _⟩ := createAt_frame w1 dst w2 dstLoc h1.1 hc
  obtain ⟨_, cur, c, ks, _, _, hloc, hks, _, hold, hw2⟩ := createAt_inv w1 dst w2 dstLoc hc
  have hext := Node.ext_trans _ _ _ h1.2.1 h3
  refine ⟨h2, IsDir_ext w w2 src hext (by rw [h4, h1.2.2.1]) hpe, hext, by rw [h4, h1.2.2.1],
    createAt_resolve w1 dst w2 dstLoc h1.1 hc, h5, ⟨cur, c, hloc⟩, ?_⟩
  intro loc hne hl
  have hk1 := h1.2.2.2 loc hne
  have := World.kindAt_put_leaf w1 cur c (.file []) ks hks hold (Or.inl ⟨[], rfl⟩) loc
  rw [← hw2] at this
  rw [this]
  rw [← hloc]
  simp only [hl, ↓reduceIte]
  exact hk1

theorem ext_of_kinds (t t1 : Node)
    (h : ∀ loc, t.get loc ≠ none → (t1.get loc).map Node.kind = (t.get loc).map Node.kind) :
    t.ext t1 := by
  intro loc
  constructor
  · intro ks hk
    have := h loc (by simp [hk])
    rw [hk] at this
    exact (kind_eq_dir _).mp this
  · intro d hk
    have := h loc (by simp [hk])
    rw [hk] at this
    exact ⟨d, (kind_eq_file _ d).mp this⟩

/-- Function `Extract` up to its loop, on an archive that can be read, into a fresh
directory. -/
theorem Extract_prelude (K : Codec) (u : World) (src dst : Str) (aloc : List Str)
    (content : Bytes) (es : List Entry)
    (hsuf : HasSuffix src suffixTar = true ∨ HasSuffix src suffixTarGz = true)
    (hres : resolve u src = .ok aloc) (hget : u.root.get aloc = some (.file content))
    (hfresh : freshAt u (destLoc u dst))
    (hdec : (if HasSuffix src suffixTarGz then K.untargz content else some (K.untar content))
      = some (es, TarEnd.eof)) :
    ∃ u4, u4.cwd = u.cwd ∧
      (∀ loc, u4.kindAt loc =
        if loc <+: destLoc u dst ∧ u.kindAt loc = none then some Kind.dir else u.kindAt loc) ∧
      Extract K u src dst = extractAll (render true (destLoc u dst)) u4 es := by
  obtain ⟨hd1, hd2⟩ := destLoc_spec u dst
  obtain ⟨m1, m2, m3⟩ := MkdirAll_abs u (destLoc u dst) hd2 hfresh.1
  refine ⟨(MkdirAll u (render true (destLoc u dst))).1, m2, m3, ?_⟩
  have hkeep : ∀ loc, u.root.get loc ≠ none →
      ((MkdirAll u (render true (destLoc u dst))).1.root.get loc).map Node.kind =
        (u.root.get loc).map Node.kind := by
    intro loc hne
    have := m3 loc
    have hn : ¬ (loc <+: destLoc u dst ∧ u.kindAt loc = none) := by
      intro h
      exact hne ((kindAt_none_iff u loc).mp h.2)
    simp only [hn, ↓reduceIte] at this
    exact this
  have hext := ext_of_kinds _ _ hkeep
  have hres4 := resolve_ext u _ src aloc hext m2 hres
  have hget4 : (MkdirAll u (render true (destLoc u dst))).1.root.get aloc
      = some (.file content) := by
    have := hkeep aloc (by simp [hget])
    rw [hget] at this
    exact (kind_eq_file _ _).mp this
  have hs : (!HasSuffix src suffixTar && !HasSuffix src suffixTarGz) = false := by
    rcases hsuf with h | h <;> simp [h]
  unfold Extract
  simp only [hs, Bool.false_eq_true, ↓reduceIte, hd1, m1, hres4, hget4, hdec]
  cases hx : extractAll (render true (destLoc u dst))
      (MkdirAll u (render true (destLoc u dst))).1 es with
  | mk w2 e =>
    cases e with
    | none => simp [extractEnd]
    | some er => simp

/-- Round trip of a single file when every write succeeds. On a well-formed tree, with encodings that give
back what was written: when `src` names a regular file with content `data`, `Archive`
of it to `dst` (in a destination without write failures) returns no error, `dst` is
afterwards another file than `src`, and the destination directory of `Extract` is fresh
(nothing is beneath it, and it and what is above it is a directory or missing), then
`Extract` of `dst` returns no error and leaves the file named by the base name of
`src` in that directory, with content `data`. -/
theorem Archive_Extract_file (K : Codec) (hK : K.Lawful) (w : World) (src dst out : Str)
    (floc : List Str) (data : Bytes) (hwf : w.root.wf = true)
    (hF : resolve w src = .ok floc) (hFd : w.root.get floc = some (.file data))
    (hok : (Archive K none w src dst []).err = none)
    (hA : ∀ aloc, resolve (Archive K none w src dst []).world dst = .ok aloc → aloc ≠ floc)
    (hfresh : freshAt (Archive K none w src dst []).world
      (destLoc (Archive K none w src dst []).world out)) :
    (Extract K (Archive K none w src dst []).world dst out).2 = none ∧
    (Extract K (Archive K none w src dst []).world dst out).1.kindAt
      (destLoc (Archive K none w src dst []).world out ++ [basename src])
        = some (Kind.file data) := by
  rcases Archive_cases K none w src dst [] with ⟨_, h0, _⟩ | ⟨w1, w2, dstLoc, hpe, hw1, hc,
    hsuf, hArch⟩
  · exact absurd hok h0
  · obtain ⟨hwf2, hdireq, hext, hcwd, hres2, hget2, ⟨par, c, hpc⟩, hkinds⟩ :=
      Archive_stage w w1 w2 src dst dstLoc hwf hpe hw1 hc
    -- the source is a regular file, also when it is read
    have hnd : IsDir w src = false := by
      cases h : IsDir w src with
      | false => rfl
      | true =>
        obtain ⟨_, loc, ks, h1, h2⟩ := (IsDir_iff w src).mp h
        rw [hF] at h1
        cases h1
        rw [hFd] at h2
        cases h2
    have hnd2 : IsDir w2 src = false := by rw [hdireq]; exact hnd
    have hresF := resolve_ext w w2 src floc hext hcwd hF
    -- the written state
    rw [hArch] at hA hfresh ⊢
    simp only at hA hfresh ⊢
    rw [hpc] at hget2
    obtain ⟨wext, wcwd, wkind, _⟩ := write_spec w2 par c []
      (onDisk K (finish K (archiveInto K w2 dstLoc
        ⟨HasSuffix dst suffixTarGz, none, [], [], 0, false, false, []⟩ src []).1)) hget2
    rw [← hpc] at wext wcwd wkind
    have hresA := resolve_ext w2 _ dst dstLoc wext wcwd hres2
    have hne : dstLoc ≠ floc := hA dstLoc hresA
    have hgetF : w2.root.get floc = some (.file data) := by
      have := hkinds floc (by simp [hFd]) (fun e => hne e.symm)
      simp only [World.kindAt, hFd, Option.map_some', Node.kind] at this
      exact (kind_eq_file _ _).mp this
    have hgood := basename_of_file w src floc data hF hFd
    -- what was written
    have hrun : archiveInto K w2 dstLoc
        ⟨HasSuffix dst suffixTarGz, none, [], [], 0, false, false, []⟩ src [] =
        writeEntry K dstLoc ⟨HasSuffix dst suffixTarGz, none, [], [], 0, false, false, []⟩
          ⟨src, floc, false, data⟩ (basename src) := by
      unfold archiveInto
      simp only [hnd2, Bool.false_eq_true, ↓reduceIte, hresF, hgetF]
    have hsound : (Dev.mk (HasSuffix dst suffixTarGz) none [] [] 0 false false []).sound :=
      ⟨rfl, rfl, rfl, rfl⟩
    obtain ⟨_, s2, s3, s4⟩ := writeEntry_sound K dstLoc _ ⟨src, floc, false, data⟩ (basename src)
      hsound (fun e => hne e.symm) (by simp)
    have hcontent := finish_sound K _ s2
    rw [s3] at hcontent
    have hstream := s4 []
    simp only [tarStream, List.nil_append] at hstream
    rw [← hrun] at hcontent hstream
    rw [hstream] at hcontent
    have hts : K.header (basename src) false data.length ++ data ++ K.padding data.length
        ++ K.trailer = tarStream K [⟨basename src, false, data⟩] := by
      simp [tarStream]
    rw [hts] at hcontent
    obtain ⟨l1, l2⟩ := hK [⟨basename src, false, data⟩] (by simp)
    have hgetA := wkind dstLoc
    simp only [↓reduceIte] at hgetA
    have hgetA' := (kind_eq_file _ _).mp hgetA
    have hdec : (if HasSuffix dst suffixTarGz then K.untargz (onDisk K (finish K (archiveInto K w2
        dstLoc ⟨HasSuffix dst suffixTarGz, none, [], [], 0, false, false, []⟩ src []).1))
        else some (K.untar (onDisk K (finish K (archiveInto K w2
        dstLoc ⟨HasSuffix dst suffixTarGz, none, [], [], 0, false, false, []⟩ src []).1))))
        = some ([⟨basename src, false, data⟩], TarEnd.eof) := by
      rw [hcontent]
      cases hz : HasSuffix dst suffixTarGz with
      | true => simpa using l2
      | false => simpa using l1
    obtain ⟨u4, u4cwd, u4kind, hE⟩ := Extract_prelude K _ dst out dstLoc _ _ hsuf hresA hgetA'
      hfresh hdec
    rw [hE]
    obtain ⟨hd1, hd2⟩ := destLoc_spec (w2.write dstLoc (onDisk K (finish K (archiveInto K w2
        dstLoc ⟨HasSuffix dst suffixTarGz, none, [], [], 0, false, false, []⟩ src []).1))) out
    generalize destLoc (w2.write dstLoc (onDisk K (finish K (archiveInto K w2
        dstLoc ⟨HasSuffix dst suffixTarGz, none, [], [], 0, false, false, []⟩ src []).1))) out
        = dparts at *
    have hpar : u4.kindAt (dparts ++ []) = some Kind.dir := by
      rw [List.append_nil, u4kind]
      split
      · rfl
      · rename_i hn
        rcases hfresh.1 dparts (List.prefix_refl _) with h | h
        · exact absurd ⟨List.prefix_refl _, h⟩ hn
        · exact h
    have hold : u4.kindAt (dparts ++ [] ++ [basename src]) ≠ some Kind.dir := by
      rw [List.append_nil, u4kind]
      have hnp : ¬ (dparts ++ [basename src]) <+: dparts := by
        intro h
        have := h.length_le
        simp at this
      have hfr := hfresh.2 [basename src] (by simp)
      simp [hnp, hfr]
    obtain ⟨x1, _, x3⟩ := extractEntry_file u4 dparts [] (basename src) data hd2
      (by simpa using hgood) hpar hold
    simp only [List.nil_append, joinSlash, List.append_nil] at x1 x3
    simp only [extractAll]
    cases hx : extractEntry u4 (render true dparts) ⟨basename src, false, data⟩ with
    | mk wf er =>
      rw [hx] at x1 x3
      simp only at x1 x3
      subst x1
      simp only
      exact ⟨trivial, by rw [x3]; simp⟩

/-! ## `Extract` of what the walk of a tree wrote -/

theorem extractAll_append (dst : Str) (a b : List Entry) : ∀ u : World,
    extractAll dst u (a ++ b) =
      match extractAll dst u a with
      | (u1, none) => extractAll dst u1 b
      | (u1, some e) => (u1, some e) := by
  induction a with
  | nil => intro u; simp [extractAll]
  | cons x xs ih =>
    intro u
    simp only [List.cons_append, extractAll]
    cases hx : extractEntry u dst x with
    | mk u1 e =>
      cases e with
      | none => exact ih u1
      | some er => rfl

theorem extractEntry_file_at (u : World) (dparts q : List Str) (n : Str) (body : Bytes)
    (hd : ∀ x ∈ dparts, goodName x = true) (hq : ∀ x ∈ q, goodName x = true)
    (hn : goodName n = true)
    (hpar : u.kindAt (dparts ++ q) = some Kind.dir)
    (hold : u.kindAt (dparts ++ (q ++ [n])) = none) :
    ∃ u1, extractEntry u (render true dparts) ⟨joinSlash (q ++ [n]), false, body⟩ = (u1, none) ∧
      ∀ loc, u1.kindAt loc = if loc = dparts ++ (q ++ [n]) then some (Kind.file body)
        else u.kindAt loc := by
  have hr : ∀ x ∈ q ++ [n], goodName x = true := by
    intro x hx
    simp only [List.mem_append, List.mem_singleton] at hx
    rcases hx with hx | hx
    · exact hq x hx
    · rw [hx]; exact hn
  have happ : dparts ++ q ++ [n] = dparts ++ (q ++ [n]) := by simp
  obtain ⟨x1, _, x3⟩ := extractEntry_file u dparts q n body hd hr hpar
    (by rw [happ, hold]; simp)
  rw [happ] at x3
  cases hx : extractEntry u (render true dparts) ⟨joinSlash (q ++ [n]), false, body⟩ with
  | mk u1 e =>
    rw [hx] at x1 x3
    simp only at x1 x3
    subst x1
    exact ⟨u1, rfl, x3⟩

theorem extractEntry_dir_at (u : World) (dparts q : List Str) (n : Str) (body : Bytes)
    (hd : ∀ x ∈ dparts, goodName x = true) (hq : ∀ x ∈ q, goodName x = true)
    (hn : goodName n = true)
    (hpar : u.kindAt (dparts ++ q) = some Kind.dir)
    (hold : u.kindAt (dparts ++ (q ++ [n])) = none) :
    ∃ u1, extractEntry u (render true dparts) ⟨joinSlash (q ++ [n]), true, body⟩ = (u1, none) ∧
      ∀ loc, u1.kindAt loc = if loc = dparts ++ (q ++ [n]) then some Kind.dir
        else u.kindAt loc := by
  have hr : ∀ x ∈ q ++ [n], goodName x = true := by
    intro x hx
    simp only [List.mem_append, List.mem_singleton] at hx
    rcases hx with hx | hx
    · exact hq x hx
    · rw [hx]; exact hn
  have happ : dparts ++ q ++ [n] = dparts ++ (q ++ [n]) := by simp
  obtain ⟨x1, _, x3⟩ := extractEntry_dir u dparts q n body hd hr hpar
    (by rw [happ]; exact Or.inl hold)
  rw [happ] at x3
  cases hx : extractEntry u (render true dparts) ⟨joinSlash (q ++ [n]), true, body⟩ with
  | mk u1 e =>
    rw [hx] at x1 x3
    simp only at x1 x3
    subst x1
    exact ⟨u1, rfl, x3⟩

theorem cons_ne_of_append (dparts q : List Str) (n m : Str) (r r1 : List Str) (h : n ≠ m) :
    dparts ++ (q ++ n :: r) ≠ dparts ++ (q ++ m :: r1) := by
  intro e
  have e1 := List.append_cancel_left e
  have e2 := List.append_cancel_left e1
  simp only [List.cons.injEq] at e2
  exact h e2.1

mutual
/-- Extracting the entries of the walk of a tree, at a name where there is
nothing, makes the tree there and changes nothing else. -/
theorem extract_node (dparts : List Str) (hd : ∀ x ∈ dparts, goodName x = true) :
    ∀ (c : Node) (q : List Str) (n : Str) (u : World), c.wf = true →
    (∀ x ∈ q, goodName x = true) → goodName n = true →
    u.kindAt (dparts ++ q) = some Kind.dir →
    (∀ r, u.kindAt (dparts ++ (q ++ n :: r)) = none) →
    (extractAll (render true dparts) u ((relsNode c).map
      (fun x => (⟨joinSlash (q ++ n :: x.1), x.2.isDir, x.2.data⟩ : Entry)))).2 = none ∧
    (∀ r, (extractAll (render true dparts) u ((relsNode c).map
      (fun x => (⟨joinSlash (q ++ n :: x.1), x.2.isDir, x.2.data⟩ : Entry)))).1.kindAt
        (dparts ++ (q ++ n :: r)) = (c.get r).map Node.kind) ∧
    (∀ loc, (∀ r, loc ≠ dparts ++ (q ++ n :: r)) →
      (extractAll (render true dparts) u ((relsNode c).map
        (fun x => (⟨joinSlash (q ++ n :: x.1), x.2.isDir, x.2.data⟩ : Entry)))).1.kindAt loc
        = u.kindAt loc)
  | .file d => by
    intro q n u _ hq hn hpar hfresh
    obtain ⟨u1, h1, h2⟩ := extractEntry_file_at u dparts q n d hd hq hn hpar (hfresh [])
    simp only [relsNode, List.map_cons, List.map_nil, Kind.isDir, Kind.data, extractAll, h1]
    refine ⟨trivial, ?_, ?_⟩
    · intro r
      rw [h2]
      cases r with
      | nil => simp [Node.get, Node.kind]
      | cons x xs =>
        have hne : dparts ++ (q ++ n :: x :: xs) ≠ dparts ++ (q ++ [n]) := by
          intro e
          have := congrArg List.length e
          simp at this
        simp only [hne, ↓reduceIte, hfresh (x :: xs)]
        rfl
    · intro loc hloc
      rw [h2]
      simp [hloc []]
  | .dir ks => by
    intro q n u hwf hq hn hpar hfresh
    obtain ⟨u1, h1, h2⟩ := extractEntry_dir_at u dparts q n [] hd hq hn hpar (hfresh [])
    have hq1 : ∀ x ∈ q ++ [n], goodName x = true := by
      intro x hx
      simp only [List.mem_append, List.mem_singleton] at hx
      rcases hx with hx | hx
      · exact hq x hx
      · rw [hx]; exact hn
    have hpar1 : u1.kindAt (dparts ++ (q ++ [n])) = some Kind.dir := by
      rw [h2]
      simp
    have hfresh1 : ∀ m r, kidLookup m ks ≠ none →
        u1.kindAt (dparts ++ ((q ++ [n]) ++ m :: r)) = none := by
      intro m r _
      rw [h2]
      have hne : dparts ++ (q ++ [n] ++ m :: r) ≠ dparts ++ (q ++ [n]) := by
        intro e
        have := congrArg List.length e
        simp at this
      simp only [hne, ↓reduceIte]
      have := hfresh (m :: r)
      simpa using this
    rw [wf_dir] at hwf
    obtain ⟨k1, k2, k3⟩ := extract_kids dparts hd ks (q ++ [n]) u1 hwf hq1 hpar1 hfresh1
    have hlist : (relsKids ks).map
        (fun x => (⟨joinSlash (q ++ n :: x.1), x.2.isDir, x.2.data⟩ : Entry)) =
        (relsKids ks).map
        (fun x => (⟨joinSlash ((q ++ [n]) ++ x.1), x.2.isDir, x.2.data⟩ : Entry)) := by
      apply List.map_congr_left
      intro x _
      simp
    have hl : (relsNode (Node.dir ks)).map
        (fun x => (⟨joinSlash (q ++ n :: x.1), x.2.isDir, x.2.data⟩ : Entry)) =
        (⟨joinSlash (q ++ [n]), true, []⟩ : Entry) :: (relsKids ks).map
        (fun x => (⟨joinSlash ((q ++ [n]) ++ x.1), x.2.isDir, x.2.data⟩ : Entry)) := by
      rw [← hlist]
      simp only [relsNode, List.map_cons]
      rfl
    rw [hl]
    simp only [extractAll, h1]
    refine ⟨k1, ?_, ?_⟩
    · intro r
      cases r with
      | nil =>
        rw [k3 _ (by
          intro m r _ e
          have := congrArg List.length e
          simp at this), hpar1]
        simp [Node.get, Node.kind]
      | cons m r1 =>
        have happ : dparts ++ (q ++ n :: m :: r1) = dparts ++ ((q ++ [n]) ++ m :: r1) := by simp
        rw [happ]
        by_cases hm : kidLookup m ks = none
        · rw [k3 _ (by
            intro m2 r2 hm2 e
            have e1 := List.append_cancel_left (List.append_cancel_left e)
            simp only [List.cons.injEq] at e1
            rw [e1.1] at hm
            exact hm2 hm)]
          rw [h2, ← happ]
          have hne : dparts ++ (q ++ n :: m :: r1) ≠ dparts ++ (q ++ [n]) := by
            intro e
            have := congrArg List.length e
            simp at this
          simp only [hne, ↓reduceIte, hfresh (m :: r1)]
          simp [Node.get, hm]
        · rw [k2 m r1 hm]
    · intro loc hloc
      rw [k3 loc (by
        intro m r _ e
        exact hloc (m :: r) (by rw [e]; simp)), h2]
      have := hloc []
      simp [this]
theorem extract_kids (dparts : List Str) (hd : ∀ x ∈ dparts, goodName x = true) :
    ∀ (kids : List (Str × Node)) (q : List Str) (u : World), wfKids kids = true →
    (∀ x ∈ q, goodName x = true) →
    u.kindAt (dparts ++ q) = some Kind.dir →
    (∀ n r, kidLookup n kids ≠ none → u.kindAt (dparts ++ (q ++ n :: r)) = none) →
    (extractAll (render true dparts) u ((relsKids kids).map
      (fun x => (⟨joinSlash (q ++ x.1), x.2.isDir, x.2.data⟩ : Entry)))).2 = none ∧
    (∀ n r, kidLookup n kids ≠ none →
      (extractAll (render true dparts) u ((relsKids kids).map
        (fun x => (⟨joinSlash (q ++ x.1), x.2.isDir, x.2.data⟩ : Entry)))).1.kindAt
        (dparts ++ (q ++ n :: r)) = ((Node.dir kids).get (n :: r)).map Node.kind) ∧
    (∀ loc, (∀ n r, kidLookup n kids ≠ none → loc ≠ dparts ++ (q ++ n :: r)) →
      (extractAll (render true dparts) u ((relsKids kids).map
        (fun x => (⟨joinSlash (q ++ x.1), x.2.isDir, x.2.data⟩ : Entry)))).1.kindAt loc
        = u.kindAt loc)
  | [] => by
    intro q u _ _ _ _
    simp [relsKids, extractAll, kidLookup]
  | (n, c) :: rest => by
    intro q u hwf hq hpar hfresh
    obtain ⟨w1, w2, w3, w4⟩ := (wfKids_cons n c rest).mp hwf
    have hlk : kidLookup n ((n, c) :: rest) = some c := by simp [kidLookup]
    obtain ⟨a1, a2, a3⟩ := extract_node dparts hd c q n u w3 hq w1 hpar
      (fun r => hfresh n r (by simp [hlk]))
    have hlist : (relsKids ((n, c) :: rest)).map
        (fun x => (⟨joinSlash (q ++ x.1), x.2.isDir, x.2.data⟩ : Entry)) =
        (relsNode c).map (fun x => (⟨joinSlash (q ++ n :: x.1), x.2.isDir, x.2.data⟩ : Entry))
        ++ (relsKids rest).map
          (fun x => (⟨joinSlash (q ++ x.1), x.2.isDir, x.2.data⟩ : Entry)) := by
      simp [relsKids, List.map_append, List.map_map, Function.comp_def]
    rw [hlist, extractAll_append]
    cases hx : extractAll (render true dparts) u ((relsNode c).map
        (fun x => (⟨joinSlash (q ++ n :: x.1), x.2.isDir, x.2.data⟩ : Entry))) with
    | mk u1 e =>
      rw [hx] at a1 a2 a3
      simp only at a1 a2 a3
      subst a1
      simp only
      have hne_rest : ∀ m, kidLookup m rest ≠ none → m ≠ n := by
        intro m hm e
        rw [e] at hm
        exact hm w2
      have hpar1 : u1.kindAt (dparts ++ q) = some Kind.dir := by
        rw [a3 _ (by
          intro r e
          have := congrArg List.length e
          simp at this)]
        exact hpar
      have hfresh1 : ∀ m r, kidLookup m rest ≠ none →
          u1.kindAt (dparts ++ (q ++ m :: r)) = none := by
        intro m r hm
        rw [a3 _ (fun r2 => cons_ne_of_append dparts q m n r r2 (hne_rest m hm))]
        apply hfresh m r
        simp [kidLookup, (hne_rest m hm).symm, hm]
      obtain ⟨b1, b2, b3⟩ := extract_kids dparts hd rest q u1 w4 hq hpar1 hfresh1
      refine ⟨b1, ?_, ?_⟩
      · intro m r hm
        by_cases hmn : m = n
        · subst hmn
          rw [b3 _ (by
            intro m2 r2 hm2
            exact cons_ne_of_append dparts q m m2 r r2 (fun e => hne_rest m2 hm2 e.symm)), a2 r]
          simp [Node.get, hlk]
        · have hm' : kidLookup m rest ≠ none := by
            have hnm : ¬ n = m := fun e => hmn e.symm
            simpa [kidLookup, hnm] using hm
          rw [b2 m r hm']
          have hnm : ¬ n = m := fun e => hmn e.symm
          simp [Node.get, kidLookup, hnm]
      · intro loc hloc
        rw [b3 loc (by
          intro m r hm
          apply hloc m r
          have hnm : ¬ n = m := fun e => hne_rest m hm e.symm
          simp [kidLookup, hnm, hm]), a3 loc (fun r => hloc n r (by simp [hlk]))]
end

theorem kept_nil (src p : Str) : kept src [] p = decide (src ≠ p) := by
  simp [kept]

/-- The entries `Archive` writes for a directory without exclusions: one
for every object below the directory, named by the names that lead to it. -/
theorem entries_of_walk (src : Str) (sloc : List Str) (ks : List (Str × Node)) (hs : src ≠ [])
    (hwf : wfKids ks = true) :
    ((walkNode src sloc (.dir ks)).filter (fun v => kept src [] v.path)).map (entryOf src) =
      (relsKids ks).map (fun x => (⟨joinSlash ([] ++ x.1), x.2.isDir, x.2.data⟩ : Entry)) := by
  rw [walkNode_eq]
  simp only [relsNode, List.map_cons]
  have hroot : kept src [] (visitAt src sloc ([], Kind.dir)).path = false := by
    rw [kept_nil, visitAt_root src sloc _ rfl]
    simp
  rw [List.filter_cons_of_neg (by simp [hroot])]
  have hgood := relsKids_good ks hwf
  have hne := relsKids_ne_nil ks
  have hall : ∀ v ∈ (relsKids ks).map (visitAt src sloc), kept src [] v.path = true := by
    intro v hv
    obtain ⟨x, hx, rfl⟩ := List.mem_map.mp hv
    rw [kept_nil]
    simpa using visitAt_path_ne src sloc x hs (hgood x hx) (hne x hx)
  rw [List.filter_eq_self.mpr hall, List.map_map]
  apply List.map_congr_left
  intro x hx
  simp only [Function.comp, entryOf, visitAt_path src sloc x hs (hgood x hx) (hne x hx),
    Rel_descendant src x.1 (hgood x hx) (hne x hx), Option.getD_some, List.nil_append]
  simp [visitAt]

theorem kind_isDir_data (k : Kind) (h : k.isDir = true) : k.data = [] := by
  cases k with
  | file d => simp [Kind.isDir] at h
  | dir => rfl

/-- Round trip of a directory when every write succeeds (the tree of the model has no
permission bits). On a well-formed tree of directories and regular
files, with encodings that give back what was written: when `src` names a directory,
`Archive` of it to `dst` without exclusions (in a destination without write failures)
returns no error, `dst` is afterwards not beneath `src`, and the destination directory
of `Extract` is fresh (nothing is beneath it, and it and what is above it is a directory
or missing), then `Extract` of `dst` returns no error, the destination is a directory, and
at every relative path it holds what `src` holds there: a directory for a directory, a
file with the same content for a file, nothing for nothing. -/
theorem Archive_Extract_directory (K : Codec) (hK : K.Lawful) (w : World)
    (src dst out : Str) (sloc : List Str) (hwf : w.root.wf = true)
    (hdir : IsDir w src = true)
    (hok : (Archive K none w src dst []).err = none)
    (hS : resolve (Archive K none w src dst []).world src = .ok sloc)
    (hA : ∀ aloc, resolve (Archive K none w src dst []).world dst = .ok aloc → ¬ sloc <+: aloc)
    (hfresh : freshAt (Archive K none w src dst []).world
      (destLoc (Archive K none w src dst []).world out)) :
    (Extract K (Archive K none w src dst []).world dst out).2 = none ∧
    (Extract K (Archive K none w src dst []).world dst out).1.kindAt
      (destLoc (Archive K none w src dst []).world out) = some Kind.dir ∧
    ∀ r, r ≠ [] →
      (Extract K (Archive K none w src dst []).world dst out).1.kindAt
        (destLoc (Archive K none w src dst []).world out ++ r) =
      (Archive K none w src dst []).world.kindAt (sloc ++ r) := by
  rcases Archive_cases K none w src dst [] with ⟨_, h0, _⟩ | ⟨w1, w2, dstLoc, hpe, hw1, hc,
    hsuf, hArch⟩
  · exact absurd hok h0
  · obtain ⟨hwf2, hdireq, hext, hcwd, hres2, hget2, ⟨par, c, hpc⟩, hkinds⟩ :=
      Archive_stage w w1 w2 src dst dstLoc hwf hpe hw1 hc
    have hsrc := src_ne_nil_of_pathExists w src hpe
    have hdir2 : IsDir w2 src = true := by rw [hdireq]; exact hdir
    obtain ⟨_, loc, ks, hr, hg⟩ := (IsDir_iff w2 src).mp hdir2
    rw [hArch] at hA hfresh hS ⊢
    simp only at hA hfresh hS ⊢
    rw [hpc] at hget2
    obtain ⟨wext, wcwd, wkind, _⟩ := write_spec w2 par c []
      (onDisk K (finish K (archiveInto K w2 dstLoc
        ⟨HasSuffix dst suffixTarGz, none, [], [], 0, false, false, []⟩ src []).1)) hget2
    rw [← hpc] at wext wcwd wkind
    have hresA := resolve_ext w2 _ dst dstLoc wext wcwd hres2
    have hresS := resolve_ext w2 _ src loc wext wcwd hr
    rw [hresS] at hS
    simp only [Except.ok.injEq] at hS
    subst hS
    have hout : ¬ loc <+: dstLoc := hA dstLoc hresA
    have hnode : (Node.dir ks).wf = true := (Node.wf_get loc w2.root _ hwf2 hg).1
    have hwfks : wfKids ks = true := by rwa [wf_dir] at hnode
    -- what was written
    have hrun : archiveInto K w2 dstLoc
        ⟨HasSuffix dst suffixTarGz, none, [], [], 0, false, false, []⟩ src [] =
        runWalk (walkFn K src [] dstLoc)
          ⟨HasSuffix dst suffixTarGz, none, [], [], 0, false, false, []⟩
          (walkNode src loc (.dir ks)) := by
      unfold archiveInto
      simp only [hdir2, ↓reduceIte, hr, hg]
    have hsound : (Dev.mk (HasSuffix dst suffixTarGz) none [] [] 0 false false []).sound :=
      ⟨rfl, rfl, rfl, rfl⟩
    have hvis : ∀ v ∈ walkNode src loc (.dir ks), ∃ x ∈ relsNode (.dir ks),
        v = visitAt src loc x := by
      intro v hv
      rw [walkNode_eq] at hv
      obtain ⟨x, hx, rfl⟩ := List.mem_map.mp hv
      exact ⟨x, hx, rfl⟩
    obtain ⟨_, s2, s3, s4⟩ := runWalk_stream K src [] dstLoc (walkNode src loc (.dir ks)) _ hsound
      (by
        intro v hv e
        obtain ⟨x, _, rfl⟩ := hvis v hv
        exact hout ⟨x.1, e⟩)
      (by
        intro v hv hd
        obtain ⟨x, _, rfl⟩ := hvis v hv
        exact kind_isDir_data x.2 hd)
      (by
        intro v hv hk
        obtain ⟨x, hx, rfl⟩ := hvis v hv
        have hxg := relsNode_good _ hnode x hx
        have hxne : x.1 ≠ [] := by
          intro e0
          rw [kept_nil, visitAt_root src loc x e0] at hk
          simp at hk
        rw [visitAt_path src loc x hsrc hxg hxne, Rel_descendant src x.1 hxg hxne]
        simp)
    have hcontent := finish_sound K _ s2
    rw [s3] at hcontent
    have hstream := s4 []
    simp only [tarStream, List.nil_append, List.append_nil] at hstream
    rw [entries_of_walk src loc ks hsrc hwfks] at hstream
    rw [← hrun] at hcontent hstream
    rw [hstream] at hcontent
    obtain ⟨l1, l2⟩ := hK ((relsKids ks).map
      (fun x => (⟨joinSlash ([] ++ x.1), x.2.isDir, x.2.data⟩ : Entry))) (by
        intro e he hd
        obtain ⟨x, _, rfl⟩ := List.mem_map.mp he
        exact kind_isDir_data x.2 hd)
    have hgetA := wkind dstLoc
    simp only [↓reduceIte] at hgetA
    have hgetA' := (kind_eq_file _ _).mp hgetA
    have hdec : (if HasSuffix dst suffixTarGz then K.untargz (onDisk K (finish K (archiveInto K w2
        dstLoc ⟨HasSuffix dst suffixTarGz, none, [], [], 0, false, false, []⟩ src []).1))
        else some (K.untar (onDisk K (finish K (archiveInto K w2
        dstLoc ⟨HasSuffix dst suffixTarGz, none, [], [], 0, false, false, []⟩ src []).1))))
        = some ((relsKids ks).map
          (fun x => (⟨joinSlash ([] ++ x.1), x.2.isDir, x.2.data⟩ : Entry)), TarEnd.eof) := by
      rw [hcontent]
      cases hz : HasSuffix dst suffixTarGz with
      | true => simpa using l2
      | false => simpa using l1
    obtain ⟨u4, u4cwd, u4kind, hE⟩ := Extract_prelude K _ dst out dstLoc _ _ hsuf hresA hgetA'
      hfresh hdec
    rw [hE]
    obtain ⟨hd1, hd2⟩ := destLoc_spec (w2.write dstLoc (onDisk K (finish K (archiveInto K w2
        dstLoc ⟨HasSuffix dst suffixTarGz, none, [], [], 0, false, false, []⟩ src []).1))) out
    generalize destLoc (w2.write dstLoc (onDisk K (finish K (archiveInto K w2
        dstLoc ⟨HasSuffix dst suffixTarGz, none, [], [], 0, false, false, []⟩ src []).1))) out
        = dparts at *
    have hpar : u4.kindAt (dparts ++ []) = some Kind.dir := by
      rw [List.append_nil, u4kind]
      split
      · rfl
      · rename_i hn
        rcases hfresh.1 dparts (List.prefix_refl _) with h | h
        · exact absurd ⟨List.prefix_refl _, h⟩ hn
        · exact h
    have hbelow : ∀ n r, u4.kindAt (dparts ++ ([] ++ n :: r)) = none := by
      intro n r
      rw [u4kind]
      have hnp : ¬ (dparts ++ ([] ++ n :: r)) <+: dparts := by
        intro h
        have := h.length_le
        simp at this
      simp only [hnp, false_and, ↓reduceIte]
      exact hfresh.2 (n :: r) (by simp)
    obtain ⟨b1, b2, b3⟩ := extract_kids dparts hd2 ks [] u4 hwfks (by simp) hpar
      (fun n r _ => hbelow n r)
    refine ⟨b1, ?_, ?_⟩
    · rw [b3 dparts (by
        intro n r _ e
        have := congrArg List.length e
        simp at this)]
      simpa using hpar
    · intro r hr0
      cases r with
      | nil => exact absurd rfl hr0
      | cons n r1 =>
        have hworld : (w2.write dstLoc (onDisk K (finish K (archiveInto K w2 dstLoc
            ⟨HasSuffix dst suffixTarGz, none, [], [], 0, false, false, []⟩ src []).1))).kindAt
            (loc ++ n :: r1) = ((Node.dir ks).get (n :: r1)).map Node.kind := by
          rw [wkind]
          have hne : loc ++ n :: r1 ≠ dstLoc := fun e => hout ⟨n :: r1, e⟩
          simp only [hne, ↓reduceIte, World.kindAt]
          rw [Node.get_append, hg]
          rfl
        rw [hworld]
        by_cases hm : kidLookup n ks = none
        · have := b3 (dparts ++ n :: r1) (by
            intro n2 r2 hn2 e
            have e1 := List.append_cancel_left e
            simp only [List.nil_append, List.cons.injEq] at e1
            rw [e1.1] at hm
            exact hn2 hm)
          rw [this]
          have hb := hbelow n r1
          simp only [List.nil_append] at hb
          rw [hb]
          simp [Node.get, hm]
        · have := b2 n r1 hm
          simpa using this

/-! ## The small encodings give back what was written -/

theorem map_ofNat_toNat (s : Str) : (s.map Char.toNat).map Char.ofNat = s := by
  induction s with
  | nil => rfl
  | cons c cs ih => simp [ih, Char.ofNat_toNat]

theorem toyUntarAux_stream (es : List Entry) : ∀ fuel, es.length < fuel →
    (∀ e ∈ es, e.isDir = true → e.body = []) →
    toyUntarAux fuel (tarStream toyCodec es) = (es, TarEnd.eof) := by
  induction es with
  | nil =>
    intro fuel hf _
    cases fuel with
    | zero => simp at hf
    | succ f => simp [tarStream, toyCodec, toyUntarAux]
  | cons e rest ih =>
    intro fuel hf hd
    cases fuel with
    | zero => simp at hf
    | succ f =>
      have hrest := ih f (by simpa using hf) (fun x hx => hd x (by simp [hx]))
      obtain ⟨name, isDir, body⟩ := e
      have hlen : ((name.map Char.toNat ++ [body.length]) ++ body ++ tarStream toyCodec rest).length
          ≥ name.length + 1 := by simp
      have htake : ((name.map Char.toNat ++ [body.length]) ++ body ++ tarStream toyCodec rest).take
          name.length = name.map Char.toNat := by
        rw [List.append_assoc, List.append_assoc]
        rw [List.take_append_of_le_length (by simp)]
        simp
      have hdrop : ((name.map Char.toNat ++ [body.length]) ++ body ++ tarStream toyCodec rest).drop
          name.length = body.length :: (body ++ tarStream toyCodec rest) := by
        rw [List.append_assoc, List.append_assoc]
        rw [List.drop_append_of_le_length (by simp)]
        simp
      cases isDir with
      | true =>
        have hb : body = [] := hd ⟨name, true, body⟩ (by simp) rfl
        subst hb
        have hstream : tarStream toyCodec (⟨name, true, []⟩ :: rest) =
            2 :: name.length :: ((name.map Char.toNat ++ [0]) ++ [] ++ tarStream toyCodec rest) := by
          simp [tarStream, toyCodec, toyHeader]
        rw [hstream]
        simp only [List.length_nil] at htake hdrop hlen
        simp only [toyUntarAux, OfNat.ofNat_ne_one, or_true, ↓reduceIte, htake, hdrop,
          map_ofNat_toNat, List.tail_cons, List.nil_append]
        have hnl : ¬ ((name.map Char.toNat ++ [0]) ++ [] ++ tarStream toyCodec rest).length
            < name.length + 1 := by omega
        simp only [List.append_nil] at hnl ⊢
        simp only [hnl, ↓reduceIte]
        have : tarStream toyCodec rest = tarStream toyCodec rest := rfl
        simp only [List.nil_append] at hrest
        rw [hrest]
      | false =>
        have hstream : tarStream toyCodec (⟨name, false, body⟩ :: rest) =
            1 :: name.length :: ((name.map Char.toNat ++ [body.length]) ++ body ++
              tarStream toyCodec rest) := by
          simp [tarStream, toyCodec, toyHeader]
        rw [hstream]
        have hnl : ¬ ((name.map Char.toNat ++ [body.length]) ++ body ++
            tarStream toyCodec rest).length < name.length + 1 := by omega
        simp only [toyUntarAux, true_or, ↓reduceIte, htake, hdrop, hnl, map_ofNat_toNat,
          List.tail_cons, List.headD_cons, OfNat.one_ne_ofNat]
        have h1 : ¬ (body ++ tarStream toyCodec rest).length < body.length := by simp
        simp only [h1, ↓reduceIte, List.take_left', List.drop_left', hrest]

theorem tarStream_length (es : List Entry) : es.length < (tarStream toyCodec es).length := by
  induction es with
  | nil => simp [tarStream, toyCodec]
  | cons e rest ih =>
    simp only [tarStream, toyCodec, toyHeader, List.length_cons, List.length_append,
      List.length_map, List.length_nil] at ih ⊢
    omega

theorem toyCodec_lawful : toyCodec.Lawful := by
  intro es hd
  have h1 : toyUntar (tarStream toyCodec es) = (es, TarEnd.eof) :=
    toyUntarAux_stream es _ (tarStream_length es) hd
  refine ⟨h1, ?_⟩
  show toyUntargz (toyGzAll (tarStream toyCodec es)) = some (es, TarEnd.eof)
  unfold toyGzAll toyUntargz
  simp [h1]

theorem freshAt_of_missing (w : World) (par : List Str) (c : Str)
    (hpar : w.kindAt par = some Kind.dir) (hc : w.kindAt (par ++ [c]) = none) :
    freshAt w (par ++ [c]) := by
  constructor
  · intro q hq
    by_cases he : q = par ++ [c]
    · rw [he]
      exact Or.inl hc
    · right
      obtain ⟨r, hr⟩ := hq
      rcases List.eq_nil_or_concat r with rfl | ⟨ys, y, rfl⟩
      · simp only [List.append_nil] at hr
        exact absurd hr he
      · rw [List.concat_eq_append, ← List.append_assoc] at hr
        exact kindAt_prefix_dir w par q hpar ⟨ys, List.append_inj_left' hr rfl⟩
  · intro r _
    rw [kindAt_none_iff] at hc ⊢
    rw [Node.get_append, hc]
    rfl

/-! ## The theorems at concrete inputs -/

theorem Archive_writes_the_unexcluded_witness :
    sampleWorld.root.wf = true ∧ IsDir sampleWorld "/d".toList = true ∧
    (Archive toyCodec none sampleWorld "/d".toList "/o.tar".toList ["y".toList]).err = none ∧
    (Archive toyCodec none sampleWorld "/d".toList "/o.tar".toList ["y".toList]).log.map
        Written.path =
      (Archive toyCodec none sampleWorld "/d".toList "/o.tar".toList ["y".toList]).walked.filter
        (kept "/d".toList ["y".toList]) :=
  ⟨by decide, by decide, by decide,
    (Archive_writes_the_unexcluded toyCodec none sampleWorld "/d".toList "/o.tar".toList
      ["y".toList] (by decide) (by decide) (by decide)).1⟩

theorem Archive_entry_names_relative_witness :
    sampleWorld.root.wf = true ∧ byteLen "/d".toList ≤ 468 ∧
    ∀ e ∈ (Archive toyCodec none sampleWorld "/d".toList "/o.tar".toList []).log,
      e.name.head? ≠ some '/' ∧ ['.', '.'] ∉ segments e.name :=
  ⟨by decide, by decide, fun e he =>
    ⟨((Archive_entry_names_relative toyCodec none sampleWorld "/d".toList "/o.tar".toList []
        (by decide) (by decide)).1 e he).1,
     ((Archive_entry_names_relative toyCodec none sampleWorld "/d".toList "/o.tar".toList []
        (by decide) (by decide)).1 e he).2.1⟩⟩

theorem Archive_ancestors_first_witness :
    sampleWorld.root.wf = true ∧ IsDir sampleWorld "/d".toList = true ∧
    ∀ pre e post,
      (Archive toyCodec none sampleWorld "/d".toList "/o.tar".toList ["x".toList]).log
        = pre ++ e :: post →
      ∀ par base, e.name = par ++ '/' :: base → '/' ∉ base →
        ∃ e1 ∈ pre, e1.name = par ∧ e1.isDir = true :=
  ⟨by decide, by decide,
    (Archive_ancestors_first toyCodec none sampleWorld "/d".toList "/o.tar".toList ["x".toList]
      (by decide) (by decide)).2⟩

theorem Archive_Extract_file_witness :
    toyCodec.Lawful ∧ sampleWorld.root.wf = true ∧
    resolve sampleWorld "/f".toList = .ok ["f".toList] ∧
    sampleWorld.root.get ["f".toList] = some (.file [1, 2, 3]) ∧
    (Archive toyCodec none sampleWorld "/f".toList "/o.tar.gz".toList []).err = none ∧
    (Extract toyCodec (Archive toyCodec none sampleWorld "/f".toList "/o.tar.gz".toList []).world
      "/o.tar.gz".toList "/res".toList).2 = none ∧
    (Extract toyCodec (Archive toyCodec none sampleWorld "/f".toList "/o.tar.gz".toList []).world
      "/o.tar.gz".toList "/res".toList).1.kindAt
      (destLoc (Archive toyCodec none sampleWorld "/f".toList "/o.tar.gz".toList []).world
        "/res".toList ++ [basename "/f".toList]) = some (Kind.file [1, 2, 3]) :=
  ⟨toyCodec_lawful, by decide, rfl, rfl, by decide,
    Archive_Extract_file toyCodec toyCodec_lawful sampleWorld "/f".toList "/o.tar.gz".toList
      "/res".toList ["f".toList] [1, 2, 3] (by decide) rfl rfl (by decide)
      (by
        intro aloc h
        have h2 : resolve (Archive toyCodec none sampleWorld "/f".toList "/o.tar.gz".toList
            []).world "/o.tar.gz".toList = .ok ["o.tar.gz".toList] := rfl
        rw [h2] at h
        cases h
        decide)
      (by
        have h1 : destLoc (Archive toyCodec none sampleWorld "/f".toList "/o.tar.gz".toList
            []).world "/res".toList = [] ++ ["res".toList] := by decide
        rw [h1]
        exact freshAt_of_missing _ [] _ (by decide) (by decide))⟩

theorem Archive_Extract_directory_witness :
    toyCodec.Lawful ∧ sampleWorld.root.wf = true ∧ IsDir sampleWorld "/d".toList = true ∧
    (Archive toyCodec none sampleWorld "/d".toList "/o.tar".toList []).err = none ∧
    (Extract toyCodec (Archive toyCodec none sampleWorld "/d".toList "/o.tar".toList []).world
      "/o.tar".toList "/res".toList).2 = none ∧
    ∀ r, r ≠ [] →
      (Extract toyCodec (Archive toyCodec none sampleWorld "/d".toList "/o.tar".toList []).world
        "/o.tar".toList "/res".toList).1.kindAt
        (destLoc (Archive toyCodec none sampleWorld "/d".toList "/o.tar".toList []).world
          "/res".toList ++ r) =
      (Archive toyCodec none sampleWorld "/d".toList "/o.tar".toList []).world.kindAt
        (["d".toList] ++ r) :=
  ⟨toyCodec_lawful, by decide, by decide, by decide,
    (Archive_Extract_directory toyCodec toyCodec_lawful sampleWorld "/d".toList "/o.tar".toList
      "/res".toList ["d".toList] (by decide) (by decide) (by decide) rfl
      (by
        intro aloc h
        have h2 : resolve (Archive toyCodec none sampleWorld "/d".toList "/o.tar".toList
            []).world "/o.tar".toList = .ok ["o.tar".toList] := rfl
        rw [h2] at h
        cases h
        decide)
      (by
        have h1 : destLoc (Archive toyCodec none sampleWorld "/d".toList "/o.tar".toList
            []).world "/res".toList = [] ++ ["res".toList] := by decide
        rw [h1]
        exact freshAt_of_missing _ [] _ (by decide) (by decide))).1,
    (Archive_Extract_directory toyCodec toyCodec_lawful sampleWorld "/d".toList "/o.tar".toList
      "/res".toList ["d".toList] (by decide) (by decide) (by decide) rfl
      (by
        intro aloc h
        have h2 : resolve (Archive toyCodec none sampleWorld "/d".toList "/o.tar".toList
            []).world "/o.tar".toList = .ok ["o.tar".toList] := rfl
        rw [h2] at h
        cases h
        decide)
      (by
        have h1 : destLoc (Archive toyCodec none sampleWorld "/d".toList "/o.tar".toList
            []).world "/res".toList = [] ++ ["res".toList] := by decide
        rw [h1]
        exact freshAt_of_missing _ [] _ (by decide) (by decide))).2.2⟩

/-! ## The code at the inputs where it parts from its description -/

/-- C2, the code at a failing input: extracting the archive `/a.tar`, whose
one entry is the file `../evil`, into `/e` succeeds and creates the file
`/evil`, which is not beneath `/e`: the target `/evil` has the string `/e` as
a prefix, and that is all the guard of `Extract` looks at. -/
theorem Extract_writes_outside_destination :
    (Extract toyCodec evilWorld "/a.tar".toList "/e".toList).2 = none ∧
    evilWorld.kindAt ["evil".toList] = none ∧
    (Extract toyCodec evilWorld "/a.tar".toList "/e".toList).1.kindAt ["evil".toList]
      = some (Kind.file [1]) := by
  decide

/-- C4, the code at a failing input: `Archive` of the existing file `/f`
to `/new/sub/out.zip` returns the extension error, and by then it has made
the directories `/new` and `/new/sub`. -/
theorem Archive_makes_directories_before_validation :
    (Archive toyCodec none sampleWorld "/f".toList "/new/sub/out.zip".toList []).err
      = some Error.badExtension ∧
    sampleWorld.kindAt ["new".toList] = none ∧
    (Archive toyCodec none sampleWorld "/f".toList "/new/sub/out.zip".toList []).world.kindAt
      ["new".toList, "sub".toList] = some Kind.dir := by
  decide

/-- C5, the code at a failing input: with room for seven bytes in the
destination, `Archive` of the three-byte file `/f` to `/o.tar` writes header
and content, the write of the trailer fails, and `Archive` returns no
error. -/
theorem Archive_drops_failed_trailer_write :
    (Archive toyCodec (some 7) sampleWorld "/f".toList "/o.tar".toList []).writeFailed = true ∧
    (Archive toyCodec (some 7) sampleWorld "/f".toList "/o.tar".toList []).err = none := by
  decide

/-- C8, the code at a failing input: `Archive` of the existing file `/f` to
`/new/`, which ends in neither suffix, returns the extension error and has
created the directory that `/new/` names. -/
theorem Archive_creates_dst_with_bad_extension :
    (Archive toyCodec none sampleWorld "/f".toList "/new/".toList []).err
      = some Error.badExtension ∧
    stat sampleWorld "/new/".toList = Except.error Errno.ENOENT ∧
    stat (Archive toyCodec none sampleWorld "/f".toList "/new/".toList []).world "/new/".toList
      = Except.ok Kind.dir := by
  refine ⟨by decide, rfl, rfl⟩

/-- C9, the code at a failing input: `/f/x` names nothing, as `/f` is a
regular file; `Archive` of it does not return the not-found error but the
error of `os.Open`, and by then it has created the destination `/out.tar`. -/
theorem Archive_missing_source_creates_dst :
    stat sampleWorld "/f/x".toList = Except.error Errno.ENOTDIR ∧
    (Archive toyCodec none sampleWorld "/f/x".toList "/out.tar".toList []).err
      = some (Error.sys Errno.ENOTDIR) ∧
    sampleWorld.kindAt ["out.tar".toList] = none ∧
    (Archive toyCodec none sampleWorld "/f/x".toList "/out.tar".toList []).world.kindAt
      ["out.tar".toList] = some (Kind.file [0]) := by
  refine ⟨rfl, by decide, by decide, by decide⟩


/-- C1, the code at a failing input: the file `/f` is archived to `/o.tar.gz`
in a destination with room for the two bytes the gzip writer puts in front and
for nothing of what it writes when it is closed. `Archive` returns no error
and leaves those two bytes; `Extract` of the archive into the missing `/res`
then fails at the first header, and no file `/res/f` exists. -/
theorem Archive_returns_nil_on_truncated_file_archive :
    sampleWorld.kindAt ["f".toList] = some (Kind.file [1, 2, 3]) ∧
    sampleWorld.kindAt ["res".toList] = none ∧
    (Archive toyCodec (some 2) sampleWorld "/f".toList "/o.tar.gz".toList []).err = none ∧
    (Archive toyCodec (some 2) sampleWorld "/f".toList "/o.tar.gz".toList []).world.kindAt
      ["o.tar.gz".toList] = some (Kind.file [31, 139]) ∧
    (Extract toyCodec
      (Archive toyCodec (some 2) sampleWorld "/f".toList "/o.tar.gz".toList []).world
      "/o.tar.gz".toList "/res".toList).2 = some Error.tarHeader ∧
    (Extract toyCodec
      (Archive toyCodec (some 2) sampleWorld "/f".toList "/o.tar.gz".toList []).world
      "/o.tar.gz".toList "/res".toList).1.kindAt ["res".toList, "f".toList] = none := by
  decide

/-- C3, the code at a failing input: the directory `/d`, which holds the file
`x`, is archived to `/o.tar.gz` in a destination with room for five bytes, less
than the gzip writer writes when it is closed. `Archive` returns no error and
every header is in its record; `Extract` of the archive into the missing `/res`
then fails, and `/res` holds no `x`. -/
theorem Archive_returns_nil_on_truncated_directory_archive :
    sampleWorld.kindAt ["d".toList, "x".toList] = some (Kind.file [7, 8]) ∧
    sampleWorld.kindAt ["res".toList] = none ∧
    (Archive toyCodec (some 5) sampleWorld "/d".toList "/o.tar.gz".toList []).err = none ∧
    (Archive toyCodec (some 5) sampleWorld "/d".toList "/o.tar.gz".toList []).log.map
      Written.name = ["x".toList, "y".toList, "y/z".toList] ∧
    (Extract toyCodec
      (Archive toyCodec (some 5) sampleWorld "/d".toList "/o.tar.gz".toList []).world
      "/o.tar.gz".toList "/res".toList).2 = some Error.tarHeader ∧
    (Extract toyCodec
      (Archive toyCodec (some 5) sampleWorld "/d".toList "/o.tar.gz".toList []).world
      "/o.tar.gz".toList "/res".toList).1.kindAt ["res".toList, "x".toList] = none := by
  decide

/-- C6, the code at a failing input: with the root as working directory,
`Archive` of the directory `./d` with the excluded path `./d/x` returns no
error and writes the file that `./d/x` names as the entry `x`: the walk hands
the file to the callback as `d/x`, in which the string `./d/x` does not occur.
With the source given as `/d` and the excluded path as `/d/x` the file is
skipped. -/
theorem Archive_writes_excluded_file :
    stat sampleWorld "./d/x".toList = Except.ok (Kind.file [7, 8]) ∧
    (Archive toyCodec none sampleWorld "./d".toList "/o.tar".toList ["./d/x".toList]).err
      = none ∧
    (Archive toyCodec none sampleWorld "./d".toList "/o.tar".toList ["./d/x".toList]).walked
      = ["./d".toList, "d/x".toList, "d/y".toList, "d/y/z".toList] ∧
    (Archive toyCodec none sampleWorld "./d".toList "/o.tar".toList ["./d/x".toList]).log
      = [⟨"d/x".toList, "x".toList, false⟩, ⟨"d/y".toList, "y".toList, true⟩,
         ⟨"d/y/z".toList, "y/z".toList, false⟩] ∧
    (Archive toyCodec none sampleWorld "/d".toList "/o.tar".toList ["/d/x".toList]).log
      = [⟨"/d/y".toList, "y".toList, true⟩, ⟨"/d/y/z".toList, "y/z".toList, false⟩] := by
  refine ⟨rfl, by decide, by decide, by decide, by decide⟩

set_option maxRecDepth 100000 in
/-- C7, the code at a failing input: `longSrc` (470 bytes) and `longSrcUp`
(469 bytes) name the directory `/d`, and `fsutil.IsDir` is false for a path
of more than 468 bytes, so `Archive` takes the branch for a single file: it
writes a header for the source itself, named `./` for the one and `../` for
the other, and returns the error of reading a directory. -/
theorem Archive_long_directory_source_writes_root :
    byteLen longSrc = 470 ∧ stat sampleWorld longSrc = Except.ok Kind.dir ∧
    IsDir sampleWorld longSrc = false ∧
    (Archive toyCodec none sampleWorld longSrc "/o.tar".toList []).err
      = some (Error.sys Errno.EISDIR) ∧
    (Archive toyCodec none sampleWorld longSrc "/o.tar".toList []).log
      = [⟨longSrc, "./".toList, true⟩] ∧
    byteLen longSrcUp = 469 ∧ stat sampleWorld longSrcUp = Except.ok Kind.dir ∧
    IsDir sampleWorld longSrcUp = false ∧
    (Archive toyCodec none sampleWorld longSrcUp "/o.tar".toList []).log
      = [⟨longSrcUp, "../".toList, true⟩] ∧
    "..".toList ∈ segments "../".toList := by
  refine ⟨by decide, rfl, by decide, by decide, by decide, by decide, rfl, by decide, by decide,
    by decide⟩

end Tarutil
